import Mathlib

/-
Verification of the BuildingRadar spatial chunk cache.

This file is a shallow embedding, in Lean 4, of the core of the
BuildingRadar repository: the grid-based spatial index, the chunk
partitioner, the LRU chunk cache, the persistence worker, and the
radius query engine (src/core/SpatialIndex.js, src/core/DataLoader.js,
src/core/FileProcessor.js, src/core/StorageManager.js,
src/core/StorageManagerWorker.js).  JavaScript numbers are modelled as
exact rationals (ℚ) or naturals (ℕ); JS `Map`s are modelled as
association lists preserving insertion order; JS `Set`s as duplicate-free
lists preserving insertion order; `Date.now()` is modelled as an explicit
timestamp argument.  The theorems at the end of the file settle the
specification claims about this code.
-/

namespace BuildingRadar

/-- A GeoJSON feature as the index sees it: the `geometry.type` tag, the
point coordinates `geometry.coordinates = [lon, lat]`, and an abstract
payload standing for the `properties` map (it only matters that two
features can be distinguished). -/
structure Feature where
  geomType : String
  lon : ℚ
  lat : ℚ
  payload : ℕ
  deriving DecidableEq, Repr

/-- A grid cell key.  The source serializes it as the string
`cellX + "," + cellY` (SpatialIndex.getCellKey / parseCellKey); we model
it directly as the pair of integers, which the source round-trips
through the string form. -/
abbrev CellKey := ℤ × ℤ

/-- SpatialIndex.getCellKey: `cellX = Math.floor(lon / cellSize)`,
`cellY = Math.floor(lat / cellSize)`. -/
def getCellKey (cellSize : ℚ) (lon lat : ℚ) : CellKey :=
  (⌊lon / cellSize⌋, ⌊lat / cellSize⌋)

/-- The grid `Map` of SpatialIndex: `cellKey -> [featureIndices]`,
as an association list in insertion order. -/
abbrev Grid := List (CellKey × List ℕ)

/-- JS `Map.get` on the grid. -/
def gridGet (grid : Grid) (key : CellKey) : Option (List ℕ) :=
  (grid.find? (fun e => decide (e.1 = key))).map Prod.snd

/-- One step of `if (!grid.has(key)) grid.set(key, []); grid.get(key).push(index)`.
Grids built by this operation have duplicate-free keys, so the map
update touches exactly the one matching entry. -/
def gridPush (grid : Grid) (key : CellKey) (index : ℕ) : Grid :=
  if (gridGet grid key).isSome then
    grid.map (fun e => if e.1 = key then (e.1, e.2 ++ [index]) else e)
  else
    grid ++ [(key, [index])]

/-- The loop body of SpatialIndex.indexFeatures: features are visited with
their position `index`, and only features with `geometry.type === 'Point'`
are inserted into the grid. -/
def buildGrid (cellSize : ℚ) (features : List Feature) : Grid :=
  features.enum.foldl
    (fun grid p =>
      if p.2.geomType = "Point" then
        gridPush grid (getCellKey cellSize p.2.lon p.2.lat) p.1
      else grid)
    []

/-- The eager-mode part of a SpatialIndex instance: `cellSize`, `grid`,
`allFeatures`, `featureCount`. -/
structure EagerState where
  cellSize : ℚ
  grid : Grid
  allFeatures : List Feature
  featureCount : ℕ
  deriving Repr

/-- SpatialIndex.indexFeatures: replaces `allFeatures`, sets
`featureCount = features.length`, clears and rebuilds the grid. -/
def indexFeatures (st : EagerState) (features : List Feature) : EagerState :=
  { st with
    allFeatures := features
    featureCount := features.length
    grid := buildGrid st.cellSize features }

/-- SpatialIndex.addFeature: a single feature is appended and indexed only
when its geometry type is `'Point'`; otherwise nothing happens. -/
def addFeature (st : EagerState) (feature : Feature) : EagerState :=
  if feature.geomType = "Point" then
    let index := st.allFeatures.length
    let allF := st.allFeatures ++ [feature]
    { st with
      allFeatures := allF
      featureCount := allF.length
      grid := gridPush st.grid (getCellKey st.cellSize feature.lon feature.lat) index }
  else st

/-! ## Chunk partitioner (DataLoader.handleFolderUpload, FileProcessor) -/

/-- One entry of `result.featuresByShapefile` produced by
FileProcessor.loadShapefilesFromFolder. -/
structure SourceGroup where
  shapefileName : String
  features : List Feature
  deriving Repr

/-- The filtering step of FileProcessor.loadShapefilesFromFolder: a parsed
source group is pushed onto `featuresByShapefile` only when
`geojson.features.length > 0`. -/
def featuresByShapefile (parsedGroups : List SourceGroup) : List SourceGroup :=
  parsedGroups.filter (fun g => decide (0 < g.features.length))

/-- A chunk boundary record `{start, end, shapefileName}`.  The source
field `end` is a Lean keyword and is written `«end»` here. -/
structure ChunkBoundary where
  start : ℕ
  «end» : ℕ
  shapefileName : String
  deriving DecidableEq, Repr

/-- The chunk-boundary loop of DataLoader.handleFolderUpload: a running
offset `currentIndex` turns each source group into one boundary
`{start: currentIndex, end: currentIndex + sf.features.length, shapefileName}`. -/
def computeChunkBoundaries (groups : List SourceGroup) : List ChunkBoundary :=
  (groups.foldl
    (fun (acc : List ChunkBoundary × ℕ) sf =>
      (acc.1 ++ [⟨acc.2, acc.2 + sf.features.length, sf.shapefileName⟩],
       acc.2 + sf.features.length))
    ([], 0)).1

/-- Proof-side recursive characterization of the running-offset boundary
loop: the boundaries computeChunkBoundaries emits when the running offset
starts at `cur`. -/
def boundariesFrom (cur : ℕ) : List SourceGroup → List ChunkBoundary
  | [] => []
  | g :: gs =>
    ⟨cur, cur + g.features.length, g.shapefileName⟩ :: boundariesFrom (cur + g.features.length) gs

/-- The `totalFeatures` reduction of SpatialIndex.initializeChunkLookup:
`chunkBoundaries.reduce((max, boundary) => Math.max(max, boundary.end), 0)`. -/
def lookupTotalFeatures (boundaries : List ChunkBoundary) : ℕ :=
  boundaries.foldl (fun m b => max m b.«end») 0

/-- The inner `for (let i = start; i < end; i++) featureToChunk[i] = chunkId`
loop of initializeChunkLookup, as repeated `List.set` writes. -/
def writeRange (table : List ℕ) (start stop chunkId : ℕ) : List ℕ :=
  (List.range (stop - start)).foldl (fun t j => t.set (start + j) chunkId) table

/-- SpatialIndex.initializeChunkLookup: with no boundaries the table is
null; otherwise a dense `Uint32Array(totalFeatures)` (zero-initialized)
receives `chunkId` at every position of each boundary's range, boundaries
visited in order with their index as `chunkId`. -/
def initializeChunkLookup (boundaries : List ChunkBoundary) : Option (List ℕ) :=
  if boundaries.length = 0 then none
  else
    some (boundaries.enum.foldl
      (fun t p => writeRange t p.2.start p.2.«end» p.1)
      (List.replicate (lookupTotalFeatures boundaries) 0))

/-- The cell→chunk metadata map `cellKey -> [chunkIds]`, in insertion
order. -/
abbrev ChunkMetadata := List (CellKey × List ℕ)

/-- JS `Map.get` on chunk metadata. -/
def metaGet (meta : ChunkMetadata) (key : CellKey) : Option (List ℕ) :=
  (meta.find? (fun e => decide (e.1 = key))).map Prod.snd

/-- JS `Set.add` keeping first-insertion order, as `Array.from` then
reads it back. -/
def setAdd (s : List ℕ) (x : ℕ) : List ℕ :=
  if x ∈ s then s else s ++ [x]

/-- SpatialIndex.buildChunkMetadata: for every grid cell, the set of
`featureToChunk[index]` over the cell's indices (indices at or beyond
the table length are skipped); cells whose set is empty get no entry.
With a null `featureToChunk` the result is empty. -/
def buildChunkMetadata (grid : Grid) (featureToChunk : Option (List ℕ)) : ChunkMetadata :=
  match featureToChunk with
  | none => []
  | some table =>
    grid.foldl
      (fun md e =>
        let chunkSet := e.2.foldl
          (fun s index =>
            if h : index < table.length then setAdd s (table.get ⟨index, h⟩) else s)
          []
        if 0 < chunkSet.length then md ++ [(e.1, chunkSet)] else md)
      []

/-- The `chunkSet` accumulated for one grid cell inside
buildChunkMetadata, read back through `Array.from`. -/
def chunkSetOf (table indices : List ℕ) : List ℕ :=
  indices.foldl
    (fun s index => if h : index < table.length then setAdd s (table.get ⟨index, h⟩) else s) []

/-- One grid-cell step of the buildChunkMetadata loop. -/
def buildCMStep (table : List ℕ) (md : ChunkMetadata) (e : CellKey × List ℕ) : ChunkMetadata :=
  if 0 < (chunkSetOf table e.2).length then md ++ [(e.1, chunkSetOf table e.2)] else md

/-- A raw metadata value as SpatialIndex.setChunkMetadata receives it:
an array of chunk ids, a bare scalar id, or null/undefined. -/
inductive MetaVal where
  | arr (l : List ℕ)
  | scalar (n : ℕ)
  | nullv
  deriving DecidableEq, Repr

/-- One entry-conversion step of setChunkMetadata. -/
def setCMStep (md : ChunkMetadata) (e : CellKey × MetaVal) : ChunkMetadata :=
  match e.2 with
  | .arr l => md ++ [(e.1, l)]
  | .scalar n => md ++ [(e.1, [n])]
  | .nullv => md

/-- SpatialIndex.setChunkMetadata: array values are kept, non-null
scalars are wrapped in a one-element array, null/undefined entries are
dropped. -/
def setChunkMetadata (entries : List (CellKey × MetaVal)) : ChunkMetadata :=
  entries.foldl setCMStep []

/-- SpatialIndex.getChunksForCell: the metadata entry for the cell, or
`[]` when there is none.  (The source's `Array.isArray` branch is dead
here because every stored value is already an array.) -/
def getChunksForCell (meta : ChunkMetadata) (cellKey : CellKey) : List ℕ :=
  match metaGet meta cellKey with
  | none => []
  | some entry => entry

/-! ## Chunk cache (SpatialIndex lazy mode) -/

/-- An LRU cache entry `{id, lastAccess}` of `chunkCache`. -/
structure CacheEntry where
  id : ℕ
  lastAccess : ℕ
  deriving DecidableEq, Repr

/-- A chunk as returned by the chunk loader: a record `{id, features}`
whose `features` field may be missing (the `if (!features)` guard in
ensureChunksLoaded). -/
structure LoadedChunk where
  id : ℕ
  features : Option (List Feature)
  deriving DecidableEq, Repr

/-- The mutable lazy-mode state of a SpatialIndex: `chunkMap`
(chunkId → features, insertion-ordered), `loadedChunks` (a JS Set),
`chunkCache` (the LRU array), and `maxCachedChunks`. -/
structure LazyState where
  chunkMap : List (ℕ × List Feature)
  loadedChunks : List ℕ
  chunkCache : List CacheEntry
  maxCachedChunks : ℕ
  deriving Repr

/-- JS `Map.get` on the chunk map. -/
def chunkMapGet (m : List (ℕ × List Feature)) (id : ℕ) : Option (List Feature) :=
  (m.find? (fun e => decide (e.1 = id))).map Prod.snd

/-- JS `Map.set` on the chunk map: replace in place when the key exists,
append otherwise. -/
def chunkMapSet (m : List (ℕ × List Feature)) (id : ℕ) (fs : List Feature) :
    List (ℕ × List Feature) :=
  if (chunkMapGet m id).isSome then
    m.map (fun e => if e.1 = id then (id, fs) else e)
  else
    m ++ [(id, fs)]

/-- SpatialIndex.updateChunkCache: refresh `lastAccess` of an existing
entry, or push a new entry; `now` stands for `Date.now()`. -/
def updateChunkCache (st : LazyState) (chunkId now : ℕ) : LazyState :=
  if (st.chunkCache.find? (fun c => decide (c.id = chunkId))).isSome then
    { st with chunkCache :=
        st.chunkCache.map (fun c => if c.id = chunkId then { c with lastAccess := now } else c) }
  else
    { st with chunkCache := st.chunkCache ++ [{ id := chunkId, lastAccess := now }] }

/-- Stable insertion of a cache entry into a list sorted by `lastAccess`:
the entry goes after every element with `lastAccess ≤` its own, which is
where JS's stable `Array.prototype.sort` leaves it. -/
def insertByAccess (e : CacheEntry) : List CacheEntry → List CacheEntry
  | [] => [e]
  | x :: xs => if x.lastAccess ≤ e.lastAccess then x :: insertByAccess e xs else e :: x :: xs

/-- The `chunkCache.sort((a, b) => a.lastAccess - b.lastAccess)` call:
JS sort is stable, and stable sort-by-key is left-to-right insertion
after equal keys. -/
def sortByAccess (l : List CacheEntry) : List CacheEntry :=
  l.foldl (fun acc e => insertByAccess e acc) []

/-- SpatialIndex.evictOldChunks: when over `maxCachedChunks`, sort the
cache by `lastAccess`, splice off the oldest entries beyond the limit,
and delete them from `chunkMap` and `loadedChunks`. -/
def evictOldChunks (st : LazyState) : LazyState :=
  if st.chunkCache.length ≤ st.maxCachedChunks then st
  else
    let sorted := sortByAccess st.chunkCache
    let toRemove := sorted.take (sorted.length - st.maxCachedChunks)
    let kept := sorted.drop (sorted.length - st.maxCachedChunks)
    { st with
      chunkCache := kept
      chunkMap := st.chunkMap.filter (fun e => decide (¬ ∃ r ∈ toRemove, r.id = e.1))
      loadedChunks := st.loadedChunks.filter (fun id => decide (¬ ∃ r ∈ toRemove, r.id = id)) }

/-- The body of the `for (const {id, features} of chunks)` loop in
ensureChunksLoaded: skip chunks without features, otherwise store the
features, mark the chunk loaded, and stamp the cache. -/
def absorbChunk (st : LazyState) (c : LoadedChunk) (now : ℕ) : LazyState :=
  match c.features with
  | none => st
  | some fs =>
    let st := { st with
      chunkMap := chunkMapSet st.chunkMap c.id fs
      loadedChunks := if c.id ∈ st.loadedChunks then st.loadedChunks else st.loadedChunks ++ [c.id] }
    updateChunkCache st c.id now

/-- SpatialIndex.ensureChunksLoaded.  `loader` is `this.chunkLoader`
(possibly null); the response of one `await this.chunkLoader(toLoad)` is
modelled as applying the loader function; every `Date.now()` stamp in the
pass is modelled by the single timestamp `now`. -/
def ensureChunksLoaded (loader : Option (List ℕ → List LoadedChunk)) (st : LazyState)
    (chunkIds : List ℕ) (now : ℕ) : LazyState :=
  let toLoad := chunkIds.filter (fun id => decide (id ∉ st.loadedChunks))
  if toLoad.length = 0 then
    chunkIds.foldl (fun s id => if id ∈ s.loadedChunks then updateChunkCache s id now else s) st
  else
    match loader with
    | none => st
    | some f => evictOldChunks ((f toLoad).foldl (fun s c => absorbChunk s c now) st)

/-! ## Chunk lookup and lazy feature access -/

/-- StorageConfig.CHUNK_SIZE, used by the legacy fixed-size fallback of
resolveChunkForIndex. -/
def chunkSizeDefault : ℕ := 1000

/-- SpatialIndex.resolveChunkForIndex without its `_lastChunkLookup`
memo (the memo is a pure cache of this same computation and is reset
whenever the lookup tables change).  Returns `(chunkId, localIndex)`,
`(-1, -1)` when the index cannot be resolved. -/
def resolveChunkForIndex (featureToChunk : Option (List ℕ))
    (boundaries : List ChunkBoundary) (index : ℕ) : ℤ × ℤ :=
  match featureToChunk with
  | some table =>
    if h : index < table.length then
      let chunkId := table.get ⟨index, h⟩
      match boundaries.get? chunkId with
      | some boundary => ((chunkId : ℤ), (index : ℤ) - (boundary.start : ℤ))
      | none => (-1, -1)
    else
      resolveByScan boundaries index
  | none => resolveByScan boundaries index
where
  /-- The linear-scan fallback over `chunkBoundaries`, then the fixed
  `CHUNK_SIZE` arithmetic fallback. -/
  resolveByScan (boundaries : List ChunkBoundary) (index : ℕ) : ℤ × ℤ :=
    if boundaries.length ≠ 0 then
      match boundaries.enum.find? (fun p => decide (p.2.start ≤ index ∧ index < p.2.«end»)) with
      | some p => ((p.1 : ℤ), (index : ℤ) - (p.2.start : ℤ))
      | none => (-1, -1)
    else
      ((index / chunkSizeDefault : ℕ), (index % chunkSizeDefault : ℕ))

/-- SpatialIndex.getFeature in lazy mode: resolve the chunk, answer only
when the chunk id is non-negative and loaded, and then only when the
local index is inside the chunk's feature array (`features[localIndex]`
is `undefined` outside it, which the query loop skips). -/
def getFeatureLazy (featureToChunk : Option (List ℕ)) (boundaries : List ChunkBoundary)
    (st : LazyState) (index : ℕ) : Option Feature :=
  let r := resolveChunkForIndex featureToChunk boundaries index
  if 0 ≤ r.1 ∧ r.1.toNat ∈ st.loadedChunks then
    match chunkMapGet st.chunkMap r.1.toNat with
    | some fs => if h : r.2.toNat < fs.length ∧ 0 ≤ r.2 then some (fs.get ⟨r.2.toNat, h.1⟩) else none
    | none => none
  else none

/-- SpatialIndex.getFeature in eager mode: `allFeatures[index]`,
`undefined` beyond the end. -/
def getFeatureEager (allFeatures : List Feature) (index : ℕ) : Option Feature :=
  allFeatures.get? index

/-! ## Adaptive cache tuning -/

/-- The hints object accepted by SpatialIndex.tuneChunkCache.
`deviceMemory` is null or a number (NaN is excluded from the model);
`chunkCount` is null or a natural number (chunk counts are list lengths
by construction); `maxCachedChunks` is the caller's ceiling, a rational
standing for an arbitrary JS number, defaulting when absent. -/
structure CacheOptions where
  deviceMemory : Option ℚ
  isMobile : Bool
  isOlderiPad : Bool
  chunkCount : Option ℕ
  maxCachedChunks : Option ℚ
  deriving Repr

/-- StorageConfig.MAX_CACHED_CHUNKS. -/
def maxCachedChunksDefault : ℕ := 10

/-- The opening line of tuneChunkCache: the caller ceiling is used when
it is a positive number (floored), otherwise StorageConfig.MAX_CACHED_CHUNKS. -/
def tuneCallerLimit (maxCachedChunks : Option ℚ) : ℕ :=
  match maxCachedChunks with
  | some m => if 0 < m then (⌊m⌋).toNat else maxCachedChunksDefault
  | none => maxCachedChunksDefault

/-- The dataset-aware block of tuneChunkCache: never cache more chunks
than exist, and cap at the ~10% heuristic clamped to `[3, 20]`.  For a
natural `c`, `Math.ceil(chunkCount * 0.1)` agrees with
`⌈c / 10⌉ = (c + 9) / 10` on every outcome observable through the
surrounding clamps, which is how it is written here. -/
def tuneDatasetLimit (chunkCount : Option ℕ) (limit : ℕ) : ℕ :=
  match chunkCount with
  | some c =>
    if 0 < c then min (min limit (max 1 c)) (max 3 (min 20 ((c + 9) / 10)))
    else limit
  | none => limit

/-- The device-memory block of tuneChunkCache: caps of 4 and 6 on
low-memory devices, and extra headroom (raise to at least 12, at most
`max 12 (min chunkCount 20)`) on high-memory devices. -/
def tuneDeviceLimit (deviceMemory : Option ℚ) (chunkCount : Option ℕ) (limit : ℕ) : ℕ :=
  match deviceMemory with
  | some d =>
    if d ≤ 2 then min limit 4
    else if d ≤ 4 then min limit 6
    else if 8 ≤ d then
      min (max limit 12)
        (match chunkCount with
         | some c => if c ≠ 0 then max 12 (min c 20) else 12
         | none => 12)
    else limit
  | none => limit

/-- The form-factor block of tuneChunkCache: older iPads cap at 4,
other mobile devices at 6. -/
def tuneFormFactorLimit (isOlderiPad isMobile : Bool) (limit : ℕ) : ℕ :=
  if isOlderiPad then min limit 4
  else if isMobile then min limit 6
  else limit

/-- The final clamp of tuneChunkCache: at most the chunk count (when
valid), then into `[1, 50]`. -/
def tuneFinalClamp (chunkCount : Option ℕ) (limit : ℕ) : ℕ :=
  max 1 (min 50
    (match chunkCount with
     | some c => if 0 < c then min limit c else limit
     | none => limit))

/-- SpatialIndex.tuneChunkCache, returning the applied limit: the four
adjustment blocks of the source applied in order to the caller limit. -/
def tuneChunkCache (o : CacheOptions) : ℕ :=
  tuneFinalClamp o.chunkCount
    (tuneFormFactorLimit o.isOlderiPad o.isMobile
      (tuneDeviceLimit o.deviceMemory o.chunkCount
        (tuneDatasetLimit o.chunkCount
          (tuneCallerLimit o.maxCachedChunks))))

/-- SpatialIndex.enableLazyLoading, reduced to the applied cache limit it
returns: the tuned limit when `cacheOptions` is given, the current
`maxCachedChunks` otherwise. -/
def enableLazyLoading (currentMax : ℕ) (cacheOptions : Option CacheOptions) : ℕ :=
  match cacheOptions with
  | some o => tuneChunkCache o
  | none => currentMax

/-! ## Query engine (SpatialIndex.queryRadius) -/

/-- The integers from `a` to `b` inclusive (empty when `b < a`), as the
JS loop `for (let d = a; d <= b; d++)` visits them. -/
def intRange (a b : ℤ) : List ℤ :=
  (List.range (b + 1 - a).toNat).map (fun i : ℕ => a + (i : ℤ))

/-- The candidate-cell enumeration of queryRadius: the center cell key,
`cellRange = Math.ceil(radius / (cellSize * 111000))`, and all keys
`(centerX + dx, centerY + dy)` with `dx` the outer and `dy` the inner
loop, both over `[-cellRange, cellRange]`. -/
def cellsToCheck (cellSize lon lat radius : ℚ) : List CellKey :=
  let centerKey := getCellKey cellSize lon lat
  let cellRange : ℤ := ⌈radius / (cellSize * 111000)⌉
  (intRange (-cellRange) cellRange).flatMap (fun dx =>
    (intRange (-cellRange) cellRange).map (fun dy => (centerKey.1 + dx, centerKey.2 + dy)))

/-- The union of `getChunksForCell` over the candidate cells, the JS
`Set` preserving first-insertion order (the `neededChunks` set of
queryRadius). -/
def neededChunks (meta : ChunkMetadata) (cells : List CellKey) : List ℕ :=
  cells.foldl (fun acc cellKey => (getChunksForCell meta cellKey).foldl setAdd acc) []

/-- The per-index body of the queryRadius scanning loop: resolve the
stored index through `getF` (skipping absent features) and keep
`{...feature, distance}` exactly when `distance <= radius`.
`calculateDistance` is the haversine formula over IEEE doubles; it
reaches the result only through this comparison, so the scan is
parametrized by the distance function `dist`, applied as in the source
call `calculateDistance(lat, lon, fLat, fLon)`. -/
def scanFeatureStep (getF : ℕ → Option Feature) (dist : ℚ → ℚ → ℚ → ℚ → ℚ)
    (lat lon radius : ℚ) (acc : List (Feature × ℚ)) (idx : ℕ) : List (Feature × ℚ) :=
  match getF idx with
  | none => acc
  | some f =>
    let distance := dist lat lon f.lat f.lon
    if distance ≤ radius then acc ++ [(f, distance)] else acc

/-- The per-cell body of the queryRadius scanning loop: cells with no
grid entry are skipped, the others contribute their indices in order. -/
def scanCellStep (grid : Grid) (getF : ℕ → Option Feature) (dist : ℚ → ℚ → ℚ → ℚ → ℚ)
    (lat lon radius : ℚ) (acc : List (Feature × ℚ)) (checkKey : CellKey) :
    List (Feature × ℚ) :=
  match gridGet grid checkKey with
  | none => acc
  | some indices => indices.foldl (scanFeatureStep getF dist lat lon radius) acc

/-- The scanning loop of queryRadius over the candidate cells, starting
from the empty `features` accumulator. -/
def queryRadiusScan (grid : Grid) (getF : ℕ → Option Feature)
    (dist : ℚ → ℚ → ℚ → ℚ → ℚ) (cells : List CellKey) (lat lon radius : ℚ) :
    List (Feature × ℚ) :=
  cells.foldl (scanCellStep grid getF dist lat lon radius) []

/-- SpatialIndex.queryRadius in eager mode (`lazyMode = false`): no chunk
loading, features come from `allFeatures`. -/
def queryRadiusEager (st : EagerState) (dist : ℚ → ℚ → ℚ → ℚ → ℚ)
    (lon lat radius : ℚ) : List (Feature × ℚ) :=
  queryRadiusScan st.grid (getFeatureEager st.allFeatures) dist
    (cellsToCheck st.cellSize lon lat radius) lat lon radius

/-- SpatialIndex.queryRadius in lazy mode: collect the chunk ids of every
candidate cell, `await ensureChunksLoaded`, then scan through the lazy
`getFeature`.  Returns the result list together with the post-call cache
state. -/
def queryRadiusLazy (cellSize : ℚ) (grid : Grid) (meta : ChunkMetadata)
    (featureToChunk : Option (List ℕ)) (boundaries : List ChunkBoundary)
    (loader : Option (List ℕ → List LoadedChunk)) (st : LazyState)
    (dist : ℚ → ℚ → ℚ → ℚ → ℚ) (lon lat radius : ℚ) (now : ℕ) :
    List (Feature × ℚ) × LazyState :=
  let cells := cellsToCheck cellSize lon lat radius
  let st2 := ensureChunksLoaded loader st (neededChunks meta cells) now
  (queryRadiusScan grid (getFeatureLazy featureToChunk boundaries st2) dist cells lat lon radius,
   st2)

/-! ## Persistence worker (StorageManagerWorker, StorageManager) -/

/-- The index record written by the worker's initSave, minus its `id`
key.  `data` (the serialized index structure) and `metadata` (file
metadata) pass through the worker unchanged and are modelled as abstract
payloads; `timestamp` is `Date.now()`. -/
structure IndexRecord where
  data : ℕ
  metadata : ℕ
  chunkCount : ℕ
  timestamp : ℕ
  deriving DecidableEq, Repr

/-- The durable object store: the record under the key `spatialIndex`,
and the records under the keys `features_chunk_<i>` (as an association
list keyed by `i`). -/
structure Store where
  indexRec : Option IndexRecord
  chunkRecs : List (ℕ × List Feature)
  deriving Repr

/-- Worker initSave: step 1 deletes every key starting with the chunk
prefix, step 2 puts the index record. -/
def initSave (indexData metadata totalChunks now : ℕ) (_store : Store) : Store :=
  { indexRec := some ⟨indexData, metadata, totalChunks, now⟩
    chunkRecs := [] }

/-- Worker saveChunkBatch: put a record `{id: prefix + (startIndex + j),
data: chunks[j], chunkIndex}` for every chunk of the batch, in order.
The SUB_BATCH_SIZE transaction split changes only transaction boundaries,
not the stored contents. -/
def saveChunkBatch (startIndex : ℕ) (chunks : List (List Feature)) (store : Store) : Store :=
  { store with
    chunkRecs := chunks.enum.foldl
      (fun recs p => chunkMapSet recs (startIndex + p.1) p.2) store.chunkRecs }

/-- StorageConfig.STREAM_BATCH_SIZE. -/
def streamBatchSize : ℕ := 10

/-- The streaming loop of StorageManager.saveSpatialIndex:
`for (let i = 0; i < featureChunks.length; i += STREAM_BATCH_SIZE)` send
`featureChunks.slice(i, i + STREAM_BATCH_SIZE)` as a batch starting at
`i`. -/
def streamSaveFrom (featureChunks : List (List Feature)) (i : ℕ) (store : Store) : Store :=
  if _h : i < featureChunks.length then
    streamSaveFrom featureChunks (i + streamBatchSize)
      (saveChunkBatch i ((featureChunks.drop i).take streamBatchSize) store)
  else store
termination_by featureChunks.length - i
decreasing_by simp only [streamBatchSize]; omega

/-- StorageManager.saveSpatialIndex: initSave (clear old chunks + write
the index record with `totalChunks = featureChunks.length`), stream every
chunk batch, then the no-op finalizeSave. -/
def saveSpatialIndex (indexData : ℕ) (featureChunks : List (List Feature))
    (metadata now : ℕ) (store : Store) : Store :=
  streamSaveFrom featureChunks 0 (initSave indexData metadata featureChunks.length now store)

/-- Worker loadSpatialIndex: the index record without its features and
without its timestamp — `{indexData, metadata, chunkCount}` — or null
when no index record exists. -/
def loadSpatialIndexStore (store : Store) : Option (ℕ × ℕ × ℕ) :=
  store.indexRec.map (fun r => (r.data, r.metadata, r.chunkCount))

/-- Worker loadChunks: for each requested id in order, push
`{id, features: record.data}` when the record exists (an empty feature
array is still a truthy `data`), and skip ids with no record, logging
only. -/
def loadChunksStore (store : Store) (chunkIds : List ℕ) : List LoadedChunk :=
  chunkIds.foldl
    (fun chunks chunkId =>
      match chunkMapGet store.chunkRecs chunkId with
      | some fs => chunks ++ [⟨chunkId, some fs⟩]
      | none => chunks)
    []

/-! ## Definitions taken from the specification text (for comparison) -/

/-- Modelled from the spec: the candidate-cell enumeration as §4.1 of the
spec describes it, with the radius converted to an angular delta
`radiusMeters / 111320` and all cells within `ceil(delta / cellSize)` of
the center cell enumerated in each axis.  This is the spec's claimed
constant; the source uses `111000`. -/
def cellsToCheckSpec (cellSize lon lat radius : ℚ) : List CellKey :=
  let centerKey := getCellKey cellSize lon lat
  let cellRange : ℤ := ⌈radius / 111320 / cellSize⌉
  (intRange (-cellRange) cellRange).flatMap (fun dx =>
    (intRange (-cellRange) cellRange).map (fun dy => (centerKey.1 + dx, centerKey.2 + dy)))

/-- Well-formedness of the lazy cache state, maintained by every cache
operation: `loadedChunks` has no duplicates (it is a JS Set), the cache
entries have pairwise distinct ids (updateChunkCache never duplicates),
and a chunk is in `loadedChunks` exactly when it has a cache entry. -/
def WFCache (st : LazyState) : Prop :=
  st.loadedChunks.Nodup ∧ (st.chunkCache.map (fun c => c.id)).Nodup ∧
    ∀ id, id ∈ st.loadedChunks ↔ id ∈ st.chunkCache.map (fun c => c.id)

/-- Simulation relation for the missing-chunk analysis: `sB` is the state
of a run in which chunk `cid` was additionally absorbed with an empty
feature array, `sA` the state of the run in which `cid` was missing from
the load response.  The two states agree on every other chunk, `sB`
additionally holds `cid` loaded with zero features and one extra cache
entry. -/
def MissingSim (cid : ℕ) (sA sB : LazyState) : Prop :=
  (∀ x, x ∈ sB.loadedChunks ↔ (x ∈ sA.loadedChunks ∨ x = cid)) ∧
  cid ∉ sA.loadedChunks ∧
  (∀ x, x ≠ cid → chunkMapGet sB.chunkMap x = chunkMapGet sA.chunkMap x) ∧
  chunkMapGet sB.chunkMap cid = some [] ∧
  (∀ x, x ∈ sB.chunkCache.map (fun c => c.id) ↔
    (x ∈ sA.chunkCache.map (fun c => c.id) ∨ x = cid)) ∧
  cid ∉ sA.chunkCache.map (fun c => c.id) ∧
  sB.chunkCache.length = sA.chunkCache.length + 1 ∧
  sB.maxCachedChunks = sA.maxCachedChunks

/-! # Theorems

Shared lemmas first, then one theorem per specification claim (with a
witness or counterexample where required). -/

/-! ## Grid lemmas -/

lemma gridGet_mem {grid : Grid} {k : CellKey} {indices : List ℕ}
    (h : gridGet grid k = some indices) : (k, indices) ∈ grid := by
  unfold gridGet at h
  cases hf : grid.find? (fun e => decide (e.1 = k)) with
  | none => simp [hf] at h
  | some e =>
    simp only [hf, Option.map_some] at h
    have hm := List.mem_of_find?_eq_some hf
    have hp := List.find?_some hf
    simp only [decide_eq_true_eq] at hp
    obtain ⟨e1, e2⟩ := e
    cases h
    cases hp
    exact hm

lemma gridPush_all {P : CellKey → ℕ → Prop} {grid : Grid} {k : CellKey} {i : ℕ}
    (hg : ∀ e ∈ grid, ∀ j ∈ e.2, P e.1 j) (hi : P k i) :
    ∀ e ∈ gridPush grid k i, ∀ j ∈ e.2, P e.1 j := by
  intro e he
  unfold gridPush at he
  split at he
  · rcases List.mem_map.mp he with ⟨e0, he0, heq⟩
    by_cases hk : e0.1 = k
    · rw [if_pos hk] at heq
      subst heq
      intro j hj
      rcases List.mem_append.mp hj with hj | hj
      · exact hg e0 he0 j hj
      · simp only [List.mem_singleton] at hj
        subst hj
        exact hk ▸ hi
    · rw [if_neg hk] at heq
      subst heq
      exact hg e0 he0
  · rcases List.mem_append.mp he with he | he
    · exact hg e he
    · simp only [List.mem_singleton] at he
      subst he
      intro j hj
      simp only [List.mem_singleton] at hj
      subst hj
      exact hi

lemma foldl_indexStep_all {P : CellKey → ℕ → Prop} (cellSize : ℚ) :
    ∀ (l : List (ℕ × Feature)) (g : Grid),
      (∀ e ∈ g, ∀ j ∈ e.2, P e.1 j) →
      (∀ p ∈ l, p.2.geomType = "Point" → P (getCellKey cellSize p.2.lon p.2.lat) p.1) →
      ∀ e ∈ l.foldl
        (fun grid p =>
          if p.2.geomType = "Point" then
            gridPush grid (getCellKey cellSize p.2.lon p.2.lat) p.1
          else grid) g,
        ∀ j ∈ e.2, P e.1 j := by
  intro l
  induction l with
  | nil => intro g hg _ e he; exact hg e he
  | cons p rest ih =>
    intro g hg hl e he
    simp only [List.foldl_cons] at he
    refine ih _ ?_ (fun q hq => hl q (List.mem_cons_of_mem _ hq)) e he
    by_cases hpt : p.2.geomType = "Point"
    · simp only [hpt, if_pos rfl]
      exact gridPush_all hg (hl p (List.mem_cons_self _ _) hpt)
    · simpa only [if_neg hpt] using hg

lemma buildGrid_all {P : CellKey → ℕ → Prop} {cellSize : ℚ} {features : List Feature}
    (h : ∀ p ∈ features.enum, p.2.geomType = "Point" →
      P (getCellKey cellSize p.2.lon p.2.lat) p.1) :
    ∀ e ∈ buildGrid cellSize features, ∀ j ∈ e.2, P e.1 j := by
  unfold buildGrid
  exact foldl_indexStep_all cellSize features.enum [] (by simp) h

/-- C10: calling addFeature with a non-Point feature leaves the whole
index state unchanged, and every index that indexFeatures stores in any
grid cell is a valid position of the feature sequence referring to a
feature with Point geometry. -/
theorem claim_C10_point_only_indexing :
    (∀ (st : EagerState) (f : Feature), f.geomType ≠ "Point" → addFeature st f = st) ∧
    (∀ (cellSize : ℚ) (features : List Feature) (k : CellKey) (indices : List ℕ) (i : ℕ),
      gridGet (buildGrid cellSize features) k = some indices → i ∈ indices →
      ∃ h : i < features.length, (features.get ⟨i, h⟩).geomType = "Point") := by
  constructor
  · intro st f hf
    unfold addFeature
    rw [if_neg hf]
  · intro cellSize features k indices i hget hi
    have hmem := gridGet_mem hget
    refine buildGrid_all (P := fun _ j =>
      ∃ h : j < features.length, (features.get ⟨j, h⟩).geomType = "Point")
      ?_ (k, indices) hmem i hi
    intro p hp hpt
    have hq := List.mem_enum_iff_getElem?.mp hp
    obtain ⟨hlt, hval⟩ := List.getElem?_eq_some.mp hq
    refine ⟨hlt, ?_⟩
    rw [List.get_eq_getElem, hval]
    exact hpt

/-- Witness for C10 at a concrete non-Point feature and a concrete
one-Point dataset. -/
theorem claim_C10_witness :
    (addFeature ⟨1, [], [], 0⟩ ⟨"Polygon", 2, 3, 0⟩ = ⟨1, [], [], 0⟩) ∧
    ∃ h : 0 < [(⟨"Point", 0, 0, 7⟩ : Feature)].length,
      ([(⟨"Point", 0, 0, 7⟩ : Feature)].get ⟨0, h⟩).geomType = "Point" := by
  refine ⟨claim_C10_point_only_indexing.1 _ _ (by decide), ?_⟩
  exact claim_C10_point_only_indexing.2 1 [⟨"Point", 0, 0, 7⟩] (0, 0) [0] 0
    (by simp [buildGrid, gridPush, gridGet, getCellKey]) (by decide)

/-! ## Chunk partitioner lemmas -/

lemma foldl_boundaries (groups : List SourceGroup) :
    ∀ (acc : List ChunkBoundary) (cur : ℕ),
      (groups.foldl
        (fun (a : List ChunkBoundary × ℕ) sf =>
          (a.1 ++ [⟨a.2, a.2 + sf.features.length, sf.shapefileName⟩],
           a.2 + sf.features.length)) (acc, cur)).1
      = acc ++ boundariesFrom cur groups := by
  induction groups with
  | nil => intro acc cur; simp [boundariesFrom]
  | cons g gs ih =>
    intro acc cur
    simp only [List.foldl_cons, boundariesFrom]
    rw [ih]
    simp

lemma computeChunkBoundaries_eq (groups : List SourceGroup) :
    computeChunkBoundaries groups = boundariesFrom 0 groups := by
  unfold computeChunkBoundaries
  rw [foldl_boundaries]
  simp

lemma boundariesFrom_length (gs : List SourceGroup) :
    ∀ cur, (boundariesFrom cur gs).length = gs.length := by
  induction gs with
  | nil => intro cur; rfl
  | cons g gs ih => intro cur; simp [boundariesFrom, ih]

lemma mem_boundariesFrom {gs : List SourceGroup} {cur : ℕ} {b : ChunkBoundary}
    (hb : b ∈ boundariesFrom cur gs) :
    ∃ g ∈ gs, b.«end» = b.start + g.features.length ∧ b.shapefileName = g.shapefileName := by
  induction gs generalizing cur with
  | nil => simp [boundariesFrom] at hb
  | cons g gs ih =>
    rcases List.mem_cons.mp hb with hb | hb
    · subst hb
      exact ⟨g, List.mem_cons_self _ _, rfl, rfl⟩
    · obtain ⟨g2, hg2, h⟩ := ih hb
      exact ⟨g2, List.mem_cons_of_mem _ hg2, h⟩

lemma boundariesFrom_name_size (gs : List SourceGroup) :
    ∀ (cur i : ℕ),
      ((boundariesFrom cur gs)[i]?).map (fun b : ChunkBoundary => (b.shapefileName, b.«end» - b.start)) =
        (gs[i]?).map (fun g : SourceGroup => (g.shapefileName, g.features.length)) := by
  induction gs with
  | nil => intro cur i; simp [boundariesFrom]
  | cons g gs ih =>
    intro cur i
    cases i with
    | zero => simp [boundariesFrom]
    | succ i => simpa [boundariesFrom] using ih (cur + g.features.length) i

/-- C8: the build pipeline (FileProcessor.loadShapefilesFromFolder
followed by the boundary loop of DataLoader.handleFolderUpload) excludes
source groups with zero features before boundaries are computed, so
every emitted boundary has `start < end`, the boundaries are in
bijection with the nonempty groups, and chunk id `i` is assigned to the
`i`-th nonempty source group (matching its name and feature count). -/
theorem claim_C8_empty_groups_excluded (parsedGroups : List SourceGroup) :
    (∀ b ∈ computeChunkBoundaries (featuresByShapefile parsedGroups), b.start < b.«end») ∧
    (computeChunkBoundaries (featuresByShapefile parsedGroups)).length =
      (featuresByShapefile parsedGroups).length ∧
    (∀ g ∈ featuresByShapefile parsedGroups, 0 < g.features.length) ∧
    (∀ i : ℕ, ((computeChunkBoundaries (featuresByShapefile parsedGroups))[i]?).map
        (fun b : ChunkBoundary => (b.shapefileName, b.«end» - b.start)) =
      ((featuresByShapefile parsedGroups)[i]?).map
        (fun g : SourceGroup => (g.shapefileName, g.features.length))) := by
  have hpos : ∀ g ∈ featuresByShapefile parsedGroups, 0 < g.features.length := by
    intro g hg
    have := List.of_mem_filter hg
    simpa using this
  refine ⟨?_, ?_, hpos, ?_⟩
  · intro b hb
    rw [computeChunkBoundaries_eq] at hb
    obtain ⟨g, hg, hend, _⟩ := mem_boundariesFrom hb
    have := hpos g hg
    omega
  · rw [computeChunkBoundaries_eq, boundariesFrom_length]
  · intro i
    rw [computeChunkBoundaries_eq, boundariesFrom_name_size]

/-- Witness for C8: on a parsed list with an empty middle group, the
first emitted boundary is `[0, 1)` and is non-degenerate. -/
theorem claim_C8_witness :
    (⟨0, 1, "a"⟩ : ChunkBoundary).start < (⟨0, 1, "a"⟩ : ChunkBoundary).«end» :=
  (claim_C8_empty_groups_excluded
      [⟨"a", [⟨"Point", 0, 0, 0⟩]⟩, ⟨"z", []⟩, ⟨"b", [⟨"Point", 1, 1, 1⟩]⟩]).1
    ⟨0, 1, "a"⟩ (by simp [featuresByShapefile, computeChunkBoundaries])

/-! ## Chunk-lookup table lemmas -/

lemma foldl_set_length (c s : ℕ) :
    ∀ (l : List ℕ) (t : List ℕ), (l.foldl (fun t j => t.set (s + j) c) t).length = t.length := by
  intro l
  induction l with
  | nil => intro t; rfl
  | cons a l ih => intro t; simp only [List.foldl_cons]; rw [ih]; simp

lemma writeRange_length (t : List ℕ) (s e c : ℕ) : (writeRange t s e c).length = t.length := by
  unfold writeRange
  exact foldl_set_length c s _ t

lemma foldl_set_getElem? (c s g : ℕ) :
    ∀ (n : ℕ) (t : List ℕ),
      ((List.range n).foldl (fun t j => t.set (s + j) c) t)[g]? =
        if s ≤ g ∧ g < s + n ∧ g < t.length then some c else t[g]? := by
  intro n
  induction n with
  | zero =>
    intro t
    rw [if_neg (by omega)]
    rfl
  | succ n ih =>
    intro t
    rw [List.range_succ, List.foldl_append, List.foldl_cons, List.foldl_nil,
      List.getElem?_set, foldl_set_length, ih]
    by_cases hg : s + n = g
    · subst hg
      rw [if_pos rfl]
      by_cases hlen : s + n < t.length
      · rw [if_pos hlen, if_pos (by omega)]
      · rw [if_neg hlen, if_neg (by omega), List.getElem?_eq_none (by omega)]
    · rw [if_neg hg]
      by_cases h1 : s ≤ g ∧ g < s + n ∧ g < t.length
      · rw [if_pos h1, if_pos (by omega)]
      · rw [if_neg h1, if_neg (by omega)]

lemma writeRange_getElem? (t : List ℕ) (s e c g : ℕ) :
    (writeRange t s e c)[g]? = if s ≤ g ∧ g < e ∧ g < t.length then some c else t[g]? := by
  unfold writeRange
  rw [foldl_set_getElem?]
  by_cases h1 : s ≤ g ∧ g < s + (e - s) ∧ g < t.length
  · rw [if_pos h1, if_pos (by omega)]
  · rw [if_neg h1, if_neg (by omega)]

lemma fold_writeRange_length (ps : List (ℕ × ChunkBoundary)) :
    ∀ t : List ℕ,
      (ps.foldl (fun t p => writeRange t p.2.start p.2.«end» p.1) t).length = t.length := by
  induction ps with
  | nil => intro t; rfl
  | cons p ps ih => intro t; simp only [List.foldl_cons]; rw [ih, writeRange_length]

lemma fold_writeRange_not_covered {g : ℕ} :
    ∀ (ps : List (ℕ × ChunkBoundary)) (t : List ℕ),
      (∀ p ∈ ps, ¬(p.2.start ≤ g ∧ g < p.2.«end»)) →
      (ps.foldl (fun t p => writeRange t p.2.start p.2.«end» p.1) t)[g]? = t[g]? := by
  intro ps
  induction ps with
  | nil => intro t _; rfl
  | cons p ps ih =>
    intro t hp
    simp only [List.foldl_cons]
    rw [ih _ (fun q hq => hp q (List.mem_cons_of_mem _ hq)), writeRange_getElem?,
      if_neg (by have := hp p (List.mem_cons_self _ _); tauto)]

lemma fold_writeRange_covered {g : ℕ} :
    ∀ (ps : List (ℕ × ChunkBoundary)),
      List.Pairwise (fun a b => a.2.«end» ≤ b.2.start) ps →
      ∀ (t : List ℕ) (p : ℕ × ChunkBoundary), p ∈ ps →
        p.2.start ≤ g → g < p.2.«end» → g < t.length →
        (ps.foldl (fun t p => writeRange t p.2.start p.2.«end» p.1) t)[g]? = some p.1 := by
  intro ps
  induction ps with
  | nil => intro _ t p hp; cases hp
  | cons q ps ih =>
    intro hpw t p hp hs he hlen
    rcases List.pairwise_cons.mp hpw with ⟨hhead, htail⟩
    simp only [List.foldl_cons]
    rcases List.mem_cons.mp hp with hp | hp
    · subst hp
      rw [fold_writeRange_not_covered ps _ ?_, writeRange_getElem?, if_pos ⟨hs, he, hlen⟩]
      intro r hr
      have := hhead r hr
      omega
    · exact ih htail _ p hp hs he (by rw [writeRange_length]; exact hlen)

lemma start_le_boundariesFrom :
    ∀ (gs : List SourceGroup) (cur : ℕ) (b : ChunkBoundary),
      b ∈ boundariesFrom cur gs → cur ≤ b.start := by
  intro gs
  induction gs with
  | nil => intro cur b hb; cases hb
  | cons g gs ih =>
    intro cur b hb
    rcases List.mem_cons.mp hb with hb | hb
    · subst hb; exact le_refl _
    · have := ih (cur + g.features.length) b hb
      omega

lemma boundariesFrom_pairwise :
    ∀ (gs : List SourceGroup) (cur : ℕ),
      List.Pairwise (fun a b : ChunkBoundary => a.«end» ≤ b.start) (boundariesFrom cur gs) := by
  intro gs
  induction gs with
  | nil => intro cur; exact List.Pairwise.nil
  | cons g gs ih =>
    intro cur
    refine List.pairwise_cons.mpr ⟨?_, ih _⟩
    intro b hb
    exact start_le_boundariesFrom gs _ b hb

lemma boundariesFrom_enum_pairwise (gs : List SourceGroup) (cur : ℕ) :
    List.Pairwise (fun a b : ℕ × ChunkBoundary => a.2.«end» ≤ b.2.start)
      (boundariesFrom cur gs).enum := by
  have h := boundariesFrom_pairwise gs cur
  rw [← List.enum_map_snd (boundariesFrom cur gs)] at h
  exact List.pairwise_map.mp h

lemma foldl_max_end :
    ∀ (gs : List SourceGroup) (cur a : ℕ), gs ≠ [] →
      (boundariesFrom cur gs).foldl (fun m b => max m b.«end») a =
        max a (cur + (gs.map (fun g => g.features.length)).sum) := by
  intro gs
  induction gs with
  | nil => intro _ _ h; exact absurd rfl h
  | cons g gs ih =>
    intro cur a _
    cases gs with
    | nil => simp [boundariesFrom]
    | cons g2 gs2 =>
      rw [show boundariesFrom cur (g :: g2 :: gs2) =
          ⟨cur, cur + g.features.length, g.shapefileName⟩ ::
            boundariesFrom (cur + g.features.length) (g2 :: gs2) from rfl,
        List.foldl_cons, ih _ _ (by simp)]
      simp only [List.map_cons, List.sum_cons]
      omega

lemma lookupTotal_eq (gs : List SourceGroup) (h : gs ≠ []) :
    lookupTotalFeatures (boundariesFrom 0 gs) = (gs.map (fun g => g.features.length)).sum := by
  unfold lookupTotalFeatures
  rw [foldl_max_end gs 0 0 h]
  simp

lemma exists_cover :
    ∀ (gs : List SourceGroup) (cur g : ℕ),
      cur ≤ g → g < cur + (gs.map (fun x => x.features.length)).sum →
      ∃ (i : ℕ) (b : ChunkBoundary),
        (boundariesFrom cur gs)[i]? = some b ∧ b.start ≤ g ∧ g < b.«end» := by
  intro gs
  induction gs with
  | nil => intro cur g h1 h2; simp at h2; omega
  | cons g0 gs ih =>
    intro cur g h1 h2
    by_cases hlt : g < cur + g0.features.length
    · exact ⟨0, ⟨cur, cur + g0.features.length, g0.shapefileName⟩,
        by simp [boundariesFrom], h1, hlt⟩
    · simp only [List.map_cons, List.sum_cons] at h2
      obtain ⟨i, b, hget, hs, he⟩ := ih (cur + g0.features.length) g (by omega) (by omega)
      refine ⟨i + 1, b, ?_, hs, he⟩
      simp only [boundariesFrom, List.getElem?_cons_succ]
      exact hget

lemma boundariesFrom_size_sum :
    ∀ (gs : List SourceGroup) (cur : ℕ),
      ((boundariesFrom cur gs).map (fun b => b.«end» - b.start)).sum =
        (gs.map (fun g => g.features.length)).sum := by
  intro gs
  induction gs with
  | nil => intro cur; rfl
  | cons g gs ih =>
    intro cur
    simp only [boundariesFrom, List.map_cons, List.sum_cons, ih]
    omega

lemma boundariesFrom_first :
    ∀ (gs : List SourceGroup) (cur : ℕ) (b : ChunkBoundary),
      (boundariesFrom cur gs)[0]? = some b → b.start = cur := by
  intro gs cur b h
  cases gs with
  | nil => simp [boundariesFrom] at h
  | cons g gs =>
    simp only [boundariesFrom, List.getElem?_cons_zero, Option.some_inj] at h
    rw [← h]

lemma boundariesFrom_adjacent :
    ∀ (gs : List SourceGroup) (cur i : ℕ) (b b2 : ChunkBoundary),
      (boundariesFrom cur gs)[i]? = some b → (boundariesFrom cur gs)[i + 1]? = some b2 →
      b2.start = b.«end» := by
  intro gs
  induction gs with
  | nil => intro cur i b b2 h1; simp [boundariesFrom] at h1
  | cons g gs ih =>
    intro cur i b b2 h1 h2
    cases i with
    | zero =>
      simp only [boundariesFrom, List.getElem?_cons_zero, Option.some_inj] at h1
      simp only [boundariesFrom, List.getElem?_cons_succ] at h2
      have := boundariesFrom_first gs _ b2 h2
      rw [this, ← h1]
    | succ i =>
      simp only [boundariesFrom, List.getElem?_cons_succ] at h1 h2
      exact ih _ i b b2 h1 h2

/-- C1: the running-offset build emits one chunk per source group in
source order; the boundaries sum to the total feature count, start at 0,
are contiguous (each boundary starts where the previous one ends, hence
non-overlapping and exhaustive over `[0, featureCount)`), and the derived
chunk-lookup table maps every global index below the feature count to
exactly the chunk id whose boundary contains it. -/
theorem claim_C1_chunk_partition (groups : List SourceGroup) :
    (computeChunkBoundaries groups).length = groups.length ∧
    ((computeChunkBoundaries groups).map (fun b => b.«end» - b.start)).sum =
      (groups.map (fun g => g.features.length)).sum ∧
    (∀ b, (computeChunkBoundaries groups)[0]? = some b → b.start = 0) ∧
    (∀ i b b2, (computeChunkBoundaries groups)[i]? = some b →
      (computeChunkBoundaries groups)[i + 1]? = some b2 → b2.start = b.«end») ∧
    (∀ g, g < (groups.map (fun x => x.features.length)).sum →
      ∃ table c b, initializeChunkLookup (computeChunkBoundaries groups) = some table ∧
        table[g]? = some c ∧
        (computeChunkBoundaries groups)[c]? = some b ∧ b.start ≤ g ∧ g < b.«end» ∧
        (∀ c2 b2, (computeChunkBoundaries groups)[c2]? = some b2 →
          b2.start ≤ g → g < b2.«end» → c2 = c)) := by
  rw [computeChunkBoundaries_eq]
  refine ⟨boundariesFrom_length groups 0, boundariesFrom_size_sum groups 0,
    fun b h => boundariesFrom_first groups 0 b h,
    fun i b b2 h1 h2 => boundariesFrom_adjacent groups 0 i b b2 h1 h2, ?_⟩
  intro g hg
  have hne : groups ≠ [] := by
    intro h
    subst h
    simp at hg
  obtain ⟨c, b, hget, hs, he⟩ := exists_cover groups 0 g (Nat.zero_le g) (by omega)
  have hlen0 : (boundariesFrom 0 groups).length ≠ 0 := by
    rw [boundariesFrom_length]
    intro h
    exact hne (List.length_eq_zero.mp h)
  have htot := lookupTotal_eq groups hne
  refine ⟨(boundariesFrom 0 groups).enum.foldl
      (fun t p => writeRange t p.2.start p.2.«end» p.1)
      (List.replicate (lookupTotalFeatures (boundariesFrom 0 groups)) 0), c, b, ?_, ?_,
      hget, hs, he, ?_⟩
  · unfold initializeChunkLookup
    rw [if_neg hlen0]
  · have hmem : (c, b) ∈ (boundariesFrom 0 groups).enum := List.mem_enum_iff_getElem?.mpr hget
    exact fold_writeRange_covered _ (boundariesFrom_enum_pairwise groups 0) _ (c, b) hmem hs he
      (by rw [List.length_replicate, htot]; exact hg)
  · intro c2 b2 hget2 hs2 he2
    by_contra hne2
    have hpw := boundariesFrom_pairwise groups 0
    rw [List.pairwise_iff_getElem] at hpw
    obtain ⟨hcl, hbv⟩ := List.getElem?_eq_some.mp hget
    obtain ⟨hcl2, hbv2⟩ := List.getElem?_eq_some.mp hget2
    rcases Nat.lt_or_ge c2 c with hlt | hge
    · have := hpw c2 c hcl2 hcl hlt
      rw [hbv, hbv2] at this
      omega
    · have hlt : c < c2 := by omega
      have := hpw c c2 hcl hcl2 hlt
      rw [hbv, hbv2] at this
      omega

/-- Witness for C1 at two concrete groups of sizes 2 and 3: global index
3 resolves through the lookup table to chunk 1 with boundary `[2, 5)`. -/
theorem claim_C1_witness :
    ∃ table c b,
      initializeChunkLookup (computeChunkBoundaries
        [⟨"a", [⟨"Point", 0, 0, 0⟩, ⟨"Point", 0, 0, 1⟩]⟩,
         ⟨"b", [⟨"Point", 1, 1, 2⟩, ⟨"Point", 1, 1, 3⟩, ⟨"Point", 1, 1, 4⟩]⟩]) = some table ∧
      table[3]? = some c ∧
      (computeChunkBoundaries
        [⟨"a", [⟨"Point", 0, 0, 0⟩, ⟨"Point", 0, 0, 1⟩]⟩,
         ⟨"b", [⟨"Point", 1, 1, 2⟩, ⟨"Point", 1, 1, 3⟩, ⟨"Point", 1, 1, 4⟩]⟩])[c]? = some b ∧
      b.start ≤ 3 ∧ 3 < b.«end» ∧
      (∀ c2 b2, (computeChunkBoundaries
        [⟨"a", [⟨"Point", 0, 0, 0⟩, ⟨"Point", 0, 0, 1⟩]⟩,
         ⟨"b", [⟨"Point", 1, 1, 2⟩, ⟨"Point", 1, 1, 3⟩, ⟨"Point", 1, 1, 4⟩]⟩])[c2]? = some b2 →
        b2.start ≤ 3 → 3 < b2.«end» → c2 = c) :=
  (claim_C1_chunk_partition _).2.2.2.2 3 (by simp)

/-! ## Cell→chunk metadata lemmas -/

lemma mem_setAdd {s : List ℕ} {x y : ℕ} : x ∈ setAdd s y ↔ x ∈ s ∨ x = y := by
  unfold setAdd
  split
  · constructor
    · exact Or.inl
    · rintro (h | rfl)
      · exact h
      · assumption
  · simp

lemma chunkSetOf_mem_aux (table : List ℕ) (indices : List ℕ) :
    ∀ (acc : List ℕ) (c : ℕ),
      c ∈ indices.foldl
        (fun s index =>
          if h : index < table.length then setAdd s (table.get ⟨index, h⟩) else s) acc ↔
      c ∈ acc ∨ ∃ i ∈ indices, ∃ h : i < table.length, table.get ⟨i, h⟩ = c := by
  induction indices with
  | nil => intro acc c; simp
  | cons i rest ih =>
    intro acc c
    simp only [List.foldl_cons]
    rw [ih]
    by_cases h : i < table.length
    · rw [dif_pos h, mem_setAdd]
      constructor
      · rintro ((hc | hc) | hc)
        · exact Or.inl hc
        · exact Or.inr ⟨i, List.mem_cons_self _ _, h, hc.symm⟩
        · obtain ⟨j, hj, hjl, hjv⟩ := hc
          exact Or.inr ⟨j, List.mem_cons_of_mem _ hj, hjl, hjv⟩
      · rintro (hc | ⟨j, hj, hjl, hjv⟩)
        · exact Or.inl (Or.inl hc)
        · rcases List.mem_cons.mp hj with rfl | hj
          · exact Or.inl (Or.inr (by rw [hjv]))
          · exact Or.inr ⟨j, hj, hjl, hjv⟩
    · rw [dif_neg h]
      constructor
      · rintro (hc | ⟨j, hj, hjl, hjv⟩)
        · exact Or.inl hc
        · exact Or.inr ⟨j, List.mem_cons_of_mem _ hj, hjl, hjv⟩
      · rintro (hc | ⟨j, hj, hjl, hjv⟩)
        · exact Or.inl hc
        · rcases List.mem_cons.mp hj with rfl | hj
          · exact absurd hjl h
          · exact Or.inr ⟨j, hj, hjl, hjv⟩

lemma chunkSetOf_mem (table indices : List ℕ) (c : ℕ) :
    c ∈ chunkSetOf table indices ↔
      ∃ i ∈ indices, ∃ h : i < table.length, table.get ⟨i, h⟩ = c := by
  unfold chunkSetOf
  rw [chunkSetOf_mem_aux]
  simp

lemma buildChunkMetadata_eq (grid : Grid) (table : List ℕ) :
    buildChunkMetadata grid (some table) = grid.foldl (buildCMStep table) [] := rfl

lemma buildCM_hom (table : List ℕ) :
    ∀ (gr : Grid) (md : ChunkMetadata),
      gr.foldl (buildCMStep table) md = md ++ gr.foldl (buildCMStep table) [] := by
  intro gr
  induction gr with
  | nil => intro md; simp
  | cons e rest ih =>
    intro md
    simp only [List.foldl_cons]
    rw [ih (buildCMStep table md e), ih (buildCMStep table [] e), ← List.append_assoc]
    have : buildCMStep table md e = md ++ buildCMStep table [] e := by
      unfold buildCMStep
      split
      · simp
      · simp
    rw [this]

lemma metaGet_append (m1 m2 : ChunkMetadata) (k : CellKey) :
    metaGet (m1 ++ m2) k = (metaGet m1 k).or (metaGet m2 k) := by
  unfold metaGet
  rw [List.find?_append]
  cases m1.find? (fun e => decide (e.1 = k)) <;> simp

lemma buildCM_keys (table : List ℕ) :
    ∀ (gr : Grid), ∀ e2 ∈ gr.foldl (buildCMStep table) [], e2.1 ∈ gr.map Prod.fst := by
  intro gr
  induction gr with
  | nil => intro e2 h; cases h
  | cons e rest ih =>
    intro e2 h2
    rw [List.foldl_cons, buildCM_hom] at h2
    rcases List.mem_append.mp h2 with h2 | h2
    · unfold buildCMStep at h2
      split at h2
      · rcases List.mem_append.mp h2 with h2 | h2
        · cases h2
        · simp only [List.mem_singleton] at h2
          subst h2
          simp
      · cases h2
    · exact List.mem_cons_of_mem _ (ih e2 h2)

lemma metaGet_none_of_not_key (m : ChunkMetadata) (k : CellKey)
    (h : ∀ e ∈ m, e.1 ≠ k) : metaGet m k = none := by
  unfold metaGet
  rw [List.find?_eq_none.mpr]
  · rfl
  · intro e he
    simpa using h e he

lemma buildCM_get (table : List ℕ) :
    ∀ (gr : Grid) (k : CellKey) (indices : List ℕ),
      (gr.map Prod.fst).Nodup → (k, indices) ∈ gr →
      metaGet (gr.foldl (buildCMStep table) []) k =
        (if 0 < (chunkSetOf table indices).length
         then some (chunkSetOf table indices) else none) := by
  intro gr
  induction gr with
  | nil => intro k indices _ hmem; cases hmem
  | cons e rest ih =>
    intro k indices hnodup hmem
    have hnd2 := hnodup
    simp only [List.map_cons, List.nodup_cons] at hnd2
    rw [List.foldl_cons, buildCM_hom, metaGet_append]
    rcases List.mem_cons.mp hmem with hmem | hmem
    · have he : e = (k, indices) := hmem.symm
      subst he
      have hnone : metaGet (rest.foldl (buildCMStep table) []) k = none := by
        refine metaGet_none_of_not_key _ _ ?_
        intro e2 he2 hk
        exact hnd2.1 (hk ▸ buildCM_keys table rest e2 he2)
      rw [hnone]
      unfold buildCMStep
      split
      · simp [metaGet]
      · simp [metaGet]
    · have hk : e.1 ≠ k := by
        intro hkk
        exact hnd2.1 (hkk ▸ List.mem_map_of_mem Prod.fst hmem)
      have h1 : metaGet (buildCMStep table [] e) k = none := by
        unfold buildCMStep
        split
        · exact metaGet_none_of_not_key _ _ (by simpa using hk)
        · rfl
      rw [h1, Option.none_or]
      exact ih k indices hnd2.2 hmem

lemma setCM_hom :
    ∀ (entries : List (CellKey × MetaVal)) (md : ChunkMetadata),
      entries.foldl setCMStep md = md ++ entries.foldl setCMStep [] := by
  intro entries
  induction entries with
  | nil => intro md; simp
  | cons e rest ih =>
    intro md
    simp only [List.foldl_cons]
    rw [ih (setCMStep md e), ih (setCMStep [] e), ← List.append_assoc]
    have : setCMStep md e = md ++ setCMStep [] e := by
      unfold setCMStep
      cases e.2 <;> simp
    rw [this]

lemma setCM_roundtrip (md : ChunkMetadata) :
    setChunkMetadata (md.map (fun e => (e.1, MetaVal.arr e.2))) = md := by
  induction md with
  | nil => rfl
  | cons e rest ih =>
    unfold setChunkMetadata at ih ⊢
    rw [List.map_cons, List.foldl_cons, setCM_hom, ih]
    rfl

/-- C4: for every grid cell with at least one indexed feature (indices
within the lookup table), the built cell→chunk table has a non-empty
entry containing the chunk id of every feature in the cell and nothing
else; a cell spanning several chunks keeps all of them; and feeding the
built table back through setChunkMetadata (the persist/restore
round-trip) yields the same entry. -/
theorem claim_C4_cell_chunk_table (grid : Grid) (table : List ℕ)
    (hnodup : (grid.map Prod.fst).Nodup)
    (k : CellKey) (indices : List ℕ)
    (hget : gridGet grid k = some indices) (hne : indices ≠ [])
    (hbound : ∀ i ∈ indices, i < table.length) :
    ∃ s, metaGet (buildChunkMetadata grid (some table)) k = some s ∧ s ≠ [] ∧
      (∀ i ∈ indices, ∀ h : i < table.length, table.get ⟨i, h⟩ ∈ s) ∧
      (∀ c ∈ s, ∃ i ∈ indices, ∃ h : i < table.length, table.get ⟨i, h⟩ = c) ∧
      metaGet (setChunkMetadata ((buildChunkMetadata grid (some table)).map
        (fun e => (e.1, MetaVal.arr e.2)))) k = some s := by
  have hmem := gridGet_mem hget
  rw [buildChunkMetadata_eq]
  have hmain := buildCM_get table grid k indices hnodup hmem
  obtain ⟨i0, hi0⟩ := List.exists_mem_of_ne_nil indices hne
  have hi0l := hbound i0 hi0
  have hin : table.get ⟨i0, hi0l⟩ ∈ chunkSetOf table indices :=
    (chunkSetOf_mem table indices _).mpr ⟨i0, hi0, hi0l, rfl⟩
  have hpos : 0 < (chunkSetOf table indices).length :=
    List.length_pos.mpr (List.ne_nil_of_mem hin)
  rw [if_pos hpos] at hmain
  refine ⟨chunkSetOf table indices, hmain, List.ne_nil_of_mem hin, ?_, ?_, ?_⟩
  · intro i hi h
    exact (chunkSetOf_mem table indices _).mpr ⟨i, hi, h, rfl⟩
  · intro c hc
    exact (chunkSetOf_mem table indices c).mp hc
  · rw [setCM_roundtrip]
    exact hmain

/-- Witness for C4: a cell whose two features live in chunks 0 and 7
keeps both chunk ids in its metadata entry. -/
theorem claim_C4_witness :
    ∃ s, metaGet (buildChunkMetadata [((0, 0), [0, 2])] (some [0, 5, 7])) (0, 0) = some s ∧
      s ≠ [] ∧
      (∀ i ∈ [0, 2], ∀ h : i < [0, 5, 7].length, [0, 5, 7].get ⟨i, h⟩ ∈ s) ∧
      (∀ c ∈ s, ∃ i ∈ [0, 2], ∃ h : i < [0, 5, 7].length, [0, 5, 7].get ⟨i, h⟩ = c) ∧
      metaGet (setChunkMetadata ((buildChunkMetadata [((0, 0), [0, 2])] (some [0, 5, 7])).map
        (fun e => (e.1, MetaVal.arr e.2)))) (0, 0) = some s :=
  claim_C4_cell_chunk_table [((0, 0), [0, 2])] [0, 5, 7] (by decide) (0, 0) [0, 2]
    (by decide) (by decide) (by decide)

/-! ## Query-scan lemmas -/

lemma scanFeature_eq (getF : ℕ → Option Feature) (dist : ℚ → ℚ → ℚ → ℚ → ℚ)
    (lat lon radius : ℚ) :
    ∀ (indices : List ℕ) (acc : List (Feature × ℚ)),
      indices.foldl (scanFeatureStep getF dist lat lon radius) acc =
        acc ++ (((indices.filterMap getF).map (fun f => (f, dist lat lon f.lat f.lon))).filter
          (fun p => decide (p.2 ≤ radius))) := by
  intro indices
  induction indices with
  | nil => intro acc; simp
  | cons i rest ih =>
    intro acc
    simp only [List.foldl_cons, List.filterMap_cons]
    cases hf : getF i with
    | none => rw [show scanFeatureStep getF dist lat lon radius acc i = acc by
        simp [scanFeatureStep, hf], ih]
    | some f =>
      by_cases hd : dist lat lon f.lat f.lon ≤ radius
      · rw [show scanFeatureStep getF dist lat lon radius acc i = acc ++ [(f, dist lat lon f.lat f.lon)] by
          simp [scanFeatureStep, hf, hd], ih]
        simp [hd]
      · rw [show scanFeatureStep getF dist lat lon radius acc i = acc by
          simp [scanFeatureStep, hf, hd], ih]
        simp [hd]

lemma scanCell_hom (grid : Grid) (getF : ℕ → Option Feature) (dist : ℚ → ℚ → ℚ → ℚ → ℚ)
    (lat lon radius : ℚ) :
    ∀ (cells : List CellKey) (acc : List (Feature × ℚ)),
      cells.foldl (scanCellStep grid getF dist lat lon radius) acc =
        acc ++ cells.foldl (scanCellStep grid getF dist lat lon radius) [] := by
  intro cells
  induction cells with
  | nil => intro acc; simp
  | cons k rest ih =>
    intro acc
    simp only [List.foldl_cons]
    rw [ih (scanCellStep grid getF dist lat lon radius acc k),
      ih (scanCellStep grid getF dist lat lon radius [] k), ← List.append_assoc]
    have : scanCellStep grid getF dist lat lon radius acc k =
        acc ++ scanCellStep grid getF dist lat lon radius [] k := by
      unfold scanCellStep
      cases gridGet grid k with
      | none => simp
      | some indices =>
        dsimp only
        rw [scanFeature_eq, scanFeature_eq]
        simp
    rw [this]

/-- The queryRadius scan is exactly: gather the indices of all candidate
cells, resolve them, pair each feature with its distance, and keep the
pairs with distance at most the radius. -/
lemma queryRadiusScan_eq (grid : Grid) (getF : ℕ → Option Feature)
    (dist : ℚ → ℚ → ℚ → ℚ → ℚ) (cells : List CellKey) (lat lon radius : ℚ) :
    queryRadiusScan grid getF dist cells lat lon radius =
      (((cells.flatMap (fun k => (gridGet grid k).getD [])).filterMap getF).map
        (fun f => (f, dist lat lon f.lat f.lon))).filter
          (fun p => decide (p.2 ≤ radius)) := by
  unfold queryRadiusScan
  induction cells with
  | nil => simp
  | cons k rest ih =>
    rw [List.foldl_cons, scanCell_hom, ih, List.flatMap_cons, List.filterMap_append,
      List.map_append, List.filter_append]
    congr 1
    unfold scanCellStep
    cases hk : gridGet grid k with
    | none => simp
    | some indices =>
      dsimp only
      rw [scanFeature_eq]
      simp

/-! ## Candidate-cell enumeration lemmas -/

lemma mem_intRange {a b x : ℤ} : x ∈ intRange a b ↔ a ≤ x ∧ x ≤ b := by
  unfold intRange
  rw [List.mem_map]
  constructor
  · rintro ⟨i, hi, rfl⟩
    rw [List.mem_range] at hi
    omega
  · intro h
    refine ⟨(x - a).toNat, ?_, ?_⟩
    · rw [List.mem_range]
      omega
    · omega

lemma mem_cellsToCheck (cellSize lon lat radius : ℚ) (k : CellKey) :
    k ∈ cellsToCheck cellSize lon lat radius ↔
      ((getCellKey cellSize lon lat).1 - ⌈radius / (cellSize * 111000)⌉ ≤ k.1 ∧
        k.1 ≤ (getCellKey cellSize lon lat).1 + ⌈radius / (cellSize * 111000)⌉ ∧
        (getCellKey cellSize lon lat).2 - ⌈radius / (cellSize * 111000)⌉ ≤ k.2 ∧
        k.2 ≤ (getCellKey cellSize lon lat).2 + ⌈radius / (cellSize * 111000)⌉) := by
  simp only [cellsToCheck, List.mem_flatMap, List.mem_map, mem_intRange]
  constructor
  · rintro ⟨dx, ⟨h1, h2⟩, dy, ⟨h3, h4⟩, rfl⟩
    refine ⟨by simp; omega, by simp; omega, by simp; omega, by simp; omega⟩
  · rintro ⟨h1, h2, h3, h4⟩
    refine ⟨k.1 - (getCellKey cellSize lon lat).1, ⟨by omega, by omega⟩,
      k.2 - (getCellKey cellSize lon lat).2, ⟨by omega, by omega⟩, ?_⟩
    ext
    · simp
    · simp

/-- C5 counterexample: the spec's conversion constant 111320 disagrees
with the source's 111000.  With `cellSize = 1` and
`radius = 111100` the source enumerates a 5×5 square of cells
(`cellRange = 2`) while the spec's formula gives a 3×3 square
(`cellRange = 1`), so the enumerations differ. -/
theorem claim_C5_counterexample :
    (cellsToCheck 1 0 0 111100).length = 25 ∧
    (cellsToCheckSpec 1 0 0 111100).length = 9 ∧
    cellsToCheck 1 0 0 111100 ≠ cellsToCheckSpec 1 0 0 111100 := by
  have hc : (⌈(111100 : ℚ) / (1 * 111000)⌉ : ℤ) = 2 := by norm_num [Int.ceil_eq_iff]
  have hs : (⌈(111100 : ℚ) / 111320 / 1⌉ : ℤ) = 1 := by norm_num [Int.ceil_eq_iff]
  have h0 : getCellKey 1 0 0 = (0, 0) := by simp [getCellKey]
  refine ⟨?_, ?_, ?_⟩ <;> simp only [cellsToCheck, cellsToCheckSpec, h0, hc, hs] <;> decide

/-- C5 amended: the enumeration converts the radius with the constant
111000 — `cellRange = ceil(radius / (cellSize * 111000))` — and
enumerates exactly the square of cells within `cellRange` of the center
cell in each axis; the square is then filtered by the distance
predicate, every returned pair carrying its distance and satisfying
`distance <= radius`. -/
theorem claim_C5_amended :
    (∀ (cellSize lon lat radius : ℚ) (k : CellKey),
      k ∈ cellsToCheck cellSize lon lat radius ↔
        ((getCellKey cellSize lon lat).1 - ⌈radius / (cellSize * 111000)⌉ ≤ k.1 ∧
          k.1 ≤ (getCellKey cellSize lon lat).1 + ⌈radius / (cellSize * 111000)⌉ ∧
          (getCellKey cellSize lon lat).2 - ⌈radius / (cellSize * 111000)⌉ ≤ k.2 ∧
          k.2 ≤ (getCellKey cellSize lon lat).2 + ⌈radius / (cellSize * 111000)⌉)) ∧
    (∀ (grid : Grid) (getF : ℕ → Option Feature) (dist : ℚ → ℚ → ℚ → ℚ → ℚ)
        (cells : List CellKey) (lat lon radius : ℚ) (p : Feature × ℚ),
      p ∈ queryRadiusScan grid getF dist cells lat lon radius →
        p.2 = dist lat lon p.1.lat p.1.lon ∧ p.2 ≤ radius) := by
  refine ⟨mem_cellsToCheck, ?_⟩
  intro grid getF dist cells lat lon radius p hp
  rw [queryRadiusScan_eq] at hp
  obtain ⟨hp1, hp2⟩ := List.mem_filter.mp hp
  obtain ⟨f, _, rfl⟩ := List.mem_map.mp hp1
  exact ⟨rfl, by simpa using hp2⟩

/-- Witness for C5 at a concrete one-cell/one-feature scan: the unique
returned pair carries its distance, which is within the radius. -/
theorem claim_C5_witness :
    ((⟨"Point", 0, 0, 0⟩ : Feature), (0 : ℚ)).2 =
      (fun _ _ _ _ => (0 : ℚ)) 0 0 ((⟨"Point", 0, 0, 0⟩ : Feature), (0 : ℚ)).1.lat
        ((⟨"Point", 0, 0, 0⟩ : Feature), (0 : ℚ)).1.lon ∧
    ((⟨"Point", 0, 0, 0⟩ : Feature), (0 : ℚ)).2 ≤ (0 : ℚ) :=
  claim_C5_amended.2 [((0, 0), [0])] (fun _ => some ⟨"Point", 0, 0, 0⟩)
    (fun _ _ _ _ => 0) [(0, 0)] 0 0 0 _
    (by simp [queryRadiusScan, scanCellStep, scanFeatureStep, gridGet])

/-! ## Cache-capacity tuning lemmas (C9) -/

lemma ff_le (pad mob : Bool) (l : ℕ) : tuneFormFactorLimit pad mob l ≤ l := by
  unfold tuneFormFactorLimit
  split_ifs <;> omega

lemma ff_pad (mob : Bool) (l : ℕ) : tuneFormFactorLimit true mob l ≤ 4 := by
  unfold tuneFormFactorLimit
  rw [if_pos rfl]
  omega

lemma ff_mob (pad : Bool) (l : ℕ) : tuneFormFactorLimit pad true l ≤ 6 := by
  unfold tuneFormFactorLimit
  cases pad with
  | false => rw [if_neg (by simp), if_pos rfl]; omega
  | true => rw [if_pos rfl]; omega

lemma dev_le_of_lt8 (dm : Option ℚ) (cc : Option ℕ) (l : ℕ)
    (h : ∀ d, dm = some d → d < 8) : tuneDeviceLimit dm cc l ≤ l := by
  unfold tuneDeviceLimit
  cases dm with
  | none => exact le_refl l
  | some d =>
    have hd := h d rfl
    dsimp only
    split_ifs with h1 h2 h3
    · omega
    · omega
    · exact absurd h3 (not_le.mpr hd)
    · exact le_refl l

lemma dev_le2 (dm : Option ℚ) (cc : Option ℕ) (l : ℕ) (d : ℚ)
    (hdm : dm = some d) (hd : d ≤ 2) : tuneDeviceLimit dm cc l ≤ 4 := by
  subst hdm
  unfold tuneDeviceLimit
  dsimp only
  rw [if_pos hd]
  omega

lemma dev_le4 (dm : Option ℚ) (cc : Option ℕ) (l : ℕ) (d : ℚ)
    (hdm : dm = some d) (hd : d ≤ 4) : tuneDeviceLimit dm cc l ≤ 6 := by
  subst hdm
  unfold tuneDeviceLimit
  dsimp only
  split_ifs <;> omega

lemma ds_le (cc : Option ℕ) (l : ℕ) : tuneDatasetLimit cc l ≤ l := by
  unfold tuneDatasetLimit
  cases cc with
  | none => exact le_refl l
  | some c =>
    dsimp only
    split_ifs <;> omega

lemma ds_heur (c : ℕ) (l : ℕ) (hc : 0 < c) :
    tuneDatasetLimit (some c) l ≤ max 3 (min 20 ((c + 9) / 10)) := by
  unfold tuneDatasetLimit
  dsimp only
  rw [if_pos hc]
  omega

lemma ds_le_c (c : ℕ) (l : ℕ) (hc : 0 < c) : tuneDatasetLimit (some c) l ≤ c := by
  unfold tuneDatasetLimit
  dsimp only
  rw [if_pos hc]
  omega

lemma fc_ge1 (cc : Option ℕ) (l : ℕ) : 1 ≤ tuneFinalClamp cc l := by
  unfold tuneFinalClamp
  omega

lemma fc_le_bound (cc : Option ℕ) (l B : ℕ) (hl : l ≤ B) (hB : 1 ≤ B) :
    tuneFinalClamp cc l ≤ B := by
  unfold tuneFinalClamp
  cases cc with
  | none => dsimp only; omega
  | some c =>
    dsimp only
    split_ifs <;> omega

lemma caller_eq (mq : ℕ) (h : 1 ≤ mq) : tuneCallerLimit (some (mq : ℚ)) = mq := by
  unfold tuneCallerLimit
  dsimp only
  rw [if_pos (by positivity : (0 : ℚ) < (mq : ℚ)), Int.floor_natCast]
  omega

/-- C9 counterexample: the applied capacity is not the minimum of the
caller ceiling, the clamped ~10% heuristic, and a device-capability
reduction.  With `deviceMemory = 8`, `chunkCount = 50` and caller ceiling
10, the high-memory branch raises the limit to 12, above both the caller
ceiling 10 and the heuristic 5. -/
theorem claim_C9_counterexample :
    tuneChunkCache ⟨some 8, false, false, some 50, some 10⟩ = 12 ∧
    ¬ tuneChunkCache ⟨some 8, false, false, some 50, some 10⟩ ≤ 10 ∧
    ¬ tuneChunkCache ⟨some 8, false, false, some 50, some 10⟩ ≤
      max 3 (min 20 ((50 + 9) / 10)) := by
  have h : tuneChunkCache ⟨some 8, false, false, some 50, some 10⟩ = 12 := by
    simp only [tuneChunkCache, tuneCallerLimit, tuneDatasetLimit, tuneDeviceLimit,
      tuneFormFactorLimit, tuneFinalClamp]
    norm_num
  refine ⟨h, ?_, ?_⟩ <;> rw [h] <;> norm_num

/-- C9 amended: except on high-memory devices (`deviceMemory >= 8`,
where headroom may raise the limit to 12–20 regardless of the caller
ceiling and heuristic), the applied capacity is bounded by the caller
ceiling, by the `[3,20]`-clamped ~10% heuristic and by the chunk count;
the device caps (4 on `deviceMemory <= 2` or older iPads, 6 on
`deviceMemory <= 4` or mobile) always hold, the capacity is always at
least 1, and in particular `chunkCount = 50` with any low-memory hint
makes enableLazyLoading return a capacity in `[1, 6]`. -/
theorem claim_C9_amended :
    (∀ (m : ℕ) (o : CacheOptions), o.chunkCount = some 50 →
      ((∃ d, o.deviceMemory = some d ∧ d ≤ 4) ∨ o.isMobile = true ∨ o.isOlderiPad = true) →
      1 ≤ enableLazyLoading m (some o) ∧ enableLazyLoading m (some o) ≤ 6) ∧
    (∀ o : CacheOptions, 1 ≤ tuneChunkCache o) ∧
    (∀ o : CacheOptions, ∀ d, o.deviceMemory = some d → d ≤ 2 → tuneChunkCache o ≤ 4) ∧
    (∀ o : CacheOptions, ∀ d, o.deviceMemory = some d → d ≤ 4 → tuneChunkCache o ≤ 6) ∧
    (∀ o : CacheOptions, o.isOlderiPad = true → tuneChunkCache o ≤ 4) ∧
    (∀ o : CacheOptions, o.isMobile = true → tuneChunkCache o ≤ 6) ∧
    (∀ o : CacheOptions, (∀ d, o.deviceMemory = some d → d < 8) →
      (∀ mq : ℕ, o.maxCachedChunks = some (mq : ℚ) → 1 ≤ mq → tuneChunkCache o ≤ mq) ∧
      (∀ c : ℕ, o.chunkCount = some c → 0 < c →
        tuneChunkCache o ≤ max 3 (min 20 ((c + 9) / 10)) ∧ tuneChunkCache o ≤ c)) := by
  have hcap6 : ∀ o : CacheOptions,
      tuneFormFactorLimit o.isOlderiPad o.isMobile
        (tuneDeviceLimit o.deviceMemory o.chunkCount
          (tuneDatasetLimit o.chunkCount (tuneCallerLimit o.maxCachedChunks))) ≤ 6 →
      tuneChunkCache o ≤ 6 := by
    intro o h
    exact fc_le_bound _ _ _ h (by omega)
  refine ⟨?_, ?_, ?_, ?_, ?_, ?_, ?_⟩
  · intro m o hcc hint
    show 1 ≤ tuneChunkCache o ∧ tuneChunkCache o ≤ 6
    refine ⟨fc_ge1 _ _, hcap6 o ?_⟩
    rcases hint with ⟨d, hdm, hd4⟩ | hmob | hpad
    · exact le_trans (ff_le _ _ _) (dev_le4 _ _ _ d hdm hd4)
    · obtain ⟨dm, mob, pad, cc, mcc⟩ := o
      simp only at hmob
      subst hmob
      cases pad
      · exact ff_mob _ _
      · exact le_trans (ff_pad _ _) (by omega)
    · obtain ⟨dm, mob, pad, cc, mcc⟩ := o
      simp only at hpad
      subst hpad
      exact le_trans (ff_pad _ _) (by omega)
  · intro o
    exact fc_ge1 _ _
  · intro o d hdm hd2
    exact fc_le_bound _ _ _ (le_trans (ff_le _ _ _) (dev_le2 _ _ _ d hdm hd2)) (by omega)
  · intro o d hdm hd4
    exact hcap6 o (le_trans (ff_le _ _ _) (dev_le4 _ _ _ d hdm hd4))
  · intro o hpad
    obtain ⟨dm, mob, pad, cc, mcc⟩ := o
    simp only at hpad
    subst hpad
    exact fc_le_bound _ _ _ (ff_pad _ _) (by omega)
  · intro o hmob
    obtain ⟨dm, mob, pad, cc, mcc⟩ := o
    simp only at hmob
    subst hmob
    refine hcap6 _ ?_
    cases pad
    · exact ff_mob _ _
    · exact le_trans (ff_pad _ _) (by omega)
  · intro o hlow
    constructor
    · intro mq hmq hmq1
      have hchain : tuneFormFactorLimit o.isOlderiPad o.isMobile
          (tuneDeviceLimit o.deviceMemory o.chunkCount
            (tuneDatasetLimit o.chunkCount (tuneCallerLimit o.maxCachedChunks))) ≤ mq := by
        refine le_trans (ff_le _ _ _) (le_trans (dev_le_of_lt8 _ _ _ hlow) ?_)
        refine le_trans (ds_le _ _) ?_
        rw [hmq, caller_eq mq hmq1]
      exact fc_le_bound _ _ _ hchain hmq1
    · intro c hc hcpos
      constructor
      · refine fc_le_bound _ _ _ ?_ (by omega)
        refine le_trans (ff_le _ _ _) (le_trans (dev_le_of_lt8 _ _ _ hlow) ?_)
        rw [hc]
        exact ds_heur c _ hcpos
      · refine fc_le_bound _ _ _ ?_ hcpos
        refine le_trans (ff_le _ _ _) (le_trans (dev_le_of_lt8 _ _ _ hlow) ?_)
        rw [hc]
        exact ds_le_c c _ hcpos

/-- Witness for C9 at `chunkCount = 50` with the low-memory hint
`deviceMemory = 4`: the applied capacity is between 1 and 6. -/
theorem claim_C9_witness :
    1 ≤ enableLazyLoading 10 (some ⟨some 4, false, false, some 50, none⟩) ∧
    enableLazyLoading 10 (some ⟨some 4, false, false, some 50, none⟩) ≤ 6 :=
  claim_C9_amended.1 10 ⟨some 4, false, false, some 50, none⟩ rfl
    (Or.inl ⟨4, rfl, by norm_num⟩)

/-! ## LRU sort lemmas -/

lemma insertByAccess_perm (e : CacheEntry) :
    ∀ l : List CacheEntry, List.Perm (insertByAccess e l) (e :: l) := by
  intro l
  induction l with
  | nil => exact List.Perm.refl _
  | cons x xs ih =>
    unfold insertByAccess
    split
    · exact (ih.cons x).trans (List.Perm.swap e x xs)
    · exact List.Perm.refl _

lemma sortFold_perm :
    ∀ (l acc : List CacheEntry),
      List.Perm (l.foldl (fun acc e => insertByAccess e acc) acc) (l ++ acc) := by
  intro l
  induction l with
  | nil => intro acc; exact List.Perm.refl _
  | cons e rest ih =>
    intro acc
    simp only [List.foldl_cons]
    exact ((ih _).trans (List.Perm.append_left rest (insertByAccess_perm e acc))).trans
      List.perm_middle

lemma sortByAccess_perm (l : List CacheEntry) : List.Perm (sortByAccess l) l := by
  unfold sortByAccess
  simpa using sortFold_perm l []

lemma insertByAccess_sorted (e : CacheEntry) :
    ∀ l : List CacheEntry,
      l.Sorted (fun a b : CacheEntry => a.lastAccess ≤ b.lastAccess) →
      (insertByAccess e l).Sorted (fun a b : CacheEntry => a.lastAccess ≤ b.lastAccess) := by
  intro l
  induction l with
  | nil => intro _; exact List.sorted_singleton e
  | cons x xs ih =>
    intro h
    rw [List.sorted_cons] at h
    unfold insertByAccess
    by_cases hx : x.lastAccess ≤ e.lastAccess
    · rw [if_pos hx, List.sorted_cons]
      refine ⟨?_, ih h.2⟩
      intro b hb
      rcases List.mem_cons.mp ((insertByAccess_perm e xs).mem_iff.mp hb) with rfl | hb2
      · exact hx
      · exact h.1 b hb2
    · rw [if_neg hx, List.sorted_cons]
      refine ⟨?_, ?_⟩
      · intro b hb
        rcases List.mem_cons.mp hb with rfl | hb2
        · omega
        · have := h.1 b hb2
          omega
      · rw [List.sorted_cons]
        exact h

lemma sortFold_sorted :
    ∀ (l acc : List CacheEntry),
      acc.Sorted (fun a b : CacheEntry => a.lastAccess ≤ b.lastAccess) →
      (l.foldl (fun acc e => insertByAccess e acc) acc).Sorted
        (fun a b : CacheEntry => a.lastAccess ≤ b.lastAccess) := by
  intro l
  induction l with
  | nil => intro acc h; exact h
  | cons e rest ih =>
    intro acc h
    simp only [List.foldl_cons]
    exact ih _ (insertByAccess_sorted e acc h)

lemma sortByAccess_sorted (l : List CacheEntry) :
    (sortByAccess l).Sorted (fun a b : CacheEntry => a.lastAccess ≤ b.lastAccess) :=
  sortFold_sorted l [] (by simp)

/-- C2, eviction half: when the cache is over capacity, evictOldChunks
keeps exactly `maxCachedChunks` entries, and the removed entries are
precisely a least-recently-used prefix — every evicted entry's
`lastAccess` is at most every survivor's — with the removed ids also
deleted from `loadedChunks`. -/
lemma evictOldChunks_spec (st : LazyState) (hover : st.maxCachedChunks < st.chunkCache.length) :
    ∃ removed kept : List CacheEntry,
      sortByAccess st.chunkCache = removed ++ kept ∧
      (evictOldChunks st).chunkCache = kept ∧
      kept.length = st.maxCachedChunks ∧
      List.Perm (removed ++ kept) st.chunkCache ∧
      (∀ r ∈ removed, ∀ c ∈ kept, r.lastAccess ≤ c.lastAccess) ∧
      (evictOldChunks st).loadedChunks =
        st.loadedChunks.filter (fun id => decide (¬ ∃ r ∈ removed, r.id = id)) ∧
      (evictOldChunks st).maxCachedChunks = st.maxCachedChunks := by
  have hlen : (sortByAccess st.chunkCache).length = st.chunkCache.length :=
    (sortByAccess_perm st.chunkCache).length_eq
  refine ⟨(sortByAccess st.chunkCache).take
      ((sortByAccess st.chunkCache).length - st.maxCachedChunks),
    (sortByAccess st.chunkCache).drop
      ((sortByAccess st.chunkCache).length - st.maxCachedChunks),
    (List.take_append_drop _ _).symm, ?_, ?_, ?_, ?_, ?_, ?_⟩
  · unfold evictOldChunks
    rw [if_neg (by omega)]
  · rw [List.length_drop]
    omega
  · rw [List.take_append_drop]
    exact sortByAccess_perm st.chunkCache
  · intro r hr c hc
    have hs := sortByAccess_sorted st.chunkCache
    rw [← List.take_append_drop
      ((sortByAccess st.chunkCache).length - st.maxCachedChunks)
      (sortByAccess st.chunkCache), List.Sorted, List.pairwise_append] at hs
    exact hs.2.2 r hr c hc
  · unfold evictOldChunks
    rw [if_neg (by omega)]
  · unfold evictOldChunks
    rw [if_neg (by omega)]

/-! ## Cache well-formedness lemmas -/

lemma update_loaded (st : LazyState) (id now : ℕ) :
    (updateChunkCache st id now).loadedChunks = st.loadedChunks := by
  unfold updateChunkCache
  split <;> rfl

lemma update_max (st : LazyState) (id now : ℕ) :
    (updateChunkCache st id now).maxCachedChunks = st.maxCachedChunks := by
  unfold updateChunkCache
  split <;> rfl

lemma update_ids_of_mem (st : LazyState) (id now : ℕ)
    (h : id ∈ st.chunkCache.map (fun c => c.id)) :
    (updateChunkCache st id now).chunkCache.map (fun c => c.id) =
      st.chunkCache.map (fun c => c.id) := by
  obtain ⟨c, hc, hcid⟩ := List.mem_map.mp h
  have hsome : (st.chunkCache.find? (fun c => decide (c.id = id))).isSome := by
    rw [List.find?_isSome]
    exact ⟨c, hc, by simp [hcid]⟩
  unfold updateChunkCache
  rw [if_pos hsome]
  simp only [List.map_map]
  refine List.map_congr_left ?_
  intro x _
  by_cases hx : x.id = id
  · simp [hx]
  · simp [hx]

lemma update_ids_of_not_mem (st : LazyState) (id now : ℕ)
    (h : id ∉ st.chunkCache.map (fun c => c.id)) :
    (updateChunkCache st id now).chunkCache.map (fun c => c.id) =
      st.chunkCache.map (fun c => c.id) ++ [id] := by
  have hnone : ¬ (st.chunkCache.find? (fun c => decide (c.id = id))).isSome := by
    rw [List.find?_isSome]
    rintro ⟨c, hc, hcid⟩
    simp only [decide_eq_true_eq] at hcid
    exact h (List.mem_map.mpr ⟨c, hc, hcid⟩)
  unfold updateChunkCache
  rw [if_neg hnone]
  simp

lemma update_WF (st : LazyState) (id now : ℕ) (h : WFCache st) (hid : id ∈ st.loadedChunks) :
    WFCache (updateChunkCache st id now) := by
  obtain ⟨h1, h2, h3⟩ := h
  have hid2 : id ∈ st.chunkCache.map (fun c => c.id) := (h3 id).mp hid
  refine ⟨?_, ?_, ?_⟩
  · rw [update_loaded]
    exact h1
  · rw [update_ids_of_mem st id now hid2]
    exact h2
  · intro x
    rw [update_loaded, update_ids_of_mem st id now hid2]
    exact h3 x

lemma absorb_WF (st : LazyState) (c : LoadedChunk) (now : ℕ) (h : WFCache st) :
    WFCache (absorbChunk st c now) ∧
      (absorbChunk st c now).maxCachedChunks = st.maxCachedChunks := by
  obtain ⟨h1, h2, h3⟩ := h
  unfold absorbChunk
  cases c.features with
  | none => exact ⟨⟨h1, h2, h3⟩, rfl⟩
  | some fs =>
    dsimp only
    by_cases hid : c.id ∈ st.loadedChunks
    · rw [if_pos hid]
      have hWF1 : WFCache { st with chunkMap := chunkMapSet st.chunkMap c.id fs } :=
        ⟨h1, h2, h3⟩
      refine ⟨update_WF _ c.id now hWF1 hid, ?_⟩
      rw [update_max]
    · rw [if_neg hid]
      have hid2 : c.id ∉ st.chunkCache.map (fun c => c.id) := fun hx => hid ((h3 c.id).mpr hx)
      set st1 : LazyState := { st with
        chunkMap := chunkMapSet st.chunkMap c.id fs
        loadedChunks := st.loadedChunks ++ [c.id] } with hst1
      have hid3 : c.id ∉ st1.chunkCache.map (fun c => c.id) := hid2
      constructor
      · refine ⟨?_, ?_, ?_⟩
        · rw [update_loaded]
          show (st.loadedChunks ++ [c.id]).Nodup
          rw [List.nodup_append]
          exact ⟨h1, List.nodup_singleton _, by simpa using hid⟩
        · rw [update_ids_of_not_mem st1 c.id now hid3]
          show ((st.chunkCache.map (fun c => c.id)) ++ [c.id]).Nodup
          rw [List.nodup_append]
          exact ⟨h2, List.nodup_singleton _, by simpa using hid2⟩
        · intro x
          rw [update_loaded, update_ids_of_not_mem st1 c.id now hid3]
          show x ∈ st.loadedChunks ++ [c.id] ↔ x ∈ (st.chunkCache.map (fun c => c.id)) ++ [c.id]
          simp only [List.mem_append, List.mem_singleton]
          rw [h3 x]
      · rw [update_max]

lemma foldAbsorb_WF (now : ℕ) :
    ∀ (chunks : List LoadedChunk) (st : LazyState), WFCache st →
      WFCache (chunks.foldl (fun s c => absorbChunk s c now) st) ∧
        (chunks.foldl (fun s c => absorbChunk s c now) st).maxCachedChunks =
          st.maxCachedChunks := by
  intro chunks
  induction chunks with
  | nil => intro st h; exact ⟨h, rfl⟩
  | cons c rest ih =>
    intro st h
    simp only [List.foldl_cons]
    obtain ⟨hWF, hmax⟩ := absorb_WF st c now h
    obtain ⟨hWF2, hmax2⟩ := ih _ hWF
    exact ⟨hWF2, hmax2.trans hmax⟩

lemma touch_fold (now : ℕ) :
    ∀ (ids : List ℕ) (st : LazyState), WFCache st →
      WFCache (ids.foldl
        (fun s id => if id ∈ s.loadedChunks then updateChunkCache s id now else s) st) ∧
      (ids.foldl
        (fun s id => if id ∈ s.loadedChunks then updateChunkCache s id now else s)
        st).loadedChunks = st.loadedChunks ∧
      (ids.foldl
        (fun s id => if id ∈ s.loadedChunks then updateChunkCache s id now else s)
        st).maxCachedChunks = st.maxCachedChunks := by
  intro ids
  induction ids with
  | nil => intro st h; exact ⟨h, rfl, rfl⟩
  | cons id rest ih =>
    intro st h
    simp only [List.foldl_cons]
    by_cases hid : id ∈ st.loadedChunks
    · rw [if_pos hid]
      obtain ⟨hWF2, hl2, hm2⟩ := ih _ (update_WF st id now h hid)
      exact ⟨hWF2, hl2.trans (update_loaded st id now), hm2.trans (update_max st id now)⟩
    · rw [if_neg hid]
      exact ih st h

lemma WF_length (st : LazyState) (h : WFCache st) :
    st.loadedChunks.length = st.chunkCache.length := by
  have hperm : List.Perm st.loadedChunks (st.chunkCache.map (fun c => c.id)) :=
    (List.perm_ext_iff_of_nodup h.1 h.2.1).mpr h.2.2
  rw [hperm.length_eq, List.length_map]

lemma evict_max (st : LazyState) :
    (evictOldChunks st).maxCachedChunks = st.maxCachedChunks := by
  unfold evictOldChunks
  split <;> rfl

lemma evict_len (st : LazyState) :
    (evictOldChunks st).chunkCache.length = min st.chunkCache.length st.maxCachedChunks := by
  unfold evictOldChunks
  split
  · omega
  · have hlen : (sortByAccess st.chunkCache).length = st.chunkCache.length :=
      (sortByAccess_perm st.chunkCache).length_eq
    simp only [List.length_drop]
    omega

lemma evict_WF (st : LazyState) (h : WFCache st) : WFCache (evictOldChunks st) := by
  obtain ⟨h1, h2, h3⟩ := h
  unfold evictOldChunks
  split
  · exact ⟨h1, h2, h3⟩
  · dsimp only
    have hperm : List.Perm (sortByAccess st.chunkCache) st.chunkCache :=
      sortByAccess_perm st.chunkCache
    have hsortedids : ((sortByAccess st.chunkCache).map (fun c => c.id)).Nodup :=
      (hperm.map (fun c => c.id)).nodup_iff.mpr h2
    have hsplit : (sortByAccess st.chunkCache).map (fun c => c.id) =
        ((sortByAccess st.chunkCache).take
          ((sortByAccess st.chunkCache).length - st.maxCachedChunks)).map (fun c => c.id) ++
        ((sortByAccess st.chunkCache).drop
          ((sortByAccess st.chunkCache).length - st.maxCachedChunks)).map (fun c => c.id) := by
      rw [← List.map_append, List.take_append_drop]
    have hdisj := (List.nodup_append.mp (hsplit ▸ hsortedids)).2.2
    refine ⟨List.Nodup.filter _ h1, ?_, ?_⟩
    · exact List.Nodup.sublist
        (List.Sublist.map (fun c : CacheEntry => c.id) (List.drop_sublist _ _)) hsortedids
    · intro x
      show x ∈ st.loadedChunks.filter _ ↔ x ∈ _
      rw [List.mem_filter]
      constructor
      · rintro ⟨hx1, hx2⟩
        rw [decide_eq_true_eq] at hx2
        have hx3 : x ∈ (sortByAccess st.chunkCache).map (fun c => c.id) :=
          ((hperm.map (fun c => c.id)).mem_iff).mpr ((h3 x).mp hx1)
        rw [hsplit] at hx3
        rcases List.mem_append.mp hx3 with hx3 | hx3
        · exfalso
          obtain ⟨r, hr, hrid⟩ := List.mem_map.mp hx3
          exact hx2 ⟨r, hr, hrid⟩
        · exact hx3
      · intro hx
        have hxs : x ∈ (sortByAccess st.chunkCache).map (fun c => c.id) := by
          rw [hsplit]
          exact List.mem_append_right _ hx
        refine ⟨(h3 x).mpr (((hperm.map (fun c => c.id)).mem_iff).mp hxs), ?_⟩
        rw [decide_eq_true_eq]
        rintro ⟨r, hr, hrid⟩
        exact hdisj (List.mem_map.mpr ⟨r, hr, hrid⟩) hx

/-- C2: after any ensureChunksLoaded call on a well-formed cache state
within capacity, the state stays well-formed and the number of resident
chunks stays at most `maxCachedChunks`; and whenever eviction fires, the
evicted entries are exactly a least-recently-used portion — every
evicted entry is at least as old as every survivor — with survivors
numbering exactly `maxCachedChunks` and evicted ids removed from the
resident set. -/
theorem claim_C2_cache_bound_lru :
    (∀ (loader : Option (List ℕ → List LoadedChunk)) (st : LazyState)
        (chunkIds : List ℕ) (now : ℕ),
      WFCache st → st.loadedChunks.length ≤ st.maxCachedChunks →
      WFCache (ensureChunksLoaded loader st chunkIds now) ∧
      (ensureChunksLoaded loader st chunkIds now).loadedChunks.length ≤
        (ensureChunksLoaded loader st chunkIds now).maxCachedChunks) ∧
    (∀ st : LazyState, st.maxCachedChunks < st.chunkCache.length →
      ∃ removed kept : List CacheEntry,
        sortByAccess st.chunkCache = removed ++ kept ∧
        (evictOldChunks st).chunkCache = kept ∧
        kept.length = st.maxCachedChunks ∧
        List.Perm (removed ++ kept) st.chunkCache ∧
        (∀ r ∈ removed, ∀ c ∈ kept, r.lastAccess ≤ c.lastAccess) ∧
        (evictOldChunks st).loadedChunks =
          st.loadedChunks.filter (fun id => decide (¬ ∃ r ∈ removed, r.id = id)) ∧
        (evictOldChunks st).maxCachedChunks = st.maxCachedChunks) := by
  refine ⟨?_, evictOldChunks_spec⟩
  intro loader st chunkIds now hWF hlen
  unfold ensureChunksLoaded
  dsimp only
  split
  · obtain ⟨hWF2, hl2, hm2⟩ := touch_fold now chunkIds st hWF
    rw [hl2, hm2]
    exact ⟨hWF2, hlen⟩
  · cases loader with
    | none => exact ⟨hWF, hlen⟩
    | some f =>
      dsimp only
      obtain ⟨hWF1, hmax1⟩ := foldAbsorb_WF now
        (f (chunkIds.filter (fun id => decide (id ∉ st.loadedChunks)))) st hWF
      have hWF2 := evict_WF _ hWF1
      refine ⟨hWF2, ?_⟩
      rw [WF_length _ hWF2, evict_len, evict_max, hmax1]
      omega

/-- Witness for C2: loading two fresh chunks into an empty one-slot
cache leaves exactly one resident chunk. -/
theorem claim_C2_witness :
    WFCache (ensureChunksLoaded (some (fun ids => ids.map (fun id => ⟨id, some []⟩)))
      ⟨[], [], [], 1⟩ [0, 1] 5) ∧
    (ensureChunksLoaded (some (fun ids => ids.map (fun id => ⟨id, some []⟩)))
      ⟨[], [], [], 1⟩ [0, 1] 5).loadedChunks.length ≤
      (ensureChunksLoaded (some (fun ids => ids.map (fun id => ⟨id, some []⟩)))
        ⟨[], [], [], 1⟩ [0, 1] 5).maxCachedChunks :=
  claim_C2_cache_bound_lru.1 (some (fun ids => ids.map (fun id => ⟨id, some []⟩)))
    ⟨[], [], [], 1⟩ [0, 1] 5 ⟨by simp, by simp, by simp⟩ (by simp)

/-! ## Persistence lemmas (C7) -/

lemma saveChunkBatch_indexRec (i : ℕ) (batch : List (List Feature)) (store : Store) :
    (saveChunkBatch i batch store).indexRec = store.indexRec := rfl

lemma streamSaveFrom_indexRec (featureChunks : List (List Feature)) :
    ∀ (i : ℕ) (store : Store),
      (streamSaveFrom featureChunks i store).indexRec = store.indexRec := by
  have H : ∀ (k i : ℕ) (store : Store), featureChunks.length - i ≤ k →
      (streamSaveFrom featureChunks i store).indexRec = store.indexRec := by
    intro k
    induction k with
    | zero =>
      intro i store hk
      rw [streamSaveFrom, dif_neg (by omega)]
    | succ k ih =>
      intro i store hk
      rw [streamSaveFrom]
      split
      · rw [ih _ _ (by simp only [streamBatchSize]; omega)]
        rfl
      · rfl
  intro i store
  exact H (featureChunks.length - i) i store le_rfl

lemma streamSaveFrom_eq (c : List (List Feature)) (i : ℕ) (s : Store) :
    streamSaveFrom c i s =
      if _h : i < c.length then
        streamSaveFrom c (i + streamBatchSize)
          (saveChunkBatch i ((c.drop i).take streamBatchSize) s)
      else s := by
  rw [streamSaveFrom]

lemma streamSaveFrom_chunkRecs_congr (featureChunks : List (List Feature)) :
    ∀ (i : ℕ) (s s2 : Store), s.chunkRecs = s2.chunkRecs →
      (streamSaveFrom featureChunks i s).chunkRecs =
        (streamSaveFrom featureChunks i s2).chunkRecs := by
  have H : ∀ (k i : ℕ) (s s2 : Store), featureChunks.length - i ≤ k →
      s.chunkRecs = s2.chunkRecs →
      (streamSaveFrom featureChunks i s).chunkRecs =
        (streamSaveFrom featureChunks i s2).chunkRecs := by
    intro k
    induction k with
    | zero =>
      intro i s s2 hk h
      rw [streamSaveFrom_eq featureChunks i s, streamSaveFrom_eq featureChunks i s2,
        dif_neg (by omega), dif_neg (by omega)]
      exact h
    | succ k ih =>
      intro i s s2 hk h
      rw [streamSaveFrom_eq featureChunks i s, streamSaveFrom_eq featureChunks i s2]
      by_cases hlt : i < featureChunks.length
      · rw [dif_pos hlt, dif_pos hlt]
        refine ih _ _ _ (by simp only [streamBatchSize]; omega) ?_
        show (saveChunkBatch i _ s).chunkRecs = (saveChunkBatch i _ s2).chunkRecs
        unfold saveChunkBatch
        rw [h]
      · rw [dif_neg hlt, dif_neg hlt]
        exact h
  intro i s s2 h
  exact H (featureChunks.length - i) i s s2 le_rfl h

lemma chunkMapSet_keys {m : List (ℕ × List Feature)} {id : ℕ} {fs : List Feature}
    {p : ℕ × List Feature} (hp : p ∈ chunkMapSet m id fs) :
    p.1 ∈ m.map Prod.fst ∨ p.1 = id := by
  unfold chunkMapSet at hp
  split at hp
  · rcases List.mem_map.mp hp with ⟨e0, he0, heq⟩
    by_cases hk : e0.1 = id
    · rw [if_pos hk] at heq
      subst heq
      exact Or.inr rfl
    · rw [if_neg hk] at heq
      subst heq
      exact Or.inl (List.mem_map_of_mem Prod.fst he0)
  · rcases List.mem_append.mp hp with hp | hp
    · exact Or.inl (List.mem_map_of_mem Prod.fst hp)
    · simp only [List.mem_singleton] at hp
      subst hp
      exact Or.inr rfl

lemma foldSet_keys (i : ℕ) :
    ∀ (ps : List (ℕ × List Feature)) (recs : List (ℕ × List Feature)) (p : ℕ × List Feature),
      p ∈ ps.foldl (fun recs q => chunkMapSet recs (i + q.1) q.2) recs →
      p.1 ∈ recs.map Prod.fst ∨ ∃ q ∈ ps, p.1 = i + q.1 := by
  intro ps
  induction ps with
  | nil => intro recs p hp; exact Or.inl (List.mem_map_of_mem Prod.fst hp)
  | cons q rest ih =>
    intro recs p hp
    simp only [List.foldl_cons] at hp
    rcases ih _ p hp with hk | ⟨q2, hq2, hq2e⟩
    · rcases List.mem_map.mp hk with ⟨e0, he0, heq⟩
      rcases chunkMapSet_keys he0 with hk2 | hk2
      · left
        rw [← heq]
        exact hk2
      · right
        exact ⟨q, List.mem_cons_self _ _, heq ▸ hk2 ▸ rfl⟩
    · exact Or.inr ⟨q2, List.mem_cons_of_mem _ hq2, hq2e⟩

lemma saveChunkBatch_keys {i : ℕ} {batch : List (List Feature)} {store : Store}
    {p : ℕ × List Feature} (hp : p ∈ (saveChunkBatch i batch store).chunkRecs) :
    p.1 ∈ store.chunkRecs.map Prod.fst ∨ (i ≤ p.1 ∧ p.1 < i + batch.length) := by
  unfold saveChunkBatch at hp
  rcases foldSet_keys i batch.enum store.chunkRecs p hp with hk | ⟨q, hq, hqe⟩
  · exact Or.inl hk
  · right
    have := List.mem_enum_iff_getElem?.mp hq
    have hq1 : q.1 < batch.length := by
      by_contra hcon
      rw [List.getElem?_eq_none (by omega)] at this
      cases this
    omega

lemma streamSaveFrom_keys (featureChunks : List (List Feature)) :
    ∀ (i : ℕ) (store : Store) (p : ℕ × List Feature),
      p ∈ (streamSaveFrom featureChunks i store).chunkRecs →
      p.1 ∈ store.chunkRecs.map Prod.fst ∨ p.1 < featureChunks.length := by
  have H : ∀ (k i : ℕ) (store : Store) (p : ℕ × List Feature),
      featureChunks.length - i ≤ k →
      p ∈ (streamSaveFrom featureChunks i store).chunkRecs →
      p.1 ∈ store.chunkRecs.map Prod.fst ∨ p.1 < featureChunks.length := by
    intro k
    induction k with
    | zero =>
      intro i store p hk hp
      rw [streamSaveFrom, dif_neg (by omega)] at hp
      exact Or.inl (List.mem_map_of_mem Prod.fst hp)
    | succ k ih =>
      intro i store p hk hp
      rw [streamSaveFrom] at hp
      split at hp
      · next hlt =>
        rcases ih _ _ p (by simp only [streamBatchSize]; omega) hp with hk2 | hk2
        · rcases List.mem_map.mp hk2 with ⟨e0, he0, heq⟩
          rcases saveChunkBatch_keys he0 with hk3 | hk3
          · left
            rw [← heq]
            exact hk3
          · right
            have hbl : ((featureChunks.drop i).take streamBatchSize).length ≤
                featureChunks.length - i := by
              rw [List.length_take, List.length_drop]
              omega
            omega
        · exact Or.inr hk2
      · exact Or.inl (List.mem_map_of_mem Prod.fst hp)
  intro i store p hp
  exact H (featureChunks.length - i) i store p le_rfl hp

lemma loadChunksStore_congr {s s2 : Store} (h : s.chunkRecs = s2.chunkRecs) :
    ∀ ids, loadChunksStore s ids = loadChunksStore s2 ids := by
  intro ids
  unfold loadChunksStore
  rw [h]

/-- C7: running the full persist sequence twice with identical input is
indistinguishable from running it once — the restored index structure,
every loadChunks response, and hence every lazy queryRadius result
coincide — and the once-persisted store has no orphaned chunk records:
every chunk key is below the chunk count.  (initSave deletes all prior
chunk records before writing the new index record.) -/
theorem claim_C7_persist_idempotent (store : Store)
    (indexData metadata t1 t2 : ℕ) (featureChunks : List (List Feature)) :
    loadSpatialIndexStore (saveSpatialIndex indexData featureChunks metadata t2
        (saveSpatialIndex indexData featureChunks metadata t1 store)) =
      loadSpatialIndexStore (saveSpatialIndex indexData featureChunks metadata t1 store) ∧
    (∀ ids, loadChunksStore (saveSpatialIndex indexData featureChunks metadata t2
        (saveSpatialIndex indexData featureChunks metadata t1 store)) ids =
      loadChunksStore (saveSpatialIndex indexData featureChunks metadata t1 store) ids) ∧
    (∀ p ∈ (saveSpatialIndex indexData featureChunks metadata t1 store).chunkRecs,
      p.1 < featureChunks.length) ∧
    (∀ (cellSize : ℚ) (grid : Grid) (meta : ChunkMetadata) (ftc : Option (List ℕ))
        (bounds : List ChunkBoundary) (st : LazyState) (dist : ℚ → ℚ → ℚ → ℚ → ℚ)
        (lon lat radius : ℚ) (now : ℕ),
      queryRadiusLazy cellSize grid meta ftc bounds
          (some (loadChunksStore (saveSpatialIndex indexData featureChunks metadata t2
            (saveSpatialIndex indexData featureChunks metadata t1 store))))
          st dist lon lat radius now =
        queryRadiusLazy cellSize grid meta ftc bounds
          (some (loadChunksStore (saveSpatialIndex indexData featureChunks metadata t1 store)))
          st dist lon lat radius now) := by
  have hrecs : (saveSpatialIndex indexData featureChunks metadata t2
      (saveSpatialIndex indexData featureChunks metadata t1 store)).chunkRecs =
      (saveSpatialIndex indexData featureChunks metadata t1 store).chunkRecs := by
    unfold saveSpatialIndex
    exact streamSaveFrom_chunkRecs_congr featureChunks 0 _ _ rfl
  have hidx1 : (saveSpatialIndex indexData featureChunks metadata t1 store).indexRec =
      some ⟨indexData, metadata, featureChunks.length, t1⟩ := by
    unfold saveSpatialIndex
    rw [streamSaveFrom_indexRec]
    rfl
  have hidx2 : (saveSpatialIndex indexData featureChunks metadata t2
      (saveSpatialIndex indexData featureChunks metadata t1 store)).indexRec =
      some ⟨indexData, metadata, featureChunks.length, t2⟩ := by
    unfold saveSpatialIndex
    rw [streamSaveFrom_indexRec]
    rfl
  have hload := loadChunksStore_congr hrecs
  refine ⟨?_, hload, ?_, ?_⟩
  · unfold loadSpatialIndexStore
    rw [hidx1, hidx2]
    rfl
  · intro p hp
    unfold saveSpatialIndex at hp
    rcases streamSaveFrom_keys featureChunks 0 _ p hp with hk | hk
    · simp [initSave] at hk
    · exact hk
  · intro cellSize grid meta ftc bounds st dist lon lat radius now
    rw [funext hload]

/-- Witness for C7: persisting one single-feature chunk into an empty
store leaves its only chunk record keyed below the chunk count 1. -/
theorem claim_C7_witness :
    ((0, [(⟨"Point", 0, 0, 0⟩ : Feature)]) : ℕ × List Feature).1 <
      [[(⟨"Point", 0, 0, 0⟩ : Feature)]].length :=
  (claim_C7_persist_idempotent ⟨none, []⟩ 0 0 7 8 [[⟨"Point", 0, 0, 0⟩]]).2.2.1
    (0, [⟨"Point", 0, 0, 0⟩])
    (by simp [saveSpatialIndex, initSave, streamSaveFrom, streamBatchSize, saveChunkBatch,
      chunkMapSet, chunkMapGet])

/-! ## Eager/lazy query lemmas (C3) -/

lemma gridPush_keys_nodup {grid : Grid} {k : CellKey} {i : ℕ}
    (h : (grid.map Prod.fst).Nodup) : ((gridPush grid k i).map Prod.fst).Nodup := by
  unfold gridPush
  split
  · have heq : (grid.map (fun e => if e.1 = k then (e.1, e.2 ++ [i]) else e)).map Prod.fst =
        grid.map Prod.fst := by
      rw [List.map_map]
      refine List.map_congr_left ?_
      intro e _
      by_cases he : e.1 = k
      · simp [he]
      · simp [he]
    rw [heq]
    exact h
  · next hnone =>
    have hk : k ∉ grid.map Prod.fst := by
      intro hmem
      obtain ⟨e, he, heq⟩ := List.mem_map.mp hmem
      have hfind : (List.find? (fun e => decide (e.1 = k)) grid).isSome := by
        rw [List.find?_isSome]
        exact ⟨e, he, by simp [heq]⟩
      obtain ⟨v, hv⟩ := Option.isSome_iff_exists.mp hfind
      refine hnone ?_
      unfold gridGet
      rw [hv]
      rfl
    rw [List.map_append]
    rw [List.nodup_append]
    exact ⟨h, by simp, by simpa using hk⟩

lemma buildGrid_keys_nodup (cellSize : ℚ) (features : List Feature) :
    ((buildGrid cellSize features).map Prod.fst).Nodup := by
  unfold buildGrid
  have H : ∀ (l : List (ℕ × Feature)) (g : Grid), (g.map Prod.fst).Nodup →
      ((l.foldl
        (fun grid p =>
          if p.2.geomType = "Point" then
            gridPush grid (getCellKey cellSize p.2.lon p.2.lat) p.1
          else grid) g).map Prod.fst).Nodup := by
    intro l
    induction l with
    | nil => intro g hg; exact hg
    | cons p rest ih =>
      intro g hg
      simp only [List.foldl_cons]
      refine ih _ ?_
      by_cases hpt : p.2.geomType = "Point"
      · rw [if_pos hpt]
        exact gridPush_keys_nodup hg
      · rw [if_neg hpt]
        exact hg
  exact H features.enum [] (by simp)

lemma mem_foldl_setAdd :
    ∀ (l acc : List ℕ) (x : ℕ), x ∈ l.foldl setAdd acc ↔ x ∈ acc ∨ x ∈ l := by
  intro l
  induction l with
  | nil => intro acc x; simp
  | cons y rest ih =>
    intro acc x
    simp only [List.foldl_cons]
    rw [ih, mem_setAdd]
    constructor
    · rintro ((hx | rfl) | hx)
      · exact Or.inl hx
      · exact Or.inr (List.mem_cons_self _ _)
      · exact Or.inr (List.mem_cons_of_mem _ hx)
    · rintro (hx | hx)
      · exact Or.inl (Or.inl hx)
      · rcases List.mem_cons.mp hx with rfl | hx
        · exact Or.inl (Or.inr rfl)
        · exact Or.inr hx

lemma mem_neededChunks {meta : ChunkMetadata} {cells : List CellKey} {x : ℕ} :
    x ∈ neededChunks meta cells ↔ ∃ k ∈ cells, x ∈ getChunksForCell meta k := by
  unfold neededChunks
  have H : ∀ (cs : List CellKey) (acc : List ℕ),
      x ∈ cs.foldl (fun acc cellKey => (getChunksForCell meta cellKey).foldl setAdd acc) acc ↔
      x ∈ acc ∨ ∃ k ∈ cs, x ∈ getChunksForCell meta k := by
    intro cs
    induction cs with
    | nil => intro acc; simp
    | cons k rest ih =>
      intro acc
      simp only [List.foldl_cons]
      rw [ih, mem_foldl_setAdd]
      constructor
      · rintro ((hx | hx) | ⟨k2, hk2, hx⟩)
        · exact Or.inl hx
        · exact Or.inr ⟨k, List.mem_cons_self _ _, hx⟩
        · exact Or.inr ⟨k2, List.mem_cons_of_mem _ hk2, hx⟩
      · rintro (hx | ⟨k2, hk2, hx⟩)
        · exact Or.inl (Or.inl hx)
        · rcases List.mem_cons.mp hk2 with rfl | hk2
          · exact Or.inl (Or.inr hx)
          · exact Or.inr ⟨k2, hk2, hx⟩
  rw [H]
  simp

lemma foldl_max_le_seed :
    ∀ (bs : List ChunkBoundary) (a : ℕ), a ≤ bs.foldl (fun m b => max m b.«end») a := by
  intro bs
  induction bs with
  | nil => intro a; exact le_refl a
  | cons b rest ih =>
    intro a
    simp only [List.foldl_cons]
    exact le_trans (le_max_left a b.«end») (ih _)

lemma le_lookupTotal :
    ∀ (bs : List ChunkBoundary) (a : ℕ) (b : ChunkBoundary), b ∈ bs →
      b.«end» ≤ bs.foldl (fun m b => max m b.«end») a := by
  intro bs
  induction bs with
  | nil => intro a b hb; cases hb
  | cons b0 rest ih =>
    intro a b hb
    simp only [List.foldl_cons]
    rcases List.mem_cons.mp hb with rfl | hb
    · exact le_trans (le_max_right a b.«end») (foldl_max_le_seed rest _)
    · exact ih _ b hb

lemma allFeatures_length (groups : List SourceGroup) :
    (groups.flatMap (fun g => g.features)).length =
      (groups.map (fun g => g.features.length)).sum := by
  induction groups with
  | nil => rfl
  | cons g rest ih => simp only [List.flatMap_cons, List.map_cons, List.sum_cons,
      List.length_append, ih]

/-- Resolution through the dense table: with the chunk loaded and its
features being exactly the boundary's slice of the global feature list,
the lazy getFeature agrees with the eager array access. -/
lemma getFeatureLazy_resolved (T : List ℕ) (bs : List ChunkBoundary) (st2 : LazyState)
    (allF : List Feature) (idx c : ℕ) (b : ChunkBoundary)
    (hT : T[idx]? = some c)
    (hb : bs[c]? = some b) (hs : b.start ≤ idx) (he : idx < b.«end»)
    (hloaded : c ∈ st2.loadedChunks)
    (hmap : chunkMapGet st2.chunkMap c = some ((allF.drop b.start).take (b.«end» - b.start)))
    (hend : b.«end» ≤ allF.length) :
    getFeatureLazy (some T) bs st2 idx = allF[idx]? := by
  obtain ⟨hidxlen, hTval⟩ := List.getElem?_eq_some.mp hT
  have hres : resolveChunkForIndex (some T) bs idx = ((c : ℤ), (idx : ℤ) - (b.start : ℤ)) := by
    unfold resolveChunkForIndex
    dsimp only
    rw [dif_pos hidxlen]
    have hTg : T.get ⟨idx, hidxlen⟩ = c := by
      rw [List.get_eq_getElem, hTval]
    have hbs : bs.get? (T.get ⟨idx, hidxlen⟩) = some b := by
      rw [hTg, List.get?_eq_getElem?]
      exact hb
    rw [hbs]
    dsimp only
    rw [hTg]
  unfold getFeatureLazy
  simp only [hres]
  dsimp only
  simp only [Int.toNat_natCast]
  have hc0 : (0 : ℤ) ≤ (c : ℤ) := by positivity
  rw [if_pos (⟨hc0, hloaded⟩ : (0 : ℤ) ≤ (c : ℤ) ∧ c ∈ st2.loadedChunks)]
  rw [hmap]
  dsimp only
  have hlen : ((allF.drop b.start).take (b.«end» - b.start)).length = b.«end» - b.start := by
    rw [List.length_take, List.length_drop]
    omega
  have hloc : (((idx : ℤ) - (b.start : ℤ)).toNat) = idx - b.start := by omega
  rw [dif_pos (by
    constructor
    · rw [hloc, hlen]
      omega
    · omega)]
  rw [List.get_eq_getElem]
  have hidxa : idx < allF.length := by omega
  rw [List.getElem?_eq_getElem hidxa, List.getElem_take, List.getElem_drop]
  simp only [show b.start + (((idx : ℤ) - (b.start : ℤ)).toNat) = idx from by omega]

/-- Eager/lazy agreement of queryRadius under residency: when every chunk
needed by the query is resident after the ensureChunksLoaded pass and
holds exactly its boundary's slice of the global feature list, the lazy
query returns the eager result. -/
lemma lazy_eager_equiv (groups : List SourceGroup) (cellSize : ℚ)
    (loader : Option (List ℕ → List LoadedChunk)) (st : LazyState)
    (dist : ℚ → ℚ → ℚ → ℚ → ℚ) (lon lat radius : ℚ) (now : ℕ)
    (hres : ∀ (cid : ℕ) (b : ChunkBoundary),
      (computeChunkBoundaries groups)[cid]? = some b →
      cid ∈ neededChunks
        (buildChunkMetadata (buildGrid cellSize (groups.flatMap (fun g => g.features)))
          (initializeChunkLookup (computeChunkBoundaries groups)))
        (cellsToCheck cellSize lon lat radius) →
      cid ∈ (ensureChunksLoaded loader st
        (neededChunks
          (buildChunkMetadata (buildGrid cellSize (groups.flatMap (fun g => g.features)))
            (initializeChunkLookup (computeChunkBoundaries groups)))
          (cellsToCheck cellSize lon lat radius)) now).loadedChunks ∧
      chunkMapGet (ensureChunksLoaded loader st
        (neededChunks
          (buildChunkMetadata (buildGrid cellSize (groups.flatMap (fun g => g.features)))
            (initializeChunkLookup (computeChunkBoundaries groups)))
          (cellsToCheck cellSize lon lat radius)) now).chunkMap cid =
        some (((groups.flatMap (fun g => g.features)).drop b.start).take (b.«end» - b.start))) :
    (queryRadiusLazy cellSize (buildGrid cellSize (groups.flatMap (fun g => g.features)))
      (buildChunkMetadata (buildGrid cellSize (groups.flatMap (fun g => g.features)))
        (initializeChunkLookup (computeChunkBoundaries groups)))
      (initializeChunkLookup (computeChunkBoundaries groups))
      (computeChunkBoundaries groups) loader st dist lon lat radius now).1 =
    queryRadiusEager ⟨cellSize, buildGrid cellSize (groups.flatMap (fun g => g.features)),
      groups.flatMap (fun g => g.features),
      (groups.flatMap (fun g => g.features)).length⟩ dist lon lat radius := by
  unfold queryRadiusLazy queryRadiusEager
  dsimp only
  rw [queryRadiusScan_eq, queryRadiusScan_eq]
  congr 1
  congr 1
  refine List.filterMap_congr ?_
  intro idx hidx
  rw [List.mem_flatMap] at hidx
  obtain ⟨k, hk, hidxk⟩ := hidx
  cases hgg : gridGet (buildGrid cellSize (groups.flatMap (fun g => g.features))) k with
  | none =>
    rw [hgg] at hidxk
    simp at hidxk
  | some indices =>
    rw [hgg] at hidxk
    simp only [Option.getD_some] at hidxk
    have hkmem := gridGet_mem hgg
    by_cases hgne : groups = []
    · subst hgne
      simp [buildGrid] at hkmem
    · -- boundaries and the dense table
      have hbs : computeChunkBoundaries groups = boundariesFrom 0 groups :=
        computeChunkBoundaries_eq groups
      have hbslen : (boundariesFrom 0 groups).length ≠ 0 := by
        rw [boundariesFrom_length]
        intro h
        exact hgne (List.length_eq_zero.mp h)
      have hT : initializeChunkLookup (computeChunkBoundaries groups) =
          some ((boundariesFrom 0 groups).enum.foldl
            (fun t p => writeRange t p.2.start p.2.«end» p.1)
            (List.replicate (lookupTotalFeatures (boundariesFrom 0 groups)) 0)) := by
        rw [hbs]
        unfold initializeChunkLookup
        rw [if_neg hbslen]
      set table := (boundariesFrom 0 groups).enum.foldl
        (fun t p => writeRange t p.2.start p.2.«end» p.1)
        (List.replicate (lookupTotalFeatures (boundariesFrom 0 groups)) 0) with htabledef
      have htlen : table.length = (groups.map (fun g => g.features.length)).sum := by
        rw [htabledef, fold_writeRange_length, List.length_replicate, lookupTotal_eq groups hgne]
      have hflen := allFeatures_length groups
      -- the scanned index is an enum position of the feature list
      have hidxlt : idx < (groups.flatMap (fun g => g.features)).length := by
        refine buildGrid_all
          (P := fun _ j => j < (groups.flatMap (fun g => g.features)).length)
          ?_ (k, indices) hkmem idx hidxk
        intro p hp _
        have hq := List.mem_enum_iff_getElem?.mp hp
        exact (List.getElem?_eq_some.mp hq).1
      -- the boundary covering the index, and the table entry pointing at it
      obtain ⟨c, b, hgetc, hsc, hec⟩ := exists_cover groups 0 idx (Nat.zero_le idx) (by omega)
      have htv : table[idx]? = some c := by
        rw [htabledef]
        exact fold_writeRange_covered _ (boundariesFrom_enum_pairwise groups 0) _ (c, b)
          (List.mem_enum_iff_getElem?.mpr hgetc) hsc hec
          (by rw [List.length_replicate, lookupTotal_eq groups hgne]; omega)
      have hidxt : idx < table.length := by omega
      have hgetv : table.get ⟨idx, hidxt⟩ = c := by
        rw [List.get_eq_getElem]
        obtain ⟨h', hval⟩ := List.getElem?_eq_some.mp htv
        exact hval
      -- the chunk id reaches the cell's metadata entry
      have hcmem : c ∈ chunkSetOf table indices :=
        (chunkSetOf_mem table indices c).mpr ⟨idx, hidxk, hidxt, hgetv⟩
      have hnodup := buildGrid_keys_nodup cellSize (groups.flatMap (fun g => g.features))
      have hmg : metaGet (buildChunkMetadata
          (buildGrid cellSize (groups.flatMap (fun g => g.features)))
          (initializeChunkLookup (computeChunkBoundaries groups))) k =
          some (chunkSetOf table indices) := by
        rw [hT, buildChunkMetadata_eq,
          buildCM_get table (buildGrid cellSize (groups.flatMap (fun g => g.features)))
            k indices hnodup hkmem,
          if_pos (List.length_pos.mpr (List.ne_nil_of_mem hcmem))]
      have hneedmem : c ∈ neededChunks
          (buildChunkMetadata (buildGrid cellSize (groups.flatMap (fun g => g.features)))
            (initializeChunkLookup (computeChunkBoundaries groups)))
          (cellsToCheck cellSize lon lat radius) := by
        refine mem_neededChunks.mpr ⟨k, hk, ?_⟩
        unfold getChunksForCell
        rw [hmg]
        exact hcmem
      obtain ⟨hloaded, hmap⟩ := hres c b (by rw [hbs]; exact hgetc) hneedmem
      rw [hT] at hloaded hmap
      -- the covering boundary stays inside the feature list
      have hbmem : b ∈ boundariesFrom 0 groups := by
        obtain ⟨h', hval⟩ := List.getElem?_eq_some.mp hgetc
        rw [← hval]
        exact List.getElem_mem h'
      have hend : b.«end» ≤ (groups.flatMap (fun g => g.features)).length := by
        have h1 := le_lookupTotal (boundariesFrom 0 groups) 0 b hbmem
        have h2 := lookupTotal_eq groups hgne
        unfold lookupTotalFeatures at h2
        omega
      rw [hT,
        getFeatureLazy_resolved table (computeChunkBoundaries groups) _ _ idx c b htv
          (by rw [hbs]; exact hgetc) hsc hec hloaded hmap hend]
      unfold getFeatureEager
      rw [List.get?_eq_getElem?]

/-! ### Concrete C3 configurations -/

lemma key_q0 : getCellKey 1 (0 : ℚ) 0 = ((0 : ℤ), (0 : ℤ)) := by
  simp [getCellKey]

lemma key_q1 : getCellKey 1 (0 : ℚ) (1 / 10) = ((0 : ℤ), (0 : ℤ)) := by
  norm_num [getCellKey, Int.floor_eq_iff]

lemma key_q2 : getCellKey 1 (0 : ℚ) (2 / 10) = ((0 : ℤ), (0 : ℤ)) := by
  norm_num [getCellKey, Int.floor_eq_iff]

lemma key_q4 : getCellKey 1 (0 : ℚ) (4 / 10) = ((0 : ℤ), (0 : ℤ)) := by
  norm_num [getCellKey, Int.floor_eq_iff]

/-- Grid of the two-feature eviction-thrash configuration: both features
live in cell `(0, 0)`. -/
lemma ce_grid : buildGrid 1 [(⟨"Point", 0, 0, 0⟩ : Feature), ⟨"Point", 0, 0, 1⟩] =
    [(((0 : ℤ), (0 : ℤ)), [0, 1])] := by
  unfold buildGrid
  rw [show ([(⟨"Point", 0, 0, 0⟩ : Feature), ⟨"Point", 0, 0, 1⟩]).enum =
    [(0, (⟨"Point", 0, 0, 0⟩ : Feature)), (1, ⟨"Point", 0, 0, 1⟩)] from rfl]
  simp only [List.foldl_cons, List.foldl_nil, if_true]
  rw [key_q0]
  rfl

/-- Candidate cells of the zero-radius query at the origin. -/
lemma ce_cells : cellsToCheck 1 0 0 0 = [((0 : ℤ), (0 : ℤ))] := by
  unfold cellsToCheck
  dsimp only
  have hcr : (⌈(0 : ℚ) / (1 * 111000)⌉ : ℤ) = 0 := by norm_num
  rw [hcr, key_q0]
  rfl

/-- Post-load cache state of the eviction-thrash run: both chunks are
loaded, then the capacity-1 eviction pass drops chunk 0 even though the
running query still needs it. -/
lemma ce_st2 : ensureChunksLoaded
    (some (fun ids => ids.map (fun id => (⟨id,
      some (if id = 0 then [(⟨"Point", 0, 0, 0⟩ : Feature)] else [⟨"Point", 0, 0, 1⟩])⟩ :
        LoadedChunk))))
    ⟨[], [], [], 1⟩
    (neededChunks
      (buildChunkMetadata (buildGrid 1 [(⟨"Point", 0, 0, 0⟩ : Feature), ⟨"Point", 0, 0, 1⟩])
        (initializeChunkLookup (computeChunkBoundaries
          [⟨"a", [(⟨"Point", 0, 0, 0⟩ : Feature)]⟩, ⟨"b", [⟨"Point", 0, 0, 1⟩]⟩])))
      (cellsToCheck 1 0 0 0)) 5 =
    ⟨[(1, [⟨"Point", 0, 0, 1⟩])], [1], [⟨1, 5⟩], 1⟩ := by
  rw [ce_grid, ce_cells]
  rfl

/-- C3 counterexample: eager and lazy mode disagree even though every
needed chunk is loadable.  Two point features in the same cell sit in two
different chunks; with `maxCachedChunks = 1` the query's own load pass
evicts chunk 0 right after loading it, so the lazy scan silently drops
the feature of chunk 0 while the eager scan returns both. -/
theorem claim_C3_counterexample :
    (queryRadiusLazy 1
      (buildGrid 1 [(⟨"Point", 0, 0, 0⟩ : Feature), ⟨"Point", 0, 0, 1⟩])
      (buildChunkMetadata (buildGrid 1 [(⟨"Point", 0, 0, 0⟩ : Feature), ⟨"Point", 0, 0, 1⟩])
        (initializeChunkLookup (computeChunkBoundaries
          [⟨"a", [(⟨"Point", 0, 0, 0⟩ : Feature)]⟩, ⟨"b", [⟨"Point", 0, 0, 1⟩]⟩])))
      (initializeChunkLookup (computeChunkBoundaries
        [⟨"a", [(⟨"Point", 0, 0, 0⟩ : Feature)]⟩, ⟨"b", [⟨"Point", 0, 0, 1⟩]⟩]))
      (computeChunkBoundaries
        [⟨"a", [(⟨"Point", 0, 0, 0⟩ : Feature)]⟩, ⟨"b", [⟨"Point", 0, 0, 1⟩]⟩])
      (some (fun ids => ids.map (fun id => (⟨id,
        some (if id = 0 then [(⟨"Point", 0, 0, 0⟩ : Feature)] else [⟨"Point", 0, 0, 1⟩])⟩ :
          LoadedChunk))))
      ⟨[], [], [], 1⟩ (fun _ _ _ _ => 0) 0 0 0 5).1 =
      [((⟨"Point", 0, 0, 1⟩ : Feature), (0 : ℚ))] ∧
    queryRadiusEager ⟨1, buildGrid 1 [(⟨"Point", 0, 0, 0⟩ : Feature), ⟨"Point", 0, 0, 1⟩],
        [(⟨"Point", 0, 0, 0⟩ : Feature), ⟨"Point", 0, 0, 1⟩], 2⟩ (fun _ _ _ _ => 0) 0 0 0 =
      [((⟨"Point", 0, 0, 0⟩ : Feature), (0 : ℚ)), ((⟨"Point", 0, 0, 1⟩ : Feature), (0 : ℚ))] ∧
    [((⟨"Point", 0, 0, 1⟩ : Feature), (0 : ℚ))] ≠
      [((⟨"Point", 0, 0, 0⟩ : Feature), (0 : ℚ)), ((⟨"Point", 0, 0, 1⟩ : Feature), (0 : ℚ))] := by
  refine ⟨?_, ?_, by simp⟩
  · unfold queryRadiusLazy
    dsimp only
    rw [ce_st2, ce_cells, ce_grid]
    rw [show initializeChunkLookup (computeChunkBoundaries
        [⟨"a", [(⟨"Point", 0, 0, 0⟩ : Feature)]⟩, ⟨"b", [⟨"Point", 0, 0, 1⟩]⟩]) =
      some [0, 1] from rfl]
    rw [show computeChunkBoundaries
        [⟨"a", [(⟨"Point", 0, 0, 0⟩ : Feature)]⟩, ⟨"b", [⟨"Point", 0, 0, 1⟩]⟩] =
      [⟨0, 1, "a"⟩, ⟨1, 2, "b"⟩] from rfl]
    rw [queryRadiusScan_eq]
    rw [show ([(((0 : ℤ), (0 : ℤ)), [0, 1])] : Grid) = [(((0 : ℤ), (0 : ℤ)), [0, 1])] from rfl]
    rw [show [((0 : ℤ), (0 : ℤ))].flatMap
        (fun k => (gridGet [(((0 : ℤ), (0 : ℤ)), [0, 1])] k).getD []) = [0, 1] from rfl]
    have hf0 : getFeatureLazy (some [0, 1]) [⟨0, 1, "a"⟩, ⟨1, 2, "b"⟩]
        ⟨[(1, [⟨"Point", 0, 0, 1⟩])], [1], [⟨1, 5⟩], 1⟩ 0 = none := rfl
    have hf1 : getFeatureLazy (some [0, 1]) [⟨0, 1, "a"⟩, ⟨1, 2, "b"⟩]
        ⟨[(1, [⟨"Point", 0, 0, 1⟩])], [1], [⟨1, 5⟩], 1⟩ 1 = some ⟨"Point", 0, 0, 1⟩ := rfl
    simp only [List.filterMap_cons, List.filterMap_nil, hf0, hf1, List.map_cons, List.map_nil]
    norm_num
  · unfold queryRadiusEager
    dsimp only
    rw [ce_cells, ce_grid, queryRadiusScan_eq]
    rw [show [((0 : ℤ), (0 : ℤ))].flatMap
        (fun k => (gridGet [(((0 : ℤ), (0 : ℤ)), [0, 1])] k).getD []) = [0, 1] from rfl]
    have hf0 : getFeatureEager [(⟨"Point", 0, 0, 0⟩ : Feature), ⟨"Point", 0, 0, 1⟩] 0 =
        some ⟨"Point", 0, 0, 0⟩ := rfl
    have hf1 : getFeatureEager [(⟨"Point", 0, 0, 0⟩ : Feature), ⟨"Point", 0, 0, 1⟩] 1 =
        some ⟨"Point", 0, 0, 1⟩ := rfl
    simp only [List.filterMap_cons, List.filterMap_nil, hf0, hf1, List.map_cons, List.map_nil]
    norm_num

/-- Grid of the three-feature nearest-2 configuration: all three point
features fall into cell `(0, 0)`. -/
lemma wit_grid : buildGrid 1
    [(⟨"Point", 0, 1 / 10, 1⟩ : Feature), ⟨"Point", 0, 2 / 10, 2⟩, ⟨"Point", 0, 4 / 10, 3⟩] =
    [(((0 : ℤ), (0 : ℤ)), [0, 1, 2])] := by
  unfold buildGrid
  rw [show ([(⟨"Point", 0, 1 / 10, 1⟩ : Feature), ⟨"Point", 0, 2 / 10, 2⟩,
      ⟨"Point", 0, 4 / 10, 3⟩]).enum =
    [(0, (⟨"Point", 0, 1 / 10, 1⟩ : Feature)), (1, ⟨"Point", 0, 2 / 10, 2⟩),
      (2, ⟨"Point", 0, 4 / 10, 3⟩)] from rfl]
  simp only [List.foldl_cons, List.foldl_nil, if_true]
  rw [key_q1, key_q2, key_q4]
  rfl

/-- Candidate cells of the radius-5/2 query at the origin: a 3×3 square
around cell `(0, 0)`. -/
lemma wit_cells : cellsToCheck 1 0 0 (5 / 2) =
    ([((-1 : ℤ), (-1 : ℤ)), (-1, 0), (-1, 1), (0, -1), (0, 0), (0, 1), (1, -1), (1, 0), (1, 1)] :
      List CellKey) := by
  unfold cellsToCheck
  dsimp only
  have hcr : (⌈(5 / 2 : ℚ) / (1 * 111000)⌉ : ℤ) = 1 := by norm_num [Int.ceil_eq_iff]
  rw [hcr, key_q0]
  rfl

/-- Post-load cache state of the three-feature run: both chunks fit in
the capacity-10 cache, so no eviction happens. -/
lemma wit_st2 : ensureChunksLoaded
    (some (fun ids => ids.map (fun id => (⟨id,
      some (if id = 0 then [(⟨"Point", 0, 1 / 10, 1⟩ : Feature), ⟨"Point", 0, 2 / 10, 2⟩]
        else [⟨"Point", 0, 4 / 10, 3⟩])⟩ : LoadedChunk))))
    ⟨[], [], [], 10⟩
    (neededChunks
      (buildChunkMetadata (buildGrid 1
          [(⟨"Point", 0, 1 / 10, 1⟩ : Feature), ⟨"Point", 0, 2 / 10, 2⟩, ⟨"Point", 0, 4 / 10, 3⟩])
        (initializeChunkLookup (computeChunkBoundaries
          [⟨"a", [(⟨"Point", 0, 1 / 10, 1⟩ : Feature), ⟨"Point", 0, 2 / 10, 2⟩]⟩,
           ⟨"b", [⟨"Point", 0, 4 / 10, 3⟩]⟩])))
      (cellsToCheck 1 0 0 (5 / 2))) 7 =
    ⟨[(0, [⟨"Point", 0, 1 / 10, 1⟩, ⟨"Point", 0, 2 / 10, 2⟩]), (1, [⟨"Point", 0, 4 / 10, 3⟩])],
     [0, 1], [⟨0, 7⟩, ⟨1, 7⟩], 10⟩ := by
  rw [wit_grid, wit_cells]
  rfl

/-- Lazy-mode result of the three-feature nearest-2 query. -/
lemma wit_lazy : (queryRadiusLazy 1
    (buildGrid 1
      [(⟨"Point", 0, 1 / 10, 1⟩ : Feature), ⟨"Point", 0, 2 / 10, 2⟩, ⟨"Point", 0, 4 / 10, 3⟩])
    (buildChunkMetadata (buildGrid 1
        [(⟨"Point", 0, 1 / 10, 1⟩ : Feature), ⟨"Point", 0, 2 / 10, 2⟩, ⟨"Point", 0, 4 / 10, 3⟩])
      (initializeChunkLookup (computeChunkBoundaries
        [⟨"a", [(⟨"Point", 0, 1 / 10, 1⟩ : Feature), ⟨"Point", 0, 2 / 10, 2⟩]⟩,
         ⟨"b", [⟨"Point", 0, 4 / 10, 3⟩]⟩])))
    (initializeChunkLookup (computeChunkBoundaries
      [⟨"a", [(⟨"Point", 0, 1 / 10, 1⟩ : Feature), ⟨"Point", 0, 2 / 10, 2⟩]⟩,
       ⟨"b", [⟨"Point", 0, 4 / 10, 3⟩]⟩]))
    (computeChunkBoundaries
      [⟨"a", [(⟨"Point", 0, 1 / 10, 1⟩ : Feature), ⟨"Point", 0, 2 / 10, 2⟩]⟩,
       ⟨"b", [⟨"Point", 0, 4 / 10, 3⟩]⟩])
    (some (fun ids => ids.map (fun id => (⟨id,
      some (if id = 0 then [(⟨"Point", 0, 1 / 10, 1⟩ : Feature), ⟨"Point", 0, 2 / 10, 2⟩]
        else [⟨"Point", 0, 4 / 10, 3⟩])⟩ : LoadedChunk))))
    ⟨[], [], [], 10⟩ (fun _ _ flat _ => flat * 10) 0 0 (5 / 2) 7).1 =
    [((⟨"Point", 0, 1 / 10, 1⟩ : Feature), (1 : ℚ)), ((⟨"Point", 0, 2 / 10, 2⟩ : Feature), 2)] := by
  unfold queryRadiusLazy
  dsimp only
  rw [wit_st2, wit_cells, wit_grid]
  rw [show initializeChunkLookup (computeChunkBoundaries
      [⟨"a", [(⟨"Point", 0, 1 / 10, 1⟩ : Feature), ⟨"Point", 0, 2 / 10, 2⟩]⟩,
       ⟨"b", [⟨"Point", 0, 4 / 10, 3⟩]⟩]) = some [0, 0, 1] from rfl]
  rw [show computeChunkBoundaries
      [⟨"a", [(⟨"Point", 0, 1 / 10, 1⟩ : Feature), ⟨"Point", 0, 2 / 10, 2⟩]⟩,
       ⟨"b", [⟨"Point", 0, 4 / 10, 3⟩]⟩] = [⟨0, 2, "a"⟩, ⟨2, 3, "b"⟩] from rfl]
  rw [queryRadiusScan_eq]
  rw [show ([((-1 : ℤ), (-1 : ℤ)), (-1, 0), (-1, 1), (0, -1), (0, 0), (0, 1), (1, -1), (1, 0),
      (1, 1)] : List CellKey).flatMap
      (fun k => (gridGet [(((0 : ℤ), (0 : ℤ)), [0, 1, 2])] k).getD []) = [0, 1, 2] from rfl]
  have hf0 : getFeatureLazy (some [0, 0, 1]) [⟨0, 2, "a"⟩, ⟨2, 3, "b"⟩]
      ⟨[(0, [⟨"Point", 0, 1 / 10, 1⟩, ⟨"Point", 0, 2 / 10, 2⟩]), (1, [⟨"Point", 0, 4 / 10, 3⟩])],
       [0, 1], [⟨0, 7⟩, ⟨1, 7⟩], 10⟩ 0 = some ⟨"Point", 0, 1 / 10, 1⟩ := rfl
  have hf1 : getFeatureLazy (some [0, 0, 1]) [⟨0, 2, "a"⟩, ⟨2, 3, "b"⟩]
      ⟨[(0, [⟨"Point", 0, 1 / 10, 1⟩, ⟨"Point", 0, 2 / 10, 2⟩]), (1, [⟨"Point", 0, 4 / 10, 3⟩])],
       [0, 1], [⟨0, 7⟩, ⟨1, 7⟩], 10⟩ 1 = some ⟨"Point", 0, 2 / 10, 2⟩ := rfl
  have hf2 : getFeatureLazy (some [0, 0, 1]) [⟨0, 2, "a"⟩, ⟨2, 3, "b"⟩]
      ⟨[(0, [⟨"Point", 0, 1 / 10, 1⟩, ⟨"Point", 0, 2 / 10, 2⟩]), (1, [⟨"Point", 0, 4 / 10, 3⟩])],
       [0, 1], [⟨0, 7⟩, ⟨1, 7⟩], 10⟩ 2 = some ⟨"Point", 0, 4 / 10, 3⟩ := rfl
  simp only [List.filterMap_cons, List.filterMap_nil, hf0, hf1, hf2, List.map_cons, List.map_nil]
  norm_num

/-- Eager-mode result of the three-feature nearest-2 query. -/
lemma wit_eager : queryRadiusEager ⟨1, buildGrid 1
      [(⟨"Point", 0, 1 / 10, 1⟩ : Feature), ⟨"Point", 0, 2 / 10, 2⟩, ⟨"Point", 0, 4 / 10, 3⟩],
    [(⟨"Point", 0, 1 / 10, 1⟩ : Feature), ⟨"Point", 0, 2 / 10, 2⟩, ⟨"Point", 0, 4 / 10, 3⟩], 3⟩
    (fun _ _ flat _ => flat * 10) 0 0 (5 / 2) =
    [((⟨"Point", 0, 1 / 10, 1⟩ : Feature), (1 : ℚ)), ((⟨"Point", 0, 2 / 10, 2⟩ : Feature), 2)] := by
  unfold queryRadiusEager
  dsimp only
  rw [wit_cells, wit_grid, queryRadiusScan_eq]
  rw [show ([((-1 : ℤ), (-1 : ℤ)), (-1, 0), (-1, 1), (0, -1), (0, 0), (0, 1), (1, -1), (1, 0),
      (1, 1)] : List CellKey).flatMap
      (fun k => (gridGet [(((0 : ℤ), (0 : ℤ)), [0, 1, 2])] k).getD []) = [0, 1, 2] from rfl]
  have hf0 : getFeatureEager
      [(⟨"Point", 0, 1 / 10, 1⟩ : Feature), ⟨"Point", 0, 2 / 10, 2⟩, ⟨"Point", 0, 4 / 10, 3⟩] 0 =
      some ⟨"Point", 0, 1 / 10, 1⟩ := rfl
  have hf1 : getFeatureEager
      [(⟨"Point", 0, 1 / 10, 1⟩ : Feature), ⟨"Point", 0, 2 / 10, 2⟩, ⟨"Point", 0, 4 / 10, 3⟩] 1 =
      some ⟨"Point", 0, 2 / 10, 2⟩ := rfl
  have hf2 : getFeatureEager
      [(⟨"Point", 0, 1 / 10, 1⟩ : Feature), ⟨"Point", 0, 2 / 10, 2⟩, ⟨"Point", 0, 4 / 10, 3⟩] 2 =
      some ⟨"Point", 0, 4 / 10, 3⟩ := rfl
  simp only [List.filterMap_cons, List.filterMap_nil, hf0, hf1, hf2, List.map_cons, List.map_nil]
  norm_num

/-- C3 amended: (1) the scan accepts a candidate exactly when its
distance is at most the radius, every returned pair carrying that
distance; (2) lazy mode agrees with eager mode provided every chunk
needed by the query is still resident after its own load pass, holding
its boundary's slice of the feature list (the source's intra-query
eviction can violate this, see the counterexample); (3) for the
three-feature dataset with a radius strictly between the 2nd and 3rd
nearest distances, both modes return exactly the nearest two. -/
theorem claim_C3_amended :
    (∀ (grid : Grid) (getF : ℕ → Option Feature) (dist : ℚ → ℚ → ℚ → ℚ → ℚ)
        (cells : List CellKey) (lat lon radius : ℚ),
      queryRadiusScan grid getF dist cells lat lon radius =
        (((cells.flatMap (fun k => (gridGet grid k).getD [])).filterMap getF).map
          (fun f => (f, dist lat lon f.lat f.lon))).filter
            (fun p => decide (p.2 ≤ radius))) ∧
    (∀ (groups : List SourceGroup) (cellSize : ℚ)
        (loader : Option (List ℕ → List LoadedChunk)) (st : LazyState)
        (dist : ℚ → ℚ → ℚ → ℚ → ℚ) (lon lat radius : ℚ) (now : ℕ),
      (∀ (cid : ℕ) (b : ChunkBoundary),
        (computeChunkBoundaries groups)[cid]? = some b →
        cid ∈ neededChunks
          (buildChunkMetadata (buildGrid cellSize (groups.flatMap (fun g => g.features)))
            (initializeChunkLookup (computeChunkBoundaries groups)))
          (cellsToCheck cellSize lon lat radius) →
        cid ∈ (ensureChunksLoaded loader st
          (neededChunks
            (buildChunkMetadata (buildGrid cellSize (groups.flatMap (fun g => g.features)))
              (initializeChunkLookup (computeChunkBoundaries groups)))
            (cellsToCheck cellSize lon lat radius)) now).loadedChunks ∧
        chunkMapGet (ensureChunksLoaded loader st
          (neededChunks
            (buildChunkMetadata (buildGrid cellSize (groups.flatMap (fun g => g.features)))
              (initializeChunkLookup (computeChunkBoundaries groups)))
            (cellsToCheck cellSize lon lat radius)) now).chunkMap cid =
          some (((groups.flatMap (fun g => g.features)).drop b.start).take (b.«end» - b.start))) →
      (queryRadiusLazy cellSize (buildGrid cellSize (groups.flatMap (fun g => g.features)))
        (buildChunkMetadata (buildGrid cellSize (groups.flatMap (fun g => g.features)))
          (initializeChunkLookup (computeChunkBoundaries groups)))
        (initializeChunkLookup (computeChunkBoundaries groups))
        (computeChunkBoundaries groups) loader st dist lon lat radius now).1 =
      queryRadiusEager ⟨cellSize, buildGrid cellSize (groups.flatMap (fun g => g.features)),
        groups.flatMap (fun g => g.features),
        (groups.flatMap (fun g => g.features)).length⟩ dist lon lat radius) ∧
    ((queryRadiusLazy 1
      (buildGrid 1
        [(⟨"Point", 0, 1 / 10, 1⟩ : Feature), ⟨"Point", 0, 2 / 10, 2⟩, ⟨"Point", 0, 4 / 10, 3⟩])
      (buildChunkMetadata (buildGrid 1
          [(⟨"Point", 0, 1 / 10, 1⟩ : Feature), ⟨"Point", 0, 2 / 10, 2⟩, ⟨"Point", 0, 4 / 10, 3⟩])
        (initializeChunkLookup (computeChunkBoundaries
          [⟨"a", [(⟨"Point", 0, 1 / 10, 1⟩ : Feature), ⟨"Point", 0, 2 / 10, 2⟩]⟩,
           ⟨"b", [⟨"Point", 0, 4 / 10, 3⟩]⟩])))
      (initializeChunkLookup (computeChunkBoundaries
        [⟨"a", [(⟨"Point", 0, 1 / 10, 1⟩ : Feature), ⟨"Point", 0, 2 / 10, 2⟩]⟩,
         ⟨"b", [⟨"Point", 0, 4 / 10, 3⟩]⟩]))
      (computeChunkBoundaries
        [⟨"a", [(⟨"Point", 0, 1 / 10, 1⟩ : Feature), ⟨"Point", 0, 2 / 10, 2⟩]⟩,
         ⟨"b", [⟨"Point", 0, 4 / 10, 3⟩]⟩])
      (some (fun ids => ids.map (fun id => (⟨id,
        some (if id = 0 then [(⟨"Point", 0, 1 / 10, 1⟩ : Feature), ⟨"Point", 0, 2 / 10, 2⟩]
          else [⟨"Point", 0, 4 / 10, 3⟩])⟩ : LoadedChunk))))
      ⟨[], [], [], 10⟩ (fun _ _ flat _ => flat * 10) 0 0 (5 / 2) 7).1 =
      [((⟨"Point", 0, 1 / 10, 1⟩ : Feature), (1 : ℚ)),
       ((⟨"Point", 0, 2 / 10, 2⟩ : Feature), 2)] ∧
    queryRadiusEager ⟨1, buildGrid 1
        [(⟨"Point", 0, 1 / 10, 1⟩ : Feature), ⟨"Point", 0, 2 / 10, 2⟩, ⟨"Point", 0, 4 / 10, 3⟩],
      [(⟨"Point", 0, 1 / 10, 1⟩ : Feature), ⟨"Point", 0, 2 / 10, 2⟩, ⟨"Point", 0, 4 / 10, 3⟩], 3⟩
      (fun _ _ flat _ => flat * 10) 0 0 (5 / 2) =
      [((⟨"Point", 0, 1 / 10, 1⟩ : Feature), (1 : ℚ)),
       ((⟨"Point", 0, 2 / 10, 2⟩ : Feature), 2)]) :=
  ⟨fun grid getF dist cells lat lon radius =>
      queryRadiusScan_eq grid getF dist cells lat lon radius,
   fun groups cellSize loader st dist lon lat radius now hres =>
      lazy_eager_equiv groups cellSize loader st dist lon lat radius now hres,
   wit_lazy, wit_eager⟩

/-- Witness for C3: the residency hypothesis of the amended equivalence
holds at the three-feature two-chunk configuration with a capacity-10
cache, so lazy and eager mode give the same answer there. -/
theorem claim_C3_witness :
    (queryRadiusLazy 1
      (buildGrid 1
        [(⟨"Point", 0, 1 / 10, 1⟩ : Feature), ⟨"Point", 0, 2 / 10, 2⟩, ⟨"Point", 0, 4 / 10, 3⟩])
      (buildChunkMetadata (buildGrid 1
          [(⟨"Point", 0, 1 / 10, 1⟩ : Feature), ⟨"Point", 0, 2 / 10, 2⟩, ⟨"Point", 0, 4 / 10, 3⟩])
        (initializeChunkLookup (computeChunkBoundaries
          [⟨"a", [(⟨"Point", 0, 1 / 10, 1⟩ : Feature), ⟨"Point", 0, 2 / 10, 2⟩]⟩,
           ⟨"b", [⟨"Point", 0, 4 / 10, 3⟩]⟩])))
      (initializeChunkLookup (computeChunkBoundaries
        [⟨"a", [(⟨"Point", 0, 1 / 10, 1⟩ : Feature), ⟨"Point", 0, 2 / 10, 2⟩]⟩,
         ⟨"b", [⟨"Point", 0, 4 / 10, 3⟩]⟩]))
      (computeChunkBoundaries
        [⟨"a", [(⟨"Point", 0, 1 / 10, 1⟩ : Feature), ⟨"Point", 0, 2 / 10, 2⟩]⟩,
         ⟨"b", [⟨"Point", 0, 4 / 10, 3⟩]⟩])
      (some (fun ids => ids.map (fun id => (⟨id,
        some (if id = 0 then [(⟨"Point", 0, 1 / 10, 1⟩ : Feature), ⟨"Point", 0, 2 / 10, 2⟩]
          else [⟨"Point", 0, 4 / 10, 3⟩])⟩ : LoadedChunk))))
      ⟨[], [], [], 10⟩ (fun _ _ flat _ => flat * 10) 0 0 (5 / 2) 7).1 =
    queryRadiusEager ⟨1, buildGrid 1
        [(⟨"Point", 0, 1 / 10, 1⟩ : Feature), ⟨"Point", 0, 2 / 10, 2⟩, ⟨"Point", 0, 4 / 10, 3⟩],
      [(⟨"Point", 0, 1 / 10, 1⟩ : Feature), ⟨"Point", 0, 2 / 10, 2⟩, ⟨"Point", 0, 4 / 10, 3⟩], 3⟩
      (fun _ _ flat _ => flat * 10) 0 0 (5 / 2) :=
  claim_C3_amended.2.1
    [⟨"a", [(⟨"Point", 0, 1 / 10, 1⟩ : Feature), ⟨"Point", 0, 2 / 10, 2⟩]⟩,
     ⟨"b", [⟨"Point", 0, 4 / 10, 3⟩]⟩] 1
    (some (fun ids => ids.map (fun id => (⟨id,
      some (if id = 0 then [(⟨"Point", 0, 1 / 10, 1⟩ : Feature), ⟨"Point", 0, 2 / 10, 2⟩]
        else [⟨"Point", 0, 4 / 10, 3⟩])⟩ : LoadedChunk))))
    ⟨[], [], [], 10⟩ (fun _ _ flat _ => flat * 10) 0 0 (5 / 2) 7
    (by
      intro cid b hb hcid
      rw [show ([⟨"a", [(⟨"Point", 0, 1 / 10, 1⟩ : Feature), ⟨"Point", 0, 2 / 10, 2⟩]⟩,
          ⟨"b", [⟨"Point", 0, 4 / 10, 3⟩]⟩] : List SourceGroup).flatMap (fun g => g.features) =
        [(⟨"Point", 0, 1 / 10, 1⟩ : Feature), ⟨"Point", 0, 2 / 10, 2⟩, ⟨"Point", 0, 4 / 10, 3⟩]
        from rfl]
      rw [wit_st2]
      rw [show computeChunkBoundaries
          [⟨"a", [(⟨"Point", 0, 1 / 10, 1⟩ : Feature), ⟨"Point", 0, 2 / 10, 2⟩]⟩,
           ⟨"b", [⟨"Point", 0, 4 / 10, 3⟩]⟩] = [⟨0, 2, "a"⟩, ⟨2, 3, "b"⟩] from rfl] at hb
      rcases cid with _ | _ | n
      · simp only [List.getElem?_cons_zero, Option.some_inj] at hb
        subst hb
        exact ⟨by decide, rfl⟩
      · simp only [List.getElem?_cons_succ, List.getElem?_cons_zero, Option.some_inj] at hb
        subst hb
        exact ⟨by decide, rfl⟩
      · simp at hb)

/-! ## Missing-chunk lemmas (C6) -/

lemma chunkMapGet_cons (e : ℕ × List Feature) (m : List (ℕ × List Feature)) (x : ℕ) :
    chunkMapGet (e :: m) x = if e.1 = x then some e.2 else chunkMapGet m x := by
  by_cases h : e.1 = x
  · simp [chunkMapGet, List.find?_cons, h]
  · simp [chunkMapGet, List.find?_cons, h]

lemma chunkMapGet_map_upd (id : ℕ) (fs : List Feature) :
    ∀ (m : List (ℕ × List Feature)) (x : ℕ),
      chunkMapGet (m.map (fun e => if e.1 = id then (id, fs) else e)) x =
        (if x = id then (if (chunkMapGet m id).isSome then some fs else none)
         else chunkMapGet m x) := by
  intro m
  induction m with
  | nil =>
    intro x
    by_cases hx : x = id <;> simp [chunkMapGet, hx]
  | cons e m ih =>
    intro x
    by_cases h1 : e.1 = id
    · by_cases hx : x = id
      · subst hx
        simp [List.map_cons, chunkMapGet_cons, h1]
      · have hx2 : ¬ id = x := fun h => hx h.symm
        have he : ¬ e.1 = x := by
          rw [h1]
          exact hx2
        simp [List.map_cons, chunkMapGet_cons, h1, hx, hx2, he, ih]
    · by_cases hx : x = id
      · subst hx
        simp [List.map_cons, chunkMapGet_cons, h1, ih]
      · simp [List.map_cons, chunkMapGet_cons, h1, hx, ih]

lemma chunkMapGet_append (m1 m2 : List (ℕ × List Feature)) (x : ℕ) :
    chunkMapGet (m1 ++ m2) x = (chunkMapGet m1 x).or (chunkMapGet m2 x) := by
  unfold chunkMapGet
  rw [List.find?_append]
  cases List.find? (fun e => decide (e.1 = x)) m1 <;> rfl

lemma chunkMapGet_set (m : List (ℕ × List Feature)) (id : ℕ) (fs : List Feature) (x : ℕ) :
    chunkMapGet (chunkMapSet m id fs) x = if x = id then some fs else chunkMapGet m x := by
  unfold chunkMapSet
  by_cases hpres : (chunkMapGet m id).isSome
  · rw [if_pos hpres, chunkMapGet_map_upd]
    by_cases hx : x = id
    · rw [if_pos hx, if_pos hx, if_pos hpres]
    · rw [if_neg hx, if_neg hx]
  · rw [if_neg hpres, chunkMapGet_append]
    by_cases hx : x = id
    · subst hx
      rw [Option.not_isSome_iff_eq_none.mp hpres, if_pos rfl, Option.none_or]
      simp [chunkMapGet]
    · rw [if_neg hx]
      have h2 : chunkMapGet [(id, fs)] x = none := by
        unfold chunkMapGet
        rw [List.find?_cons]
        rw [show (decide ((id, fs).1 = x)) = false by
          simp only [decide_eq_false_iff_not]
          exact fun h => hx h.symm]
        rfl
      rw [h2, Option.or_none]

lemma update_map (st : LazyState) (id now : ℕ) :
    (updateChunkCache st id now).chunkMap = st.chunkMap := by
  unfold updateChunkCache
  split <;> rfl

lemma update_len_of_mem (st : LazyState) (id now : ℕ)
    (h : id ∈ st.chunkCache.map (fun c => c.id)) :
    (updateChunkCache st id now).chunkCache.length = st.chunkCache.length := by
  have := congrArg List.length (update_ids_of_mem st id now h)
  simpa using this

lemma update_len_of_not_mem (st : LazyState) (id now : ℕ)
    (h : id ∉ st.chunkCache.map (fun c => c.id)) :
    (updateChunkCache st id now).chunkCache.length = st.chunkCache.length + 1 := by
  have := congrArg List.length (update_ids_of_not_mem st id now h)
  simpa using this

lemma absorb_fields (s : LazyState) (c : LoadedChunk) (fs : List Feature) (now : ℕ)
    (hcf : c.features = some fs) :
    (absorbChunk s c now).chunkMap = chunkMapSet s.chunkMap c.id fs ∧
    (absorbChunk s c now).loadedChunks =
      (if c.id ∈ s.loadedChunks then s.loadedChunks else s.loadedChunks ++ [c.id]) ∧
    (absorbChunk s c now).maxCachedChunks = s.maxCachedChunks := by
  unfold absorbChunk
  rw [hcf]
  dsimp only
  exact ⟨update_map _ c.id now, update_loaded _ c.id now, update_max _ c.id now⟩

lemma absorb_cache_of_mem (s : LazyState) (c : LoadedChunk) (fs : List Feature) (now : ℕ)
    (hcf : c.features = some fs) (h : c.id ∈ s.chunkCache.map (fun x => x.id)) :
    (absorbChunk s c now).chunkCache.map (fun x => x.id) = s.chunkCache.map (fun x => x.id) ∧
    (absorbChunk s c now).chunkCache.length = s.chunkCache.length := by
  unfold absorbChunk
  rw [hcf]
  dsimp only
  exact ⟨update_ids_of_mem _ c.id now h, update_len_of_mem _ c.id now h⟩

lemma absorb_cache_of_not_mem (s : LazyState) (c : LoadedChunk) (fs : List Feature) (now : ℕ)
    (hcf : c.features = some fs) (h : c.id ∉ s.chunkCache.map (fun x => x.id)) :
    (absorbChunk s c now).chunkCache.map (fun x => x.id) =
      s.chunkCache.map (fun x => x.id) ++ [c.id] ∧
    (absorbChunk s c now).chunkCache.length = s.chunkCache.length + 1 := by
  unfold absorbChunk
  rw [hcf]
  dsimp only
  exact ⟨update_ids_of_not_mem _ c.id now h, update_len_of_not_mem _ c.id now h⟩

lemma absorb_cache_le (s : LazyState) (c : LoadedChunk) (now : ℕ) :
    (absorbChunk s c now).chunkCache.length ≤ s.chunkCache.length + 1 := by
  cases hcf : c.features with
  | none =>
    unfold absorbChunk
    rw [hcf]
    dsimp only
    omega
  | some fs =>
    by_cases h : c.id ∈ s.chunkCache.map (fun x => x.id)
    · rw [(absorb_cache_of_mem s c fs now hcf h).2]
      omega
    · rw [(absorb_cache_of_not_mem s c fs now hcf h).2]

lemma absorb_max (s : LazyState) (c : LoadedChunk) (now : ℕ) :
    (absorbChunk s c now).maxCachedChunks = s.maxCachedChunks := by
  cases hcf : c.features with
  | none =>
    unfold absorbChunk
    rw [hcf]
  | some fs => exact (absorb_fields s c fs now hcf).2.2

lemma foldAbsorb_cache_le (now : ℕ) :
    ∀ (cs : List LoadedChunk) (s : LazyState),
      (cs.foldl (fun s c => absorbChunk s c now) s).chunkCache.length ≤
        s.chunkCache.length + cs.length := by
  intro cs
  induction cs with
  | nil => intro s; simp
  | cons c rest ih =>
    intro s
    simp only [List.foldl_cons, List.length_cons]
    have h1 := ih (absorbChunk s c now)
    have h2 := absorb_cache_le s c now
    omega

lemma foldAbsorb_max (now : ℕ) :
    ∀ (cs : List LoadedChunk) (s : LazyState),
      (cs.foldl (fun s c => absorbChunk s c now) s).maxCachedChunks = s.maxCachedChunks := by
  intro cs
  induction cs with
  | nil => intro s; rfl
  | cons c rest ih =>
    intro s
    simp only [List.foldl_cons]
    rw [ih, absorb_max]

lemma evict_noop (s : LazyState) (h : s.chunkCache.length ≤ s.maxCachedChunks) :
    evictOldChunks s = s := by
  unfold evictOldChunks
  rw [if_pos h]

lemma setAdd_nodup {s : List ℕ} {x : ℕ} (h : s.Nodup) : (setAdd s x).Nodup := by
  unfold setAdd
  split
  · exact h
  · next hx =>
    rw [List.nodup_append]
    exact ⟨h, List.nodup_singleton _, by simpa using hx⟩

lemma foldl_setAdd_nodup : ∀ (l acc : List ℕ), acc.Nodup → (l.foldl setAdd acc).Nodup := by
  intro l
  induction l with
  | nil => intro acc h; exact h
  | cons x rest ih =>
    intro acc h
    simp only [List.foldl_cons]
    exact ih _ (setAdd_nodup h)

lemma neededChunks_nodup (meta : ChunkMetadata) (cells : List CellKey) :
    (neededChunks meta cells).Nodup := by
  unfold neededChunks
  have H : ∀ (cs : List CellKey) (acc : List ℕ), acc.Nodup →
      (cs.foldl (fun acc cellKey => (getChunksForCell meta cellKey).foldl setAdd acc)
        acc).Nodup := by
    intro cs
    induction cs with
    | nil => intro acc h; exact h
    | cons k rest ih =>
      intro acc h
      simp only [List.foldl_cons]
      exact ih _ (foldl_setAdd_nodup _ _ h)
  exact H cells [] List.nodup_nil

lemma loadChunks_hom (store : Store) :
    ∀ (ids : List ℕ) (acc : List LoadedChunk),
      ids.foldl
        (fun chunks chunkId =>
          match chunkMapGet store.chunkRecs chunkId with
          | some fs => chunks ++ [⟨chunkId, some fs⟩]
          | none => chunks) acc =
      acc ++ ids.foldl
        (fun chunks chunkId =>
          match chunkMapGet store.chunkRecs chunkId with
          | some fs => chunks ++ [⟨chunkId, some fs⟩]
          | none => chunks) [] := by
  intro ids
  induction ids with
  | nil => intro acc; simp
  | cons id rest ih =>
    intro acc
    simp only [List.foldl_cons]
    rw [ih, ih (match chunkMapGet store.chunkRecs id with
      | some fs => [] ++ [⟨id, some fs⟩]
      | none => ([] : List LoadedChunk)), ← List.append_assoc]
    congr 1
    cases chunkMapGet store.chunkRecs id <;> simp

lemma loadChunksStore_eq (store : Store) :
    ∀ (ids : List ℕ),
      loadChunksStore store ids = ids.filterMap
        (fun id => (chunkMapGet store.chunkRecs id).map
          (fun fs => (⟨id, some fs⟩ : LoadedChunk))) := by
  intro ids
  induction ids with
  | nil => rfl
  | cons id rest ih =>
    unfold loadChunksStore at ih ⊢
    rw [List.foldl_cons, loadChunks_hom, ih, List.filterMap_cons]
    cases chunkMapGet store.chunkRecs id <;> simp

lemma loadChunks_ids (store : Store) (ids : List ℕ) :
    ∀ c ∈ loadChunksStore store ids,
      c.id ∈ ids ∧ (chunkMapGet store.chunkRecs c.id).isSome ∧
        c.features = chunkMapGet store.chunkRecs c.id := by
  intro c hc
  rw [loadChunksStore_eq] at hc
  obtain ⟨id, hid, hmap⟩ := List.mem_filterMap.mp hc
  cases hrec : chunkMapGet store.chunkRecs id with
  | none =>
    rw [hrec] at hmap
    simp at hmap
  | some fs =>
    rw [hrec] at hmap
    rw [show (some fs).map (fun fs => (⟨id, some fs⟩ : LoadedChunk)) =
      some ⟨id, some fs⟩ from rfl, Option.some_inj] at hmap
    rw [← hmap]
    refine ⟨hid, ?_, ?_⟩
    · rw [hrec]
      rfl
    · rw [hrec]

lemma getFeatureLazy_skip (ftc : Option (List ℕ)) (bs : List ChunkBoundary)
    (st : LazyState) (idx : ℕ)
    (h : (resolveChunkForIndex ftc bs idx).1.toNat ∉ st.loadedChunks) :
    getFeatureLazy ftc bs st idx = none := by
  unfold getFeatureLazy
  dsimp only
  rw [if_neg (fun hcond => h hcond.2)]

/-- Absorbing one loaded chunk with an id other than `cid` preserves the
missing-chunk simulation. -/
lemma absorb_sim (cid now : ℕ) (c : LoadedChunk) (hc : c.id ≠ cid) {sA sB : LazyState}
    (h : MissingSim cid sA sB) : MissingSim cid (absorbChunk sA c now) (absorbChunk sB c now) := by
  obtain ⟨hl, hlA, hm, hmc, hci, hciA, hlen, hmax⟩ := h
  cases hcf : c.features with
  | none =>
    unfold absorbChunk
    rw [hcf]
    exact ⟨hl, hlA, hm, hmc, hci, hciA, hlen, hmax⟩
  | some fs =>
    obtain ⟨hAm, hAl, hAx⟩ := absorb_fields sA c fs now hcf
    obtain ⟨hBm, hBl, hBx⟩ := absorb_fields sB c fs now hcf
    have hloadiff : ∀ x, x ∈ (absorbChunk sB c now).loadedChunks ↔
        (x ∈ (absorbChunk sA c now).loadedChunks ∨ x = cid) := by
      intro x
      rw [hBl, hAl]
      by_cases hmemA : c.id ∈ sA.loadedChunks
      · rw [if_pos hmemA, if_pos ((hl c.id).mpr (Or.inl hmemA))]
        exact hl x
      · have hmemB : c.id ∉ sB.loadedChunks := by
          intro hx
          rcases (hl c.id).mp hx with h' | h'
          · exact hmemA h'
          · exact hc h'
        rw [if_neg hmemA, if_neg hmemB]
        simp only [List.mem_append, List.mem_singleton]
        have := hl x
        tauto
    have hloadA : cid ∉ (absorbChunk sA c now).loadedChunks := by
      rw [hAl]
      split
      · exact hlA
      · simp only [List.mem_append, List.mem_singleton]
        rintro (h' | h')
        · exact hlA h'
        · exact hc h'.symm
    have hmap2 : ∀ x, x ≠ cid →
        chunkMapGet (absorbChunk sB c now).chunkMap x =
          chunkMapGet (absorbChunk sA c now).chunkMap x := by
      intro x hx
      rw [hBm, hAm, chunkMapGet_set, chunkMapGet_set]
      by_cases hxc : x = c.id
      · rw [if_pos hxc, if_pos hxc]
      · rw [if_neg hxc, if_neg hxc]
        exact hm x hx
    have hmapc : chunkMapGet (absorbChunk sB c now).chunkMap cid = some [] := by
      rw [hBm, chunkMapGet_set, if_neg (fun h' => hc h'.symm)]
      exact hmc
    have hmax2 : (absorbChunk sB c now).maxCachedChunks =
        (absorbChunk sA c now).maxCachedChunks := by
      rw [hBx, hAx]
      exact hmax
    by_cases hcm : c.id ∈ sA.chunkCache.map (fun x => x.id)
    · have hcmB : c.id ∈ sB.chunkCache.map (fun x => x.id) := (hci c.id).mpr (Or.inl hcm)
      obtain ⟨hAci, hAcl⟩ := absorb_cache_of_mem sA c fs now hcf hcm
      obtain ⟨hBci, hBcl⟩ := absorb_cache_of_mem sB c fs now hcf hcmB
      refine ⟨hloadiff, hloadA, hmap2, hmapc, ?_, ?_, ?_, hmax2⟩
      · intro x
        rw [hBci, hAci]
        exact hci x
      · rw [hAci]
        exact hciA
      · rw [hBcl, hAcl]
        exact hlen
    · have hcmB : c.id ∉ sB.chunkCache.map (fun x => x.id) := by
        intro hx
        rcases (hci c.id).mp hx with h' | h'
        · exact hcm h'
        · exact hc h'
      obtain ⟨hAci, hAcl⟩ := absorb_cache_of_not_mem sA c fs now hcf hcm
      obtain ⟨hBci, hBcl⟩ := absorb_cache_of_not_mem sB c fs now hcf hcmB
      refine ⟨hloadiff, hloadA, hmap2, hmapc, ?_, ?_, ?_, hmax2⟩
      · intro x
        rw [hBci, hAci]
        simp only [List.mem_append, List.mem_singleton]
        have := hci x
        tauto
      · rw [hAci]
        simp only [List.mem_append, List.mem_singleton]
        rintro (h' | h')
        · exact hciA h'
        · exact hc h'.symm
      · rw [hBcl, hAcl]
        omega

lemma foldAbsorb_sim (cid now : ℕ) :
    ∀ (cs : List LoadedChunk), (∀ c ∈ cs, c.id ≠ cid) → ∀ {sA sB : LazyState},
      MissingSim cid sA sB →
      MissingSim cid (cs.foldl (fun s c => absorbChunk s c now) sA)
        (cs.foldl (fun s c => absorbChunk s c now) sB) := by
  intro cs
  induction cs with
  | nil => intro _ sA sB h; exact h
  | cons c rest ih =>
    intro hcs sA sB h
    simp only [List.foldl_cons]
    exact ih (fun c' hc' => hcs c' (List.mem_cons_of_mem _ hc'))
      (absorb_sim cid now c (hcs c (List.mem_cons_self _ _)) h)

/-- Folding chunks whose ids differ from `cid` never touches `cid`'s
loaded mark or cache entry. -/
lemma foldAbsorb_cid_free (cid now : ℕ) :
    ∀ (cs : List LoadedChunk), (∀ c ∈ cs, c.id ≠ cid) → ∀ (s : LazyState),
      cid ∉ s.loadedChunks → cid ∉ s.chunkCache.map (fun x => x.id) →
      cid ∉ (cs.foldl (fun s c => absorbChunk s c now) s).loadedChunks ∧
      cid ∉ (cs.foldl (fun s c => absorbChunk s c now) s).chunkCache.map (fun x => x.id) := by
  intro cs
  induction cs with
  | nil => intro _ s h1 h2; exact ⟨h1, h2⟩
  | cons c rest ih =>
    intro hcs s h1 h2
    simp only [List.foldl_cons]
    have hc : c.id ≠ cid := hcs c (List.mem_cons_self _ _)
    have hstep : cid ∉ (absorbChunk s c now).loadedChunks ∧
        cid ∉ (absorbChunk s c now).chunkCache.map (fun x => x.id) := by
      cases hcf : c.features with
      | none =>
        unfold absorbChunk
        rw [hcf]
        exact ⟨h1, h2⟩
      | some fs =>
        obtain ⟨_, hAl, _⟩ := absorb_fields s c fs now hcf
        constructor
        · rw [hAl]
          split
          · exact h1
          · simp only [List.mem_append, List.mem_singleton]
            rintro (h' | h')
            · exact h1 h'
            · exact hc h'.symm
        · by_cases hcm : c.id ∈ s.chunkCache.map (fun x => x.id)
          · rw [(absorb_cache_of_mem s c fs now hcf hcm).1]
            exact h2
          · rw [(absorb_cache_of_not_mem s c fs now hcf hcm).1]
            simp only [List.mem_append, List.mem_singleton]
            rintro (h' | h')
            · exact h2 h'
            · exact hc h'.symm
    exact ih (fun c' hc' => hcs c' (List.mem_cons_of_mem _ hc')) _ hstep.1 hstep.2

/-- Absorbing `cid` itself with an empty feature array starts the
missing-chunk simulation. -/
lemma absorb_empty_base (cid now : ℕ) (s : LazyState) (h1 : cid ∉ s.loadedChunks)
    (h2 : cid ∉ s.chunkCache.map (fun x => x.id)) :
    MissingSim cid s (absorbChunk s ⟨cid, some []⟩ now) := by
  obtain ⟨hm, hlq, hx⟩ := absorb_fields s ⟨cid, some []⟩ [] now rfl
  obtain ⟨hci, hcl⟩ := absorb_cache_of_not_mem s ⟨cid, some []⟩ [] now rfl h2
  refine ⟨?_, h1, ?_, ?_, ?_, h2, hcl, hx⟩
  · intro x
    rw [hlq]
    rw [if_neg h1]
    simp
  · intro x hx2
    rw [hm, chunkMapGet_set, if_neg hx2]
  · rw [hm, chunkMapGet_set, if_pos rfl]
  · intro x
    rw [hci]
    simp

/-- Under the missing-chunk simulation the lazy getFeature agrees between
the two runs: indices of the missing chunk yield nothing in either
(an empty chunk has no feature at any local index), all others are
answered identically. -/
lemma getFeatureLazy_sim (cid : ℕ) (ftc : Option (List ℕ)) (bs : List ChunkBoundary)
    {sA sB : LazyState} (h : MissingSim cid sA sB) (idx : ℕ) :
    getFeatureLazy ftc bs sA idx = getFeatureLazy ftc bs sB idx := by
  obtain ⟨hl, hlA, hm, hmc, _, _, _, _⟩ := h
  unfold getFeatureLazy
  dsimp only
  by_cases hsgn : 0 ≤ (resolveChunkForIndex ftc bs idx).1
  · by_cases hx : (resolveChunkForIndex ftc bs idx).1.toNat = cid
    · rw [if_neg (fun hcond => hlA (hx ▸ hcond.2))]
      rw [if_pos ⟨hsgn, (hl _).mpr (Or.inr hx)⟩]
      rw [hx, hmc]
      dsimp only
      rw [dif_neg (by
        intro hcond
        simp only [List.length_nil] at hcond
        omega)]
    · by_cases hmem : (resolveChunkForIndex ftc bs idx).1.toNat ∈ sA.loadedChunks
      · rw [if_pos ⟨hsgn, hmem⟩, if_pos ⟨hsgn, (hl _).mpr (Or.inl hmem)⟩]
        rw [hm _ hx]
      · rw [if_neg (fun hcond => hmem hcond.2),
          if_neg (fun hcond => hmem (((hl _).mp hcond.2).resolve_right hx))]
  · rw [if_neg (fun hcond => hsgn hcond.1), if_neg (fun hcond => hsgn hcond.1)]

/-- A chunk id missing from the store behaves — for the query result —
exactly like a chunk with zero features, provided the extra empty chunk
does not push the cache over capacity (no eviction is triggered). -/
lemma missing_empty_equiv (storeA : Store) (cid : ℕ) (cellSize : ℚ) (grid : Grid)
    (meta : ChunkMetadata) (ftc : Option (List ℕ)) (bs : List ChunkBoundary)
    (st : LazyState) (dist : ℚ → ℚ → ℚ → ℚ → ℚ) (lon lat radius : ℚ) (now : ℕ)
    (hmiss : chunkMapGet storeA.chunkRecs cid = none)
    (hld : cid ∉ st.loadedChunks)
    (hcc : cid ∉ st.chunkCache.map (fun c => c.id))
    (hcap : st.chunkCache.length +
      ((neededChunks meta (cellsToCheck cellSize lon lat radius)).filter
        (fun id => decide (id ∉ st.loadedChunks))).length ≤ st.maxCachedChunks) :
    (queryRadiusLazy cellSize grid meta ftc bs (some (loadChunksStore storeA))
      st dist lon lat radius now).1 =
    (queryRadiusLazy cellSize grid meta ftc bs
      (some (loadChunksStore ⟨storeA.indexRec, storeA.chunkRecs ++ [(cid, [])]⟩))
      st dist lon lat radius now).1 := by
  unfold queryRadiusLazy
  dsimp only
  unfold ensureChunksLoaded
  dsimp only
  set toLoad := (neededChunks meta (cellsToCheck cellSize lon lat radius)).filter
    (fun id => decide (id ∉ st.loadedChunks)) with htoLoad
  by_cases htl : toLoad.length = 0
  · rw [if_pos htl, if_pos htl]
  · rw [if_neg htl, if_neg htl]
    have hnd : toLoad.Nodup := by
      rw [htoLoad]
      exact (neededChunks_nodup meta _).filter _
    have hg2proj : (⟨storeA.indexRec, storeA.chunkRecs ++ [(cid, [])]⟩ : Store).chunkRecs =
        storeA.chunkRecs ++ [(cid, [])] := rfl
    have hg2eq : ∀ id, id ≠ cid →
        chunkMapGet (⟨storeA.indexRec, storeA.chunkRecs ++ [(cid, [])]⟩ : Store).chunkRecs id =
          chunkMapGet storeA.chunkRecs id := by
      intro id hne
      rw [hg2proj, chunkMapGet_append,
        show chunkMapGet [(cid, [])] id = none from by
          rw [chunkMapGet_cons, if_neg (fun h => hne h.symm)]
          rfl,
        Option.or_none]
    by_cases hcin : cid ∈ toLoad
    · obtain ⟨t1, t2, hsplit⟩ := List.append_of_mem hcin
      have hnd2 := hnd
      rw [hsplit] at hnd2
      obtain ⟨hndt1, hndc2, hdisj⟩ := List.nodup_append.mp hnd2
      have ht1 : ∀ x ∈ t1, x ≠ cid := by
        intro x hx1 heq
        subst heq
        exact hdisj hx1 (List.mem_cons_self _ _)
      have ht2 : cid ∉ t2 := (List.nodup_cons.mp hndc2).1
      have hg2c : chunkMapGet
          (⟨storeA.indexRec, storeA.chunkRecs ++ [(cid, [])]⟩ : Store).chunkRecs cid =
          some [] := by
        rw [hg2proj, chunkMapGet_append, hmiss, Option.none_or, chunkMapGet_cons, if_pos rfl]
      have hrB : loadChunksStore ⟨storeA.indexRec, storeA.chunkRecs ++ [(cid, [])]⟩ toLoad =
          loadChunksStore storeA t1 ++ (⟨cid, some []⟩ : LoadedChunk) ::
            loadChunksStore storeA t2 := by
        rw [hsplit]
        simp only [loadChunksStore_eq]
        rw [List.filterMap_append, List.filterMap_cons, hg2c]
        rw [show ((some ([] : List Feature)).map
          (fun fs => (⟨cid, some fs⟩ : LoadedChunk))) = some ⟨cid, some []⟩ from rfl]
        dsimp only
        congr 1
        · exact List.filterMap_congr (fun id hid => by rw [hg2eq id (ht1 id hid)])
        · congr 1
          exact List.filterMap_congr (fun id hid =>
            by rw [hg2eq id (fun h => ht2 (h ▸ hid))])
      have hrA : loadChunksStore storeA toLoad =
          loadChunksStore storeA t1 ++ loadChunksStore storeA t2 := by
        rw [hsplit]
        simp only [loadChunksStore_eq]
        rw [List.filterMap_append, List.filterMap_cons, hmiss]
        rfl
      rw [hrA, hrB, List.foldl_append, List.foldl_append, List.foldl_cons]
      have hT1ids : ∀ c ∈ loadChunksStore storeA t1, c.id ≠ cid := by
        intro c hc
        exact ht1 c.id (loadChunks_ids storeA t1 c hc).1
      have hT2ids : ∀ c ∈ loadChunksStore storeA t2, c.id ≠ cid := by
        intro c hc heq
        exact ht2 (heq ▸ (loadChunks_ids storeA t2 c hc).1)
      have hmidfree := foldAbsorb_cid_free cid now (loadChunksStore storeA t1) hT1ids st hld hcc
      have hbase := absorb_empty_base cid now
        ((loadChunksStore storeA t1).foldl (fun s c => absorbChunk s c now) st)
        hmidfree.1 hmidfree.2
      have hsim := foldAbsorb_sim cid now (loadChunksStore storeA t2) hT2ids hbase
      have hslen := hsim.2.2.2.2.2.2.1
      have hsmax := hsim.2.2.2.2.2.2.2
      -- length bookkeeping: no eviction on either side
      have hl1 : (loadChunksStore storeA t1).length ≤ t1.length := by
        rw [loadChunksStore_eq]
        exact List.length_filterMap_le _ _
      have hl2 : (loadChunksStore storeA t2).length ≤ t2.length := by
        rw [loadChunksStore_eq]
        exact List.length_filterMap_le _ _
      have hmidlen := foldAbsorb_cache_le now (loadChunksStore storeA t1) st
      have hAlen := foldAbsorb_cache_le now (loadChunksStore storeA t2)
        ((loadChunksStore storeA t1).foldl (fun s c => absorbChunk s c now) st)
      have htll : toLoad.length = t1.length + t2.length + 1 := by
        rw [hsplit]
        simp only [List.length_append, List.length_cons]
        omega
      have hmaxmid : ((loadChunksStore storeA t1).foldl
          (fun s c => absorbChunk s c now) st).maxCachedChunks = st.maxCachedChunks :=
        foldAbsorb_max now _ st
      have hmaxA : ((loadChunksStore storeA t2).foldl (fun s c => absorbChunk s c now)
          ((loadChunksStore storeA t1).foldl (fun s c => absorbChunk s c now) st)).maxCachedChunks
          = st.maxCachedChunks := by
        rw [foldAbsorb_max, hmaxmid]
      have hevA := evict_noop _ (by rw [hmaxA]; omega)
      have hevB := evict_noop _ (by rw [hsmax, hmaxA]; omega)
      rw [hevA, hevB]
      rw [queryRadiusScan_eq, queryRadiusScan_eq]
      congr 1
      congr 1
      refine List.filterMap_congr ?_
      intro idx _
      exact getFeatureLazy_sim cid ftc bs hsim idx
    · have hr : loadChunksStore ⟨storeA.indexRec, storeA.chunkRecs ++ [(cid, [])]⟩ toLoad =
          loadChunksStore storeA toLoad := by
        simp only [loadChunksStore_eq]
        refine List.filterMap_congr ?_
        intro id hid
        rw [hg2eq id (fun h => hcin (h ▸ hid))]
      rw [hr]

/-- Post-load state when chunk 1 is missing from the store: only chunk 0
is loaded, the capacity-1 cache is full but nothing is evicted. -/
lemma ce6_stA : ensureChunksLoaded
    (some (loadChunksStore ⟨none, [(0, [(⟨"Point", 0, 0, 0⟩ : Feature)])]⟩))
    ⟨[], [], [], 1⟩
    (neededChunks
      (buildChunkMetadata (buildGrid 1 [(⟨"Point", 0, 0, 0⟩ : Feature), ⟨"Point", 0, 0, 1⟩])
        (initializeChunkLookup (computeChunkBoundaries
          [⟨"a", [(⟨"Point", 0, 0, 0⟩ : Feature)]⟩, ⟨"b", [⟨"Point", 0, 0, 1⟩]⟩])))
      (cellsToCheck 1 0 0 0)) 5 =
    ⟨[(0, [⟨"Point", 0, 0, 0⟩])], [0], [⟨0, 5⟩], 1⟩ := by
  rw [ce_grid, ce_cells]
  rfl

/-- Post-load state when chunk 1 is stored with an empty feature array:
the extra empty chunk overflows the capacity-1 cache and evicts the
needed chunk 0. -/
lemma ce6_stB : ensureChunksLoaded
    (some (loadChunksStore ⟨none, [(0, [(⟨"Point", 0, 0, 0⟩ : Feature)]), (1, [])]⟩))
    ⟨[], [], [], 1⟩
    (neededChunks
      (buildChunkMetadata (buildGrid 1 [(⟨"Point", 0, 0, 0⟩ : Feature), ⟨"Point", 0, 0, 1⟩])
        (initializeChunkLookup (computeChunkBoundaries
          [⟨"a", [(⟨"Point", 0, 0, 0⟩ : Feature)]⟩, ⟨"b", [⟨"Point", 0, 0, 1⟩]⟩])))
      (cellsToCheck 1 0 0 0)) 5 =
    ⟨[(1, [])], [1], [⟨1, 5⟩], 1⟩ := by
  rw [ce_grid, ce_cells]
  rfl

/-- C6 counterexample: a missing chunk record is NOT equivalent to a
record with zero features.  Chunk 1 is requested by the query; with the
record missing the query returns chunk 0's feature, but with chunk 1
stored empty the extra loaded chunk overflows the capacity-1 cache,
evicts chunk 0 during the query's own load pass, and the query returns
nothing. -/
theorem claim_C6_counterexample :
    (queryRadiusLazy 1
      (buildGrid 1 [(⟨"Point", 0, 0, 0⟩ : Feature), ⟨"Point", 0, 0, 1⟩])
      (buildChunkMetadata (buildGrid 1 [(⟨"Point", 0, 0, 0⟩ : Feature), ⟨"Point", 0, 0, 1⟩])
        (initializeChunkLookup (computeChunkBoundaries
          [⟨"a", [(⟨"Point", 0, 0, 0⟩ : Feature)]⟩, ⟨"b", [⟨"Point", 0, 0, 1⟩]⟩])))
      (initializeChunkLookup (computeChunkBoundaries
        [⟨"a", [(⟨"Point", 0, 0, 0⟩ : Feature)]⟩, ⟨"b", [⟨"Point", 0, 0, 1⟩]⟩]))
      (computeChunkBoundaries
        [⟨"a", [(⟨"Point", 0, 0, 0⟩ : Feature)]⟩, ⟨"b", [⟨"Point", 0, 0, 1⟩]⟩])
      (some (loadChunksStore ⟨none, [(0, [(⟨"Point", 0, 0, 0⟩ : Feature)])]⟩))
      ⟨[], [], [], 1⟩ (fun _ _ _ _ => 0) 0 0 0 5).1 =
      [((⟨"Point", 0, 0, 0⟩ : Feature), (0 : ℚ))] ∧
    (queryRadiusLazy 1
      (buildGrid 1 [(⟨"Point", 0, 0, 0⟩ : Feature), ⟨"Point", 0, 0, 1⟩])
      (buildChunkMetadata (buildGrid 1 [(⟨"Point", 0, 0, 0⟩ : Feature), ⟨"Point", 0, 0, 1⟩])
        (initializeChunkLookup (computeChunkBoundaries
          [⟨"a", [(⟨"Point", 0, 0, 0⟩ : Feature)]⟩, ⟨"b", [⟨"Point", 0, 0, 1⟩]⟩])))
      (initializeChunkLookup (computeChunkBoundaries
        [⟨"a", [(⟨"Point", 0, 0, 0⟩ : Feature)]⟩, ⟨"b", [⟨"Point", 0, 0, 1⟩]⟩]))
      (computeChunkBoundaries
        [⟨"a", [(⟨"Point", 0, 0, 0⟩ : Feature)]⟩, ⟨"b", [⟨"Point", 0, 0, 1⟩]⟩])
      (some (loadChunksStore ⟨none, [(0, [(⟨"Point", 0, 0, 0⟩ : Feature)]), (1, [])]⟩))
      ⟨[], [], [], 1⟩ (fun _ _ _ _ => 0) 0 0 0 5).1 = [] ∧
    ([((⟨"Point", 0, 0, 0⟩ : Feature), (0 : ℚ))] : List (Feature × ℚ)) ≠ [] := by
  refine ⟨?_, ?_, by simp⟩
  · unfold queryRadiusLazy
    dsimp only
    rw [ce6_stA, ce_cells, ce_grid]
    rw [show initializeChunkLookup (computeChunkBoundaries
        [⟨"a", [(⟨"Point", 0, 0, 0⟩ : Feature)]⟩, ⟨"b", [⟨"Point", 0, 0, 1⟩]⟩]) =
      some [0, 1] from rfl]
    rw [show computeChunkBoundaries
        [⟨"a", [(⟨"Point", 0, 0, 0⟩ : Feature)]⟩, ⟨"b", [⟨"Point", 0, 0, 1⟩]⟩] =
      [⟨0, 1, "a"⟩, ⟨1, 2, "b"⟩] from rfl]
    rw [queryRadiusScan_eq]
    rw [show [((0 : ℤ), (0 : ℤ))].flatMap
        (fun k => (gridGet [(((0 : ℤ), (0 : ℤ)), [0, 1])] k).getD []) = [0, 1] from rfl]
    have hf0 : getFeatureLazy (some [0, 1]) [⟨0, 1, "a"⟩, ⟨1, 2, "b"⟩]
        ⟨[(0, [⟨"Point", 0, 0, 0⟩])], [0], [⟨0, 5⟩], 1⟩ 0 = some ⟨"Point", 0, 0, 0⟩ := rfl
    have hf1 : getFeatureLazy (some [0, 1]) [⟨0, 1, "a"⟩, ⟨1, 2, "b"⟩]
        ⟨[(0, [⟨"Point", 0, 0, 0⟩])], [0], [⟨0, 5⟩], 1⟩ 1 = none := rfl
    simp only [List.filterMap_cons, List.filterMap_nil, hf0, hf1, List.map_cons, List.map_nil]
    norm_num
  · unfold queryRadiusLazy
    dsimp only
    rw [ce6_stB, ce_cells, ce_grid]
    rw [show initializeChunkLookup (computeChunkBoundaries
        [⟨"a", [(⟨"Point", 0, 0, 0⟩ : Feature)]⟩, ⟨"b", [⟨"Point", 0, 0, 1⟩]⟩]) =
      some [0, 1] from rfl]
    rw [show computeChunkBoundaries
        [⟨"a", [(⟨"Point", 0, 0, 0⟩ : Feature)]⟩, ⟨"b", [⟨"Point", 0, 0, 1⟩]⟩] =
      [⟨0, 1, "a"⟩, ⟨1, 2, "b"⟩] from rfl]
    rw [queryRadiusScan_eq]
    rw [show [((0 : ℤ), (0 : ℤ))].flatMap
        (fun k => (gridGet [(((0 : ℤ), (0 : ℤ)), [0, 1])] k).getD []) = [0, 1] from rfl]
    have hf0 : getFeatureLazy (some [0, 1]) [⟨0, 1, "a"⟩, ⟨1, 2, "b"⟩]
        ⟨[(1, [])], [1], [⟨1, 5⟩], 1⟩ 0 = none := rfl
    have hf1 : getFeatureLazy (some [0, 1]) [⟨0, 1, "a"⟩, ⟨1, 2, "b"⟩]
        ⟨[(1, [])], [1], [⟨1, 5⟩], 1⟩ 1 = none := rfl
    simp only [List.filterMap_cons, List.filterMap_nil, hf0, hf1, List.map_nil, List.filter_nil]

/-- C6 amended: the load response carries exactly the requested chunks
that have store records (their stored features), omitting missing ids
entirely; a feature resolving to an unloaded chunk is skipped by the
lazy getFeature; and a missing chunk record is observationally equal to
a record with zero features provided the extra empty chunk does not
push the cache over capacity during the query's load pass (without that
proviso the counterexample applies). -/
theorem claim_C6_amended :
    (∀ (store : Store) (ids : List ℕ), ∀ c ∈ loadChunksStore store ids,
      c.id ∈ ids ∧ (chunkMapGet store.chunkRecs c.id).isSome ∧
        c.features = chunkMapGet store.chunkRecs c.id) ∧
    (∀ (store : Store) (ids : List ℕ) (cid : ℕ),
      chunkMapGet store.chunkRecs cid = none →
      ∀ c ∈ loadChunksStore store ids, c.id ≠ cid) ∧
    (∀ (ftc : Option (List ℕ)) (bs : List ChunkBoundary) (st : LazyState) (idx : ℕ),
      (resolveChunkForIndex ftc bs idx).1.toNat ∉ st.loadedChunks →
      getFeatureLazy ftc bs st idx = none) ∧
    (∀ (storeA : Store) (cid : ℕ) (cellSize : ℚ) (grid : Grid)
        (meta : ChunkMetadata) (ftc : Option (List ℕ)) (bs : List ChunkBoundary)
        (st : LazyState) (dist : ℚ → ℚ → ℚ → ℚ → ℚ) (lon lat radius : ℚ) (now : ℕ),
      chunkMapGet storeA.chunkRecs cid = none →
      cid ∉ st.loadedChunks →
      cid ∉ st.chunkCache.map (fun c => c.id) →
      st.chunkCache.length +
        ((neededChunks meta (cellsToCheck cellSize lon lat radius)).filter
          (fun id => decide (id ∉ st.loadedChunks))).length ≤ st.maxCachedChunks →
      (queryRadiusLazy cellSize grid meta ftc bs (some (loadChunksStore storeA))
        st dist lon lat radius now).1 =
      (queryRadiusLazy cellSize grid meta ftc bs
        (some (loadChunksStore ⟨storeA.indexRec, storeA.chunkRecs ++ [(cid, [])]⟩))
        st dist lon lat radius now).1) :=
  ⟨loadChunks_ids,
   fun store ids cid hnone c hc heq => by
     have h := (loadChunks_ids store ids c hc).2.1
     rw [heq, hnone] at h
     simp at h,
   getFeatureLazy_skip,
   fun storeA cid cellSize grid meta ftc bs st dist lon lat radius now h1 h2 h3 h4 =>
     missing_empty_equiv storeA cid cellSize grid meta ftc bs st dist lon lat radius now
       h1 h2 h3 h4⟩

/-- Witness for C6: with ample cache capacity the query over the store
missing chunk 1 returns the same result as over the store holding
chunk 1 with zero features. -/
theorem claim_C6_witness :
    (queryRadiusLazy 1 [(((0 : ℤ), (0 : ℤ)), [0, 1])] [(((0 : ℤ), (0 : ℤ)), [0, 1])]
      (some [0, 1]) [⟨0, 1, "a"⟩, ⟨1, 2, "b"⟩]
      (some (loadChunksStore ⟨none, [(0, [(⟨"Point", 0, 0, 0⟩ : Feature)])]⟩))
      ⟨[], [], [], 10⟩ (fun _ _ _ _ => 0) 0 0 0 5).1 =
    (queryRadiusLazy 1 [(((0 : ℤ), (0 : ℤ)), [0, 1])] [(((0 : ℤ), (0 : ℤ)), [0, 1])]
      (some [0, 1]) [⟨0, 1, "a"⟩, ⟨1, 2, "b"⟩]
      (some (loadChunksStore ⟨none, [(0, [(⟨"Point", 0, 0, 0⟩ : Feature)]), (1, [])]⟩))
      ⟨[], [], [], 10⟩ (fun _ _ _ _ => 0) 0 0 0 5).1 :=
  claim_C6_amended.2.2.2 ⟨none, [(0, [(⟨"Point", 0, 0, 0⟩ : Feature)])]⟩ 1 1
    [(((0 : ℤ), (0 : ℤ)), [0, 1])] [(((0 : ℤ), (0 : ℤ)), [0, 1])] (some [0, 1])
    [⟨0, 1, "a"⟩, ⟨1, 2, "b"⟩] ⟨[], [], [], 10⟩ (fun _ _ _ _ => 0) 0 0 0 5
    rfl (by simp) (by simp) (by rw [ce_cells]; decide)

end BuildingRadar
